import Mathlib

/-!
Verification of the MovieScene interval segment compiler
(`Engine/Source/Runtime/MovieScene/Private/Compilation/MovieSceneSegmentCompiler.cpp`).

The value domain of the C++ code is `float` time; the algorithm only ever
compares bound values, so we embed it over an arbitrary linear order `α`
(instantiated at `Int` for concrete witnesses).

`TArray` state is embedded as `List`.  The compiler's `CompiledSegments`
array is kept in *reverse* order during the sweep (head = most recently
emplaced segment), so that `Last()`, `RemoveAt(Num-1)` and `Emplace` become
head operations; the final result reverses it.  Read indices
(`LowerReadIndex`/`UpperReadIndex`) are embedded by consuming the sorted
event lists from the front.
-/

set_option maxHeartbeats 1000000

namespace MovieScene

/-- Modelled from the spec (§3 Bound): one endpoint of a range, tagged
open (unbounded), closed-inclusive or closed-exclusive.  (`TRangeBound`
from `Range.h`, which is outside `src/`.) -/
inductive TRangeBound (α : Type) where
  | unbounded : TRangeBound α
  | inclusive (v : α) : TRangeBound α
  | exclusive (v : α) : TRangeBound α
deriving DecidableEq

namespace TRangeBound

variable {α : Type} [LinearOrder α]

/-- Modelled from the spec (§4.1): `FlipInclusion`: Open→Open;
Closed-Inclusive(v)→Closed-Exclusive(v); Closed-Exclusive(v)→Closed-Inclusive(v). -/
def flipInclusion : TRangeBound α → TRangeBound α
  | unbounded => unbounded
  | inclusive v => exclusive v
  | exclusive v => inclusive v

/-- `TRangeBound::IsOpen`. -/
def isOpen : TRangeBound α → Bool
  | unbounded => true
  | _ => false

/-- Modelled from the spec (§4.1 `MinLower` order): total order on *lower*
bounds; an Open lower bound is minimal, and among equal values
Closed-Inclusive-lower < Closed-Exclusive-lower. -/
def lowLE : TRangeBound α → TRangeBound α → Bool
  | unbounded, _ => true
  | _, unbounded => false
  | inclusive va, inclusive vb => va ≤ vb
  | inclusive va, exclusive vb => va ≤ vb
  | exclusive va, inclusive vb => va < vb
  | exclusive va, exclusive vb => va ≤ vb

/-- Modelled from the spec (§4.1 `MinUpper` order): total order on *upper*
bounds; an Open upper bound is maximal, and among equal values
Closed-Exclusive-upper < Closed-Inclusive-upper. -/
def upLE : TRangeBound α → TRangeBound α → Bool
  | _, unbounded => true
  | unbounded, _ => false
  | inclusive va, inclusive vb => va ≤ vb
  | inclusive va, exclusive vb => va < vb
  | exclusive va, inclusive vb => va ≤ vb
  | exclusive va, exclusive vb => va ≤ vb

/-- Strict version of `lowLE`. -/
def lowLT (a b : TRangeBound α) : Bool := !lowLE b a

/-- Strict version of `upLE`. -/
def upLT (a b : TRangeBound α) : Bool := !upLE b a

/-- Modelled from the spec (§4.1): `MinLower(a,b)` returns the lesser lower bound. -/
def minLower (a b : TRangeBound α) : TRangeBound α := if lowLE a b then a else b

/-- Modelled from the spec (§4.1): `MinUpper(a,b)` returns the lesser upper bound. -/
def minUpper (a b : TRangeBound α) : TRangeBound α := if upLE a b then a else b

/-- Modelled from the spec: `MaxLower(a,b)` returns the greater lower bound. -/
def maxLower (a b : TRangeBound α) : TRangeBound α := if lowLE a b then b else a

/-- Modelled from the spec: `MaxUpper(a,b)` returns the greater upper bound. -/
def maxUpper (a b : TRangeBound α) : TRangeBound α := if upLE a b then b else a

/-- Semantic membership: the points admitted by a *lower* bound. -/
def memLower : TRangeBound α → α → Bool
  | unbounded, _ => true
  | inclusive v, p => v ≤ p
  | exclusive v, p => v < p

/-- Semantic membership: the points admitted by an *upper* bound. -/
def memUpper : TRangeBound α → α → Bool
  | unbounded, _ => true
  | inclusive v, p => p ≤ v
  | exclusive v, p => p < v

end TRangeBound

/-- Modelled from the spec (§3 Range): a pair (LowerBound, UpperBound).
(`TRange` from `Range.h`, which is outside `src/`.) -/
structure TRange (α : Type) where
  lowerBound : TRangeBound α
  upperBound : TRangeBound α
deriving DecidableEq

namespace TRange

variable {α : Type} [LinearOrder α]

/-- Modelled from the spec (§4.1 `IsEmpty`): true iff the lower bound is
strictly greater than the upper bound under the ordering, accounting for
inclusive/exclusive at equal values (any open bound makes it non-empty). -/
def isEmpty (r : TRange α) : Bool :=
  match r.lowerBound, r.upperBound with
  | .inclusive lv, .inclusive uv => uv < lv
  | .inclusive lv, .exclusive uv => uv ≤ lv
  | .exclusive lv, .inclusive uv => uv ≤ lv
  | .exclusive lv, .exclusive uv => uv ≤ lv
  | _, _ => false

/-- Semantic point membership in a range. -/
def memR (r : TRange α) (p : α) : Bool :=
  r.lowerBound.memLower p && r.upperBound.memUpper p

/-- Modelled from the spec (§3): `Contains(Range)`:
the lower bound reaches at least as low and the upper at least as high. -/
def containsRange (r other : TRange α) : Bool :=
  TRangeBound.lowLE r.lowerBound other.lowerBound &&
  TRangeBound.upLE other.upperBound r.upperBound

/-- Modelled from the spec (§3): `Intersection` (greater lower bound,
lesser upper bound). -/
def intersection (a b : TRange α) : TRange α :=
  ⟨TRangeBound.maxLower a.lowerBound b.lowerBound,
   TRangeBound.minUpper a.upperBound b.upperBound⟩

/-- Modelled from the spec (§3): `Hull` — the smallest enclosing range of
two; an empty argument yields the other. -/
def hull (a b : TRange α) : TRange α :=
  if a.isEmpty then b
  else if b.isEmpty then a
  else ⟨TRangeBound.minLower a.lowerBound b.lowerBound,
        TRangeBound.maxUpper a.upperBound b.upperBound⟩

/-- An upper bound `u` and a lower bound `l` share their boundary value
with opposite inclusion (the ranges touch with no gap and no overlap). -/
def boundAdjacent : TRangeBound α → TRangeBound α → Bool
  | .inclusive ua, .exclusive lb => ua = lb
  | .exclusive ua, .inclusive lb => ua = lb
  | _, _ => false

/-- Modelled from the spec (§3): `Adjoins` — contiguous with no gap and no
overlap: one's upper bound flips to exactly the other's lower bound,
sharing the boundary value with opposite inclusion. -/
def adjoins (a b : TRange α) : Bool :=
  if a.isEmpty || b.isEmpty then false
  else boundAdjacent a.upperBound b.lowerBound || boundAdjacent b.upperBound a.lowerBound

/-- "Overlap" of two ranges: their intersection is non-empty. -/
def overlaps (a b : TRange α) : Bool := !(intersection a b).isEmpty

end TRange

/-- `ESectionEvaluationFlags` (header is outside `src/`): evaluation tags. -/
inductive ESectionEvaluationFlags where
  | none : ESectionEvaluationFlags
  | preRoll : ESectionEvaluationFlags
  | postRoll : ESectionEvaluationFlags
deriving DecidableEq

/-- `FSectionEvaluationData`: (ImplIndex, Flags); identity is structural. -/
structure FSectionEvaluationData where
  ImplIndex : Int
  Flags : ESectionEvaluationFlags
deriving DecidableEq

/-- Shorthand for evaluation data with no flags. -/
def evalData (i : Int) : FSectionEvaluationData := ⟨i, .none⟩

/-- `FMovieSceneSectionData` (MovieSceneSegmentCompiler.cpp:5): input unit
of the segment compiler. -/
structure FMovieSceneSectionData (α : Type) where
  Bounds : TRange α
  EvalData : FSectionEvaluationData
  Priority : Int
deriving DecidableEq

/-- `FMovieSceneSegment`: a range plus the evaluation data active on it. -/
structure FMovieSceneSegment (α : Type) where
  Range : TRange α
  Impls : List FSectionEvaluationData
deriving DecidableEq

/-- `FMovieSceneSegmentCompiler::FBound`: a bound event paired with its
evaluation data. -/
structure FBound (α : Type) where
  EvalData : FSectionEvaluationData
  Bound : TRangeBound α
deriving DecidableEq

/-- `TArray::RemoveAtSwap(i, 1, false)`: the last element is moved into
slot `i` and the array shrinks by one. -/
def removeAtSwap {β : Type} (l : List β) (i : Nat) : List β :=
  match l.getLast? with
  | none => l
  | some last => (l.set i last).dropLast

/-- Stable insertion of `x` into `acc` after every element `y` with
`le y x` (ties keep earlier elements first). -/
def insertSorted {β : Type} (le : β → β → Bool) (x : β) : List β → List β
  | [] => [x]
  | y :: ys => if le y x then y :: insertSorted le x ys else x :: y :: ys

/-- Modelled from the spec (§4.2 step 2): the two bound lists are sorted by
the comparator with a *stable* sort (the `TArray::Sort` implementation is
outside `src/`; the spec mandates stable ordering — "use a stable sort or
an explicit secondary key on input order").  Stable insertion sort. -/
def stableSortBy {β : Type} (le : β → β → Bool) (l : List β) : List β :=
  l.foldl (fun acc x => insertSorted le x acc) []

variable {α : Type} [LinearOrder α]

/-- The sort comparator at MovieSceneSegmentCompiler.cpp:104-109:
`MinLower(A.Bound, B.Bound) == A.Bound`. -/
def lowerCmp (a b : FBound α) : Bool :=
  TRangeBound.minLower a.Bound b.Bound = a.Bound

/-- The sort comparator at MovieSceneSegmentCompiler.cpp:111-116:
`MinUpper(A.Bound, B.Bound) == A.Bound`. -/
def upperCmp (a b : FBound α) : Bool :=
  TRangeBound.minUpper a.Bound b.Bound = a.Bound

/-- MovieSceneSegmentCompiler.cpp:129-139: reference-count one opening
event into the overlapping-section lists (increment an existing entry's
count, or add a new entry with count one). -/
def addOverlap (ov : List FSectionEvaluationData) (rc : List Nat)
    (ed : FSectionEvaluationData) : List FSectionEvaluationData × List Nat :=
  match ov.findIdx? (fun x => x = ed) with
  | some i => (ov, rc.set i (rc.getD i 0 + 1))
  | none => (ov ++ [ed], rc ++ [1])

/-- MovieSceneSegmentCompiler.cpp:205-213: decrement the matching entry's
reference count, swap-removing it when the count reaches zero; a missing
entry (the failed `ensure`) leaves the lists unchanged. -/
def removeOverlap (ov : List FSectionEvaluationData) (rc : List Nat)
    (ed : FSectionEvaluationData) : List FSectionEvaluationData × List Nat :=
  match ov.findIdx? (fun x => x = ed) with
  | some i =>
    if rc.getD i 0 - 1 = 0 then (removeAtSwap ov i, removeAtSwap rc i)
    else (ov, rc.set i (rc.getD i 0 - 1))
  | none => (ov, rc)

/-- The do-while loop at MovieSceneSegmentCompiler.cpp:127-141: consume all
lower-bound events equal to `opening` (at least one), reference-counting
them into the overlapping-section lists. -/
def openBatch (opening : TRangeBound α) :
    List (FBound α) → List FSectionEvaluationData → List Nat →
    List (FBound α) × List FSectionEvaluationData × List Nat
  | [], ov, rc => ([], ov, rc)
  | lb :: rest, ov, rc =>
    let step := addOverlap ov rc lb.EvalData
    match rest with
    | [] => ([], step.1, step.2)
    | lb2 :: _ =>
      if lb2.Bound = opening then openBatch opening rest step.1 step.2
      else (rest, step.1, step.2)

/-- The while loop at MovieSceneSegmentCompiler.cpp:203-215: consume all
upper-bound events whose bound equals `closing`, decrementing reference
counts and swap-removing entries that reach zero. -/
def closeBatch (closing : TRangeBound α) :
    List (FBound α) → List FSectionEvaluationData → List Nat →
    List (FBound α) × List FSectionEvaluationData × List Nat
  | [], ov, rc => ([], ov, rc)
  | ub :: rest, ov, rc =>
    if ub.Bound = closing then
      let step := removeOverlap ov rc ub.EvalData
      closeBatch closing rest step.1 step.2
    else (ub :: rest, ov, rc)

/-- The multiset of currently-open event instances represented by the
parallel `OverlappingSections`/`OverlappingRefCounts` arrays: each entry
repeated as many times as its reference count. -/
def ovFlat (ov : List FSectionEvaluationData) (rc : List Nat) :
    List FSectionEvaluationData :=
  ((ov.zip rc).map (fun x => List.replicate x.2 x.1)).flatten

/-- The while loop of `FMovieSceneSegmentCompiler::CloseCompletedSegments`
(MovieSceneSegmentCompiler.cpp:168-225), operating on the non-empty
reversed segment list `last :: rest`.  `fuel` dominates the number of loop
iterations; each iteration of the closing branch consumes at least one
upper bound, so `uppers.length` fuel always suffices. -/
def closeLoop :
    Nat → List (FBound α) → List (FBound α) → List FSectionEvaluationData → List Nat →
    FMovieSceneSegment α → List (FMovieSceneSegment α) →
    List (FBound α) × List FSectionEvaluationData × List Nat × List (FMovieSceneSegment α)
  | _, _, [], ov, rc, last, rest => ([], ov, rc, last :: rest)
  | 0, _, uppers, ov, rc, last, rest => (uppers, ov, rc, last :: rest)
  | fuel + 1, lowers, ub :: urest, ov, rc, last, rest =>
    let hasOpening :=
      match lowers with
      | [] => false
      | lb :: _ => !(TRange.isEmpty ⟨lb.Bound, ub.Bound⟩)
    if hasOpening then
      match lowers with
      | [] => (ub :: urest, ov, rc, last :: rest)
      | lb :: _ =>
        if ov = [] then (ub :: urest, ov, rc, last :: rest)
        else
          let newRange : TRange α := ⟨last.Range.lowerBound, lb.Bound.flipInclusion⟩
          if newRange.isEmpty then (ub :: urest, ov, rc, rest)
          else (ub :: urest, ov, rc, { last with Range := newRange } :: rest)
    else
      let closing := ub.Bound
      let last' : FMovieSceneSegment α :=
        { last with Range := ⟨last.Range.lowerBound, closing⟩ }
      let res := closeBatch closing (ub :: urest) ov rc
      if res.2.1 = [] then
        closeLoop fuel lowers res.1 res.2.1 res.2.2 last' rest
      else
        closeLoop fuel lowers res.1 res.2.1 res.2.2
          ⟨⟨closing.flipInclusion, .unbounded⟩, res.2.1⟩ (last' :: rest)

/-- `FMovieSceneSegmentCompiler::CloseCompletedSegments`
(MovieSceneSegmentCompiler.cpp:161-226); returns immediately when no
segment has been created yet. -/
def closeCompletedSegments (fuel : Nat) (lowers uppers : List (FBound α))
    (ov : List FSectionEvaluationData) (rc : List Nat)
    (segsRev : List (FMovieSceneSegment α)) :
    List (FBound α) × List FSectionEvaluationData × List Nat × List (FMovieSceneSegment α) :=
  match segsRev with
  | [] => (uppers, ov, rc, [])
  | last :: rest => closeLoop fuel lowers uppers ov rc last rest

/-- The main sweep loop of `FMovieSceneSegmentCompiler::Compile`
(MovieSceneSegmentCompiler.cpp:118-149) followed by the final
`CloseCompletedSegments` call (line 149).  Each iteration consumes at
least one lower bound, so `lowers.length` fuel always suffices.  Returns
the final overlapping-section list together with the reversed compiled
segments. -/
def sweepLoop :
    Nat → List (FBound α) → List (FBound α) → List FSectionEvaluationData → List Nat →
    List (FMovieSceneSegment α) →
    List FSectionEvaluationData × List (FMovieSceneSegment α)
  | fuel, lowers, uppers, ov, rc, segsRev =>
    match lowers with
    | [] =>
      let res := closeCompletedSegments uppers.length [] uppers ov rc segsRev
      (res.2.1, res.2.2.2)
    | lb :: _ =>
      match fuel with
      | 0 => (ov, segsRev)
      | fuel + 1 =>
        let rc1 := closeCompletedSegments uppers.length lowers uppers ov rc segsRev
        let opening := lb.Bound
        let ob := openBatch opening lowers rc1.2.1 rc1.2.2.1
        sweepLoop fuel ob.1 rc1.1 ob.2.1 ob.2.2
          (⟨⟨opening, .unbounded⟩, ob.2.1⟩ :: rc1.2.2.2)

namespace FMovieSceneSegmentCompiler

/-- Lines 93-102: filter out empty-range sections and build the lower
bound event list (in input order). -/
def rawLowerBounds (data : List (FMovieSceneSectionData α)) : List (FBound α) :=
  (data.filter (fun s => !s.Bounds.isEmpty)).map fun s => ⟨s.EvalData, s.Bounds.lowerBound⟩

/-- Lines 93-102: the upper bound event list (in input order). -/
def rawUpperBounds (data : List (FMovieSceneSectionData α)) : List (FBound α) :=
  (data.filter (fun s => !s.Bounds.isEmpty)).map fun s => ⟨s.EvalData, s.Bounds.upperBound⟩

/-- Lines 104-109: the sorted lower bound event list. -/
def sortedLowerBounds (data : List (FMovieSceneSectionData α)) : List (FBound α) :=
  stableSortBy lowerCmp (rawLowerBounds data)

/-- Lines 111-116: the sorted upper bound event list. -/
def sortedUpperBounds (data : List (FMovieSceneSectionData α)) : List (FBound α) :=
  stableSortBy upperCmp (rawUpperBounds data)

/-- `FMovieSceneSegmentCompiler::Compile` without rules
(MovieSceneSegmentCompiler.cpp:81-159, `Rules == nullptr`), returning the
final `OverlappingSections` list (asserted empty at line 151) together
with the compiled segments. -/
def compileSweep (data : List (FMovieSceneSectionData α)) :
    List FSectionEvaluationData × List (FMovieSceneSegment α) :=
  let lowers := sortedLowerBounds data
  let uppers := sortedUpperBounds data
  sweepLoop lowers.length lowers uppers [] [] []

/-- The compiled segment list (in emission order) of a rule-free compile. -/
def compile (data : List (FMovieSceneSectionData α)) : List (FMovieSceneSegment α) :=
  (compileSweep data).2.reverse

end FMovieSceneSegmentCompiler

/-- One policy invocation performed during `ProcessSegments`, recorded so
that theorems can speak about *which* hooks were called. -/
inductive RulesEvent (α : Type) where
  | blend (seg : FMovieSceneSegment α) : RulesEvent α
  | insertEmptySpace (gap : TRange α) (prev next : Option (FMovieSceneSegment α)) : RulesEvent α
  | postProcess : RulesEvent α
deriving DecidableEq

/-- `FMovieSceneSegmentCompilerRules`: the pluggable policy.  The virtual
customization points (declared in the header, outside `src/`) are
function fields; `ProcessSegments` and `InsertSegment` themselves are
implemented in MovieSceneSegmentCompiler.cpp and embedded below. -/
structure FMovieSceneSegmentCompilerRules (α : Type) where
  BlendSegment : FMovieSceneSegment α → List (FMovieSceneSectionData α) → FMovieSceneSegment α
  InsertEmptySpace : TRange α → Option (FMovieSceneSegment α) → Option (FMovieSceneSegment α) →
    Option (FMovieSceneSegment α)
  AllowEmptySegments : Bool
  PostProcessSegments : List (FMovieSceneSegment α) → List (FMovieSceneSectionData α) →
    List (FMovieSceneSegment α)

/-- A policy whose hooks do nothing (blend = identity, no gap filling,
no post-processing). -/
def trivialRules : FMovieSceneSegmentCompilerRules α :=
  ⟨fun seg _ => seg, fun _ _ _ => none, false, fun segs _ => segs⟩

/-- MovieSceneSegmentCompiler.cpp:52: `PreviousSegment` — the segment at
`Index-1` when that index is valid. -/
def prevSegAt (segments : List (FMovieSceneSegment α)) (idx : Nat) :
    Option (FMovieSceneSegment α) :=
  if idx = 0 then none else segments.get? (idx - 1)

/-- MovieSceneSegmentCompiler.cpp:53: `NextSegment` — the segment at
`Index` when that index is valid. -/
def nextSegAt (segments : List (FMovieSceneSegment α)) (idx : Nat) :
    Option (FMovieSceneSegment α) :=
  segments.get? idx

/-- MovieSceneSegmentCompiler.cpp:55-58: the empty space between the
neighboring segments, bounded by their flipped bounds (open for a missing
neighbor, from the default `TRangeBound` constructor). -/
def emptyRangeAt (segments : List (FMovieSceneSegment α)) (idx : Nat) : TRange α :=
  ⟨match prevSegAt segments idx with
    | some s => s.Range.upperBound.flipInclusion
    | none => .unbounded,
   match nextSegAt segments idx with
    | some s => s.Range.lowerBound.flipInclusion
    | none => .unbounded⟩

/-- MovieSceneSegmentCompiler.cpp:70-73: `ensureMsgf(EmptyRange.Contains(...))`;
on failure the returned range is corrected by intersecting with the gap. -/
def clampToGap (gap : TRange α) (newSeg : FMovieSceneSegment α) : FMovieSceneSegment α :=
  if gap.containsRange newSeg.Range then newSeg
  else { newSeg with Range := TRange.intersection newSeg.Range gap }

/-- `FMovieSceneSegmentCompilerRules::InsertSegment`
(MovieSceneSegmentCompiler.cpp:50-79).  Returns the updated list, whether
a segment was inserted, and the recorded policy invocations. -/
def insertSegment (rules : FMovieSceneSegmentCompilerRules α)
    (segments : List (FMovieSceneSegment α)) (idx : Nat)
    (src : List (FMovieSceneSectionData α)) :
    List (FMovieSceneSegment α) × Bool × List (RulesEvent α) :=
  let prev := prevSegAt segments idx
  let next := nextSegAt segments idx
  let emptyRange := emptyRangeAt segments idx
  if emptyRange.isEmpty then (segments, false, [])
  else
    let callEv : List (RulesEvent α) := [.insertEmptySpace emptyRange prev next]
    match rules.InsertEmptySpace emptyRange prev next with
    | none => (segments, false, callEv)
    | some newSeg =>
      let blended := rules.BlendSegment (clampToGap emptyRange newSeg) src
      (segments.insertIdx idx blended, true, callEv ++ [.blend blended])

/-- The interior-gap loop of `ProcessSegments`
(MovieSceneSegmentCompiler.cpp:33-40): `Index` advances by two when a
segment was inserted at it.  `fuel` dominates `Segments.Num() - Index`,
which strictly decreases each iteration. -/
def insertLoop (rules : FMovieSceneSegmentCompilerRules α)
    (src : List (FMovieSceneSectionData α)) :
    Nat → List (FMovieSceneSegment α) → Nat →
    List (FMovieSceneSegment α) × List (RulesEvent α)
  | 0, segments, _ => (segments, [])
  | fuel + 1, segments, idx =>
    if idx < segments.length then
      let r := insertSegment rules segments idx src
      if r.2.1 then
        let rest := insertLoop rules src fuel r.1 (idx + 2)
        (rest.1, r.2.2 ++ rest.2)
      else
        let rest := insertLoop rules src fuel segments (idx + 1)
        (rest.1, r.2.2 ++ rest.2)
    else (segments, [])

/-- Lines 26-29 of `ProcessSegments`: add an open segment before the
first segment if necessary/possible (`Index = 0`). -/
def leadingStep (rules : FMovieSceneSegmentCompilerRules α)
    (segments : List (FMovieSceneSegment α)) (src : List (FMovieSceneSectionData α)) :
    List (FMovieSceneSegment α) × List (RulesEvent α) :=
  match segments with
  | first :: _ =>
    if first.Range.lowerBound.isOpen then (segments, [])
    else
      let r := insertSegment rules segments 0 src
      (r.1, r.2.2)
  | [] => (segments, [])

/-- Lines 42-45 of `ProcessSegments`: add a segment after the last
segment if necessary/possible (`Index = Segments.Num()`). -/
def trailingStep (rules : FMovieSceneSegmentCompilerRules α)
    (segments : List (FMovieSceneSegment α)) (src : List (FMovieSceneSectionData α)) :
    List (FMovieSceneSegment α) × List (RulesEvent α) :=
  match segments.getLast? with
  | some lastSeg =>
    if lastSeg.Range.upperBound.isOpen then (segments, [])
    else
      let r := insertSegment rules segments segments.length src
      (r.1, r.2.2)
  | none => (segments, [])

/-- `FMovieSceneSegmentCompilerRules::ProcessSegments`
(MovieSceneSegmentCompiler.cpp:11-48), with the policy-invocation trace. -/
def processSegments (rules : FMovieSceneSegmentCompilerRules α)
    (segments : List (FMovieSceneSegment α))
    (src : List (FMovieSceneSectionData α)) :
    List (FMovieSceneSegment α) × List (RulesEvent α) :=
  match segments with
  | [] => ([], [])
  | first0 :: rest0 =>
    -- lines 18-21: blend every segment
    let blended := (first0 :: rest0).map (fun s => rules.BlendSegment s src)
    let blendEvs : List (RulesEvent α) := blended.map .blend
    -- lines 26-29: leading gap, then line 30: ++Index (to 1, whether or
    -- not a segment was inserted)
    let step1 := leadingStep rules blended src
    -- lines 33-40: interior gaps
    let step2 := insertLoop rules src step1.1.length step1.1 1
    -- lines 42-45: trailing gap
    let step3 := trailingStep rules step2.1 src
    -- line 47: PostProcessSegments
    (rules.PostProcessSegments step3.1 src,
     blendEvs ++ step1.2 ++ step2.2 ++ step3.2 ++ [.postProcess])

/-- `FMovieSceneSegmentCompiler::Compile` with an optional rules policy
(MovieSceneSegmentCompiler.cpp:153-156). -/
def compileWithRules (data : List (FMovieSceneSectionData α))
    (rules : Option (FMovieSceneSegmentCompilerRules α)) : List (FMovieSceneSegment α) :=
  let segs := FMovieSceneSegmentCompiler.compile data
  match rules with
  | some r => (processSegments r segs data).1
  | none => segs

/-- `FMovieSceneSectionRowData` (header outside `src/`): a row entry. -/
structure FMovieSceneSectionRowData (α : Type) where
  ActualSectionIndex : Nat
  Range : TRange α
  EvalData : FSectionEvaluationData
  Priority : Int
deriving DecidableEq

/-- Default row data (stands in for C++ unchecked array indexing). -/
def defaultRowData : FMovieSceneSectionRowData α :=
  ⟨0, ⟨.unbounded, .unbounded⟩, ⟨0, .none⟩, 0⟩

/-- `FMovieSceneTrackCompiler::FRow`: the per-row section list and rules. -/
structure FRow (α : Type) where
  Sections : List (FMovieSceneSectionRowData α)
  CompileRules : Option (FMovieSceneSegmentCompilerRules α)

/-- The external `UMovieSceneSection` interface consumed by
`FMovieSceneTrackCompiler::FRows::FRows` (only its accessors are used). -/
structure UMovieSceneSection where
  IsActive : Bool
  RowIndex : Nat
  IsInfinite : Bool
  SectionRange : TRange Int
  PreRollTime : Int
  PostRollTime : Int
  OverlapPriority : Int
deriving DecidableEq

namespace FMovieSceneTrackCompiler

/-- MovieSceneSegmentCompiler.cpp:240-243: `Rows.AddDefaulted` up to the
required row index. -/
def padRows (rows : List (List (FMovieSceneSectionRowData Int))) (r : Nat) :
    List (List (FMovieSceneSectionRowData Int)) :=
  if r < rows.length then rows
  else rows ++ List.replicate (r + 1 - rows.length) []

/-- The block of row entries contributed by one entity, as described by
claim C9 and spec §4.4: the primary entry over the (infinite-mapped)
range, then — exactly when the corresponding bound is closed and the
duration positive — a pre-roll phantom `[lv - preRoll, lv)` tagged
`PreRoll` and a post-roll phantom `(uv, uv + postRoll]` tagged
`PostRoll`, each carrying the same impl index `k` and priority as the
primary entry.  The theorem below shows `FRows` emits exactly these
blocks. -/
def claimedSectionBlock (idx : Nat) (k : Int) (sec : UMovieSceneSection) :
    List (FMovieSceneSectionRowData Int) :=
  let range : TRange Int :=
    if sec.IsInfinite then ⟨.unbounded, .unbounded⟩ else sec.SectionRange
  [⟨idx, range, ⟨k, .none⟩, sec.OverlapPriority⟩] ++
  (match range.lowerBound with
   | .unbounded => []
   | .inclusive lv =>
     if 0 < sec.PreRollTime then
       [⟨idx, ⟨.inclusive (lv - sec.PreRollTime), .exclusive lv⟩, ⟨k, .preRoll⟩,
         sec.OverlapPriority⟩]
     else []
   | .exclusive lv =>
     if 0 < sec.PreRollTime then
       [⟨idx, ⟨.inclusive (lv - sec.PreRollTime), .exclusive lv⟩, ⟨k, .preRoll⟩,
         sec.OverlapPriority⟩]
     else []) ++
  (match range.upperBound with
   | .unbounded => []
   | .inclusive uv =>
     if 0 < sec.PostRollTime then
       [⟨idx, ⟨.exclusive uv, .inclusive (uv + sec.PostRollTime)⟩, ⟨k, .postRoll⟩,
         sec.OverlapPriority⟩]
     else []
   | .exclusive uv =>
     if 0 < sec.PostRollTime then
       [⟨idx, ⟨.exclusive uv, .inclusive (uv + sec.PostRollTime)⟩, ⟨k, .postRoll⟩,
         sec.OverlapPriority⟩]
     else [])

/-- One step of the `FRows` constructor loop
(MovieSceneSegmentCompiler.cpp:231-269) for the section at original index
`idx`: grow the row array if needed, then append the main entry and any
pre-roll/post-roll phantom entries to its row. -/
def addSection (rows : List (List (FMovieSceneSectionRowData Int)))
    (idx : Nat) (sec : UMovieSceneSection) :
    List (List (FMovieSceneSectionRowData Int)) :=
  if !sec.IsActive then rows
  else
    let rows1 := padRows rows sec.RowIndex
    let cur := rows1.getD sec.RowIndex []
    let range : TRange Int :=
      if sec.IsInfinite then ⟨.unbounded, .unbounded⟩ else sec.SectionRange
    let k : Int := cur.length
    let cur1 := cur ++ [⟨idx, range, ⟨k, .none⟩, sec.OverlapPriority⟩]
    -- lines 253-260: pre-roll phantom [lv - preRoll, lv)
    let cur2 :=
      match range.lowerBound with
      | .unbounded => cur1
      | .inclusive lv =>
        if 0 < sec.PreRollTime then
          cur1 ++ [⟨idx, ⟨.inclusive (lv - sec.PreRollTime), .exclusive lv⟩,
                    ⟨k, .preRoll⟩, sec.OverlapPriority⟩]
        else cur1
      | .exclusive lv =>
        if 0 < sec.PreRollTime then
          cur1 ++ [⟨idx, ⟨.inclusive (lv - sec.PreRollTime), .exclusive lv⟩,
                    ⟨k, .preRoll⟩, sec.OverlapPriority⟩]
        else cur1
    -- lines 261-268: post-roll phantom (uv, uv + postRoll]
    let cur3 :=
      match range.upperBound with
      | .unbounded => cur2
      | .inclusive uv =>
        if 0 < sec.PostRollTime then
          cur2 ++ [⟨idx, ⟨.exclusive uv, .inclusive (uv + sec.PostRollTime)⟩,
                    ⟨k, .postRoll⟩, sec.OverlapPriority⟩]
        else cur2
      | .exclusive uv =>
        if 0 < sec.PostRollTime then
          cur2 ++ [⟨idx, ⟨.exclusive uv, .inclusive (uv + sec.PostRollTime)⟩,
                    ⟨k, .postRoll⟩, sec.OverlapPriority⟩]
        else cur2
    rows1.set sec.RowIndex cur3

/-- The `FRows` constructor loop over all sections. -/
def buildRowsAux :
    List UMovieSceneSection → Nat → List (List (FMovieSceneSectionRowData Int)) →
    List (List (FMovieSceneSectionRowData Int))
  | [], _, rows => rows
  | sec :: rest, idx, rows => buildRowsAux rest (idx + 1) (addSection rows idx sec)

/-- `FMovieSceneTrackCompiler::FRows::FRows`
(MovieSceneSegmentCompiler.cpp:229-281): build the per-row entry lists and
drop empty rows.  (The constructor finally stores the same `CompileRules`
in every row; rules attachment is kept outside this function.) -/
def buildRows (sections : List UMovieSceneSection) :
    List (List (FMovieSceneSectionRowData Int)) :=
  (buildRowsAux sections 0 []).filter (fun r => !r.isEmpty)

/-- Row entries as segment-compiler input (`TArray<FMovieSceneSectionData>(Row.Sections)`). -/
def rowToSectionData (r : FMovieSceneSectionRowData α) : FMovieSceneSectionData α :=
  ⟨r.Range, r.EvalData, r.Priority⟩

/-- The row expansion loop of `FMovieSceneTrackCompiler::Compile`
(MovieSceneSegmentCompiler.cpp:314-326): append each segment impl to the
actual-index lookup table and re-index it into the track compile data. -/
def expandRow (rowSections : List (FMovieSceneSectionRowData α)) (priority : Int)
    (segs : List (FMovieSceneSegment α))
    (acc : List Nat × List (FMovieSceneSectionData α)) :
    List Nat × List (FMovieSceneSectionData α) :=
  segs.foldl
    (fun acc seg =>
      seg.Impls.foldl
        (fun acc ed =>
          (acc.1 ++ [(rowSections.getD ed.ImplIndex.toNat defaultRowData).ActualSectionIndex],
           acc.2 ++ [⟨seg.Range, ⟨acc.2.length, ed.Flags⟩, priority⟩]))
        acc)
    acc

/-- The per-row compilation loop of `FMovieSceneTrackCompiler::Compile`
(MovieSceneSegmentCompiler.cpp:298-327): skip empty rows, compile each row
with its own rules, and accumulate the lookup table and track data. -/
def compileRows (total : Nat) :
    List (Nat × FRow α) → List Nat × List (FMovieSceneSectionData α) →
    List Nat × List (FMovieSceneSectionData α)
  | [], acc => acc
  | (rowIndex, row) :: rest, acc =>
    if row.Sections = [] then compileRows total rest acc
    else
      let src := row.Sections.map rowToSectionData
      let rowSegments := compileWithRules src row.CompileRules
      let priority : Int := (total : Int) - (rowIndex : Int)
      compileRows total rest (expandRow row.Sections priority rowSegments acc)

/-- MovieSceneSegmentCompiler.cpp:343-347: remap a segment's impl indices
to actual section indices through the lookup table. -/
def remapSeg (lut : List Nat) (seg : FMovieSceneSegment α) : FMovieSceneSegment α :=
  ⟨seg.Range,
   seg.Impls.map (fun ed => ⟨(lut.getD ed.ImplIndex.toNat 0 : Int), ed.Flags⟩)⟩

/-- One iteration of the final remap-filter-merge loop of
`FMovieSceneTrackCompiler::Compile` (MovieSceneSegmentCompiler.cpp:341-361):
remap the segment's impl indices through the lookup table, drop it when
empty (unless allowed), and merge it into the previous result segment
when the ranges adjoin and the `Impls` arrays are equal (TArray
`operator==`: element-wise, order-sensitive). -/
def mergeStep (lut : List Nat) (allowEmpty : Bool)
    (result : List (FMovieSceneSegment α)) (seg : FMovieSceneSegment α) :
    List (FMovieSceneSegment α) :=
  let remapped := remapSeg lut seg
  if remapped.Impls ≠ [] ∨ allowEmpty = true then
    match result.getLast? with
    | some lastSeg =>
      if lastSeg.Range.adjoins remapped.Range ∧ lastSeg.Impls = remapped.Impls then
        result.dropLast ++ [{ lastSeg with Range := TRange.hull lastSeg.Range remapped.Range }]
      else result ++ [remapped]
    | none => result ++ [remapped]
  else result

/-- The final remap-filter-merge pass (MovieSceneSegmentCompiler.cpp:341-361). -/
def remapAndMerge (lut : List Nat) (allowEmpty : Bool)
    (segs : List (FMovieSceneSegment α)) : List (FMovieSceneSegment α) :=
  segs.foldl (mergeStep lut allowEmpty) []

/-- `s` lies entirely before `t`: strictly smaller lower bound, and the
space from `t`'s lower bound back to `s`'s upper bound is empty. -/
def RangeBefore (s t : TRange α) : Prop :=
  TRangeBound.lowLT s.lowerBound t.lowerBound = true ∧
  TRange.isEmpty ⟨t.lowerBound, s.upperBound⟩ = true

/-- The merge condition of the final pass (MovieSceneSegmentCompiler.cpp:352):
adjoining ranges and element-wise equal `Impls` arrays. -/
def SegMergeable (s t : FMovieSceneSegment α) : Prop :=
  TRange.adjoins s.Range t.Range = true ∧ s.Impls = t.Impls

/-- `FMovieSceneTrackCompiler::Compile` (MovieSceneSegmentCompiler.cpp:283-364). -/
def compileTracks (rows : List (FRow α))
    (rules : Option (FMovieSceneSegmentCompilerRules α)) : List (FMovieSceneSegment α) :=
  let acc := compileRows rows.length (rows.enum) ([], [])
  let lut := acc.1
  let trackCompileData := acc.2
  let trackSegments := FMovieSceneSegmentCompiler.compile trackCompileData
  let trackSegments2 :=
    match rules with
    | some r => (processSegments r trackSegments trackCompileData).1
    | none => trackSegments
  let allowEmpty :=
    match rules with
    | some r => r.AllowEmptySegments
    | none => false
  remapAndMerge lut allowEmpty trackSegments2

end FMovieSceneTrackCompiler

/-! ### Concrete inputs used by counterexamples and witnesses -/

/-- Two valid sections whose ranges are disjoint with space between them:
`[0,1)` and `[5,6)`. -/
def gapSections : List (FMovieSceneSectionData Int) :=
  [⟨⟨.inclusive 0, .exclusive 1⟩, evalData 0, 0⟩,
   ⟨⟨.inclusive 5, .exclusive 6⟩, evalData 1, 0⟩]

/-- A rules policy that fills every gap with the segment `[100,200]`
(deliberately not contained in small gaps, to exercise the clamping
path); blending keeps segments unchanged. -/
def overflowGapRules : FMovieSceneSegmentCompilerRules Int :=
  ⟨fun seg _ => seg,
   fun _ _ _ => some ⟨⟨.inclusive 100, .inclusive 200⟩, []⟩,
   false, fun segs _ => segs⟩

/-- A row-level blending policy: on segments starting at `10`, drop the
section with impl index 2 and reverse the remaining impls. -/
def reorderBlendRules : FMovieSceneSegmentCompilerRules Int :=
  ⟨fun seg _ =>
     if seg.Range.lowerBound = .inclusive 10 then
       ⟨seg.Range, (seg.Impls.filter (fun ed => ed.ImplIndex ≠ 2)).reverse⟩
     else seg,
   fun _ _ _ => none, false, fun segs _ => segs⟩

/-- A track row with three sections `[0,20)`, `[0,20)`, `[10,20)` compiled
under `reorderBlendRules`: its two row segments `[0,10)` and `[10,20)`
carry the impl sets `{0,1}` in opposite orders. -/
def reorderRow : FRow Int :=
  ⟨[⟨0, ⟨.inclusive 0, .exclusive 20⟩, evalData 0, 1⟩,
    ⟨1, ⟨.inclusive 0, .exclusive 20⟩, evalData 1, 1⟩,
    ⟨2, ⟨.inclusive 10, .exclusive 20⟩, evalData 2, 1⟩], some reorderBlendRules⟩

/-- Two touching sections `[0,1)` and `[1,2)` (for the adjacency claim). -/
def touchingSections : List (FMovieSceneSectionData Int) :=
  [⟨⟨.inclusive 0, .exclusive 1⟩, evalData 0, 0⟩,
   ⟨⟨.inclusive 1, .exclusive 2⟩, evalData 1, 0⟩]

/-- A well-formed `InsertEmptySpace` invocation: the gap is non-empty,
its bounds are the flipped bounds of the neighboring segments (open where
there is no neighbor), and at least one neighbor is present. -/
def GapEventOk {α : Type} [LinearOrder α] (g : TRange α)
    (po no : Option (FMovieSceneSegment α)) : Prop :=
  g.isEmpty = false ∧
  g.lowerBound = po.elim TRangeBound.unbounded (fun s => s.Range.upperBound.flipInclusion) ∧
  g.upperBound = no.elim TRangeBound.unbounded (fun t => t.Range.lowerBound.flipInclusion) ∧
  (po.isSome = true ∨ no.isSome = true)

/-! ### Verification predicates for the sweep-line invariant -/

/-- `e` is active at point `p`: some section in `S` carries evaluation
data `e` and its range contains `p`. -/
def ActiveAt (S : List (FMovieSceneSectionData α)) (e : FSectionEvaluationData)
    (p : α) : Prop :=
  ∃ sd ∈ S, sd.EvalData = e ∧ sd.Bounds.memR p = true

/-- Exact coverage of point `p` by a segment list: either some segment
contains `p` and its impls are exactly the active evaluation data, or no
evaluation data is active at `p` at all. -/
def ExactCover (S : List (FMovieSceneSectionData α))
    (segs : List (FMovieSceneSegment α)) (p : α) : Prop :=
  (∃ seg ∈ segs, seg.Range.memR p = true ∧ ∀ e, (e ∈ seg.Impls ↔ ActiveAt S e p)) ∨
  (∀ e, ¬ ActiveAt S e p)

/-- Well-formedness of the parallel `OverlappingSections` and
`OverlappingRefCounts` arrays: no duplicate entries, equal lengths, and
every reference count at least one. -/
def OvOk (ov : List FSectionEvaluationData) (rc : List Nat) : Prop :=
  ov.Nodup ∧ rc.length = ov.length ∧ ∀ n ∈ rc, 1 ≤ n

/-- The sweep-loop invariant, open state: the event lists decompose into a
consumed part (`CL`, `CU`) and a remaining part (`Ls`, `Us`), together a
permutation of the per-section events of `S`; the reversed compiled list is
`⟨⟨pl, unbounded⟩, ov⟩ :: closed` — an unterminated pending segment over the
already-ordered, exactly-covering `closed` segments. -/
structure OpenInv (S : List (FMovieSceneSectionData α)) (CL Ls CU Us : List (FBound α))
    (ov : List FSectionEvaluationData) (rc : List Nat) (pl : TRangeBound α)
    (closed : List (FMovieSceneSegment α)) : Prop where
  srcNe : ∀ sd ∈ S, sd.Bounds.isEmpty = false
  permL : (CL ++ Ls).Perm (S.map fun sd => ⟨sd.EvalData, sd.Bounds.lowerBound⟩)
  permU : (CU ++ Us).Perm (S.map fun sd => ⟨sd.EvalData, sd.Bounds.upperBound⟩)
  sortedL : (CL ++ Ls).Pairwise fun a b => TRangeBound.lowLE a.Bound b.Bound = true
  sortedU : (CU ++ Us).Pairwise fun a b => TRangeBound.upLE a.Bound b.Bound = true
  runU : ∀ a ∈ CU, ∀ u, Us.head? = some u → TRangeBound.upLT a.Bound u.Bound = true
  ovOk : OvOk ov rc
  bal : (ovFlat ov rc ++ CU.map FBound.EvalData).Perm (CL.map FBound.EvalData)
  ovNe : ov ≠ []
  pendLs : ∀ b ∈ Ls, TRangeBound.lowLE pl b.Bound = true
  lsNoUnb : ∀ b ∈ Ls, b.Bound ≠ TRangeBound.unbounded
  pendCL : ∀ a ∈ CL, TRangeBound.lowLE a.Bound pl = true
  pendCU : ∀ a ∈ CU, a.Bound ≠ TRangeBound.unbounded ∧
      TRangeBound.lowLE a.Bound.flipInclusion pl = true
  pendUs : ∀ u, Us.head? = some u → TRange.isEmpty ⟨pl, u.Bound⟩ = false
  closedChain : closed.Chain' fun s t => FMovieSceneTrackCompiler.RangeBefore t.Range s.Range
  closedHead : ∀ c, closed.head? = some c →
      TRangeBound.lowLT c.Range.lowerBound pl = true ∧
      TRange.isEmpty ⟨pl, c.Range.upperBound⟩ = true
  closedExact : ∀ p : α, pl.memLower p = false → ExactCover S closed p

/-- The state produced by `CloseCompletedSegments`: every segment in the
(reversed) list is terminated, ordered and disjoint, coverage left of the
next opening bound is exact, and the overlap bookkeeping still balances
against the consumed events. -/
structure PostClose (S : List (FMovieSceneSectionData α)) (CL Ls CU1 Us1 : List (FBound α))
    (ov1 : List FSectionEvaluationData) (rc1 : List Nat)
    (segs1 : List (FMovieSceneSegment α)) : Prop where
  permU : (CU1 ++ Us1).Perm (S.map fun sd => ⟨sd.EvalData, sd.Bounds.upperBound⟩)
  sortedU : (CU1 ++ Us1).Pairwise fun a b => TRangeBound.upLE a.Bound b.Bound = true
  runU : ∀ a ∈ CU1, ∀ u, Us1.head? = some u → TRangeBound.upLT a.Bound u.Bound = true
  ovOk : OvOk ov1 rc1
  bal : (ovFlat ov1 rc1 ++ CU1.map FBound.EvalData).Perm (CL.map FBound.EvalData)
  postB7 : ∀ a ∈ CU1, ∀ b, Ls.head? = some b → a.Bound ≠ TRangeBound.unbounded ∧
      TRangeBound.lowLE a.Bound.flipInclusion b.Bound = true
  postB6 : ∀ b, Ls.head? = some b → ∀ u, Us1.head? = some u →
      TRange.isEmpty ⟨b.Bound, u.Bound⟩ = false
  lsNil : Ls = [] → Us1 = []
  chain : segs1.Chain' fun s t => FMovieSceneTrackCompiler.RangeBefore t.Range s.Range
  headB : ∀ c, segs1.head? = some c → ∀ b, Ls.head? = some b →
      TRangeBound.lowLT c.Range.lowerBound b.Bound = true ∧
      TRange.isEmpty ⟨b.Bound, c.Range.upperBound⟩ = true
  exact : ∀ p : α, (∀ b, Ls.head? = some b → b.Bound.memLower p = false) →
      ExactCover S segs1 p

/-- The initial sweep state: nothing consumed, both event lists sorted
permutations of the per-section events. -/
structure InitInv (S : List (FMovieSceneSectionData α)) (Ls Us : List (FBound α)) : Prop where
  srcNe : ∀ sd ∈ S, sd.Bounds.isEmpty = false
  permL : Ls.Perm (S.map fun sd => ⟨sd.EvalData, sd.Bounds.lowerBound⟩)
  permU : Us.Perm (S.map fun sd => ⟨sd.EvalData, sd.Bounds.upperBound⟩)
  sortedL : Ls.Pairwise fun a b => TRangeBound.lowLE a.Bound b.Bound = true
  sortedU : Us.Pairwise fun a b => TRangeBound.upLE a.Bound b.Bound = true

/-- The sweep's final guarantee: an empty active set, the reversed segment
list ordered and disjoint, and exact coverage of every point. -/
def SweepOut (S : List (FMovieSceneSectionData α))
    (out : List FSectionEvaluationData × List (FMovieSceneSegment α)) : Prop :=
  out.1 = [] ∧
  out.2.Chain' (fun s t => FMovieSceneTrackCompiler.RangeBefore t.Range s.Range) ∧
  ∀ p : α, ExactCover S out.2 p

/-! ### Order and membership lemmas for the bound algebra -/

namespace TRangeBound

variable {α : Type} [LinearOrder α]

theorem lowLE_refl (a : TRangeBound α) : lowLE a a = true := by
  cases a <;> simp [lowLE]

theorem upLE_refl (a : TRangeBound α) : upLE a a = true := by
  cases a <;> simp [upLE]

theorem lowLE_trans {a b c : TRangeBound α} (h1 : lowLE a b = true)
    (h2 : lowLE b c = true) : lowLE a c = true := by
  cases a <;> cases b <;> cases c <;> simp_all [lowLE] <;>
    first
      | exact le_trans h1 h2
      | exact lt_of_le_of_lt h1 h2
      | exact lt_of_lt_of_le h1 h2
      | exact le_of_lt (lt_trans h1 h2)
      | exact le_trans h1 (le_of_lt h2)
      | exact le_trans (le_of_lt h1) h2

theorem upLE_trans {a b c : TRangeBound α} (h1 : upLE a b = true)
    (h2 : upLE b c = true) : upLE a c = true := by
  cases a <;> cases b <;> cases c <;> simp_all [upLE] <;>
    first
      | exact le_trans h1 h2
      | exact lt_of_le_of_lt h1 h2
      | exact lt_of_lt_of_le h1 h2
      | exact le_of_lt (lt_trans h1 h2)
      | exact le_trans h1 (le_of_lt h2)
      | exact le_trans (le_of_lt h1) h2

theorem lowLE_of_not_lowLE {a b : TRangeBound α} (h : lowLE a b = false) :
    lowLE b a = true := by
  cases a <;> cases b <;> simp_all [lowLE] <;>
    first
      | exact le_of_lt h
      | exact h.le
      | exact h

theorem upLE_of_not_upLE {a b : TRangeBound α} (h : upLE a b = false) :
    upLE b a = true := by
  cases a <;> cases b <;> simp_all [upLE] <;>
    first
      | exact le_of_lt h
      | exact h.le
      | exact h

theorem lowLE_antisymm {a b : TRangeBound α} (h1 : lowLE a b = true)
    (h2 : lowLE b a = true) : a = b := by
  cases a <;> cases b <;> simp_all [lowLE] <;>
    first
      | exact le_antisymm h1 h2
      | exact absurd h2 (not_lt_of_le h1)
      | exact absurd h1 (not_lt_of_le h2)
      | exact absurd (lt_of_le_of_lt h1 h2) (lt_irrefl _)
      | exact absurd (lt_of_lt_of_le h1 h2) (lt_irrefl _)

theorem upLE_antisymm {a b : TRangeBound α} (h1 : upLE a b = true)
    (h2 : upLE b a = true) : a = b := by
  cases a <;> cases b <;> simp_all [upLE] <;>
    first
      | exact le_antisymm h1 h2
      | exact absurd h2 (not_lt_of_le h1)
      | exact absurd h1 (not_lt_of_le h2)
      | exact absurd (lt_of_le_of_lt h1 h2) (lt_irrefl _)
      | exact absurd (lt_of_lt_of_le h1 h2) (lt_irrefl _)

theorem lowLT_iff {a b : TRangeBound α} : lowLT a b = true ↔ lowLE b a = false := by
  simp [lowLT]

theorem lowLE_of_lowLT {a b : TRangeBound α} (h : lowLT a b = true) :
    lowLE a b = true := lowLE_of_not_lowLE (lowLT_iff.mp h)

theorem upLT_iff {a b : TRangeBound α} : upLT a b = true ↔ upLE b a = false := by
  simp [upLT]

theorem upLE_of_upLT {a b : TRangeBound α} (h : upLT a b = true) :
    upLE a b = true := upLE_of_not_upLE (upLT_iff.mp h)

theorem lowLT_ne {a b : TRangeBound α} (h : lowLT a b = true) : a ≠ b := by
  intro he
  subst he
  simp [lowLT, lowLE_refl] at h

theorem memLower_mono {a b : TRangeBound α} {p : α} (h : lowLE a b = true)
    (hm : memLower b p = true) : memLower a p = true := by
  cases a <;> cases b <;> simp_all [lowLE, memLower] <;>
    first
      | exact le_trans h hm
      | exact lt_of_le_of_lt h hm
      | exact lt_of_lt_of_le h hm
      | exact le_of_lt (lt_trans h hm)
      | exact le_trans h (le_of_lt hm)
      | exact le_trans (le_of_lt h) hm
      | exact lt_trans h hm
      | exact le_of_lt (lt_of_le_of_lt h hm)
      | exact le_of_lt (lt_of_lt_of_le h hm)

theorem memUpper_mono {a b : TRangeBound α} {p : α} (h : upLE a b = true)
    (hm : memUpper a p = true) : memUpper b p = true := by
  cases a <;> cases b <;> simp_all [upLE, memUpper] <;>
    first
      | exact le_trans hm h
      | exact lt_of_le_of_lt hm h
      | exact lt_of_lt_of_le hm h
      | exact le_of_lt (lt_trans hm h)
      | exact le_trans hm (le_of_lt h)
      | exact le_trans (le_of_lt hm) h
      | exact lt_trans hm h
      | exact le_of_lt (lt_of_le_of_lt hm h)
      | exact le_of_lt (lt_of_lt_of_le hm h)

theorem flip_flip (b : TRangeBound α) : b.flipInclusion.flipInclusion = b := by
  cases b <;> rfl

theorem flip_unbounded_iff {b : TRangeBound α} :
    b.flipInclusion = unbounded ↔ b = unbounded := by
  cases b <;> simp [flipInclusion]

theorem memLower_flip {u : TRangeBound α} (hu : u ≠ unbounded) (p : α) :
    memLower u.flipInclusion p = !memUpper u p := by
  cases u with
  | unbounded => exact absurd rfl hu
  | inclusive v =>
    by_cases h : p ≤ v
    · simp [flipInclusion, memLower, memUpper, h, not_lt.mpr h]
    · simp [flipInclusion, memLower, memUpper, h, not_le.mp h]
  | exclusive v =>
    by_cases h : p < v
    · simp [flipInclusion, memLower, memUpper, h, not_le.mpr h]
    · simp [flipInclusion, memLower, memUpper, h, not_lt.mp h]

theorem memUpper_flip {l : TRangeBound α} (hl : l ≠ unbounded) (p : α) :
    memUpper l.flipInclusion p = !memLower l p := by
  cases l with
  | unbounded => exact absurd rfl hl
  | inclusive v =>
    by_cases h : v ≤ p
    · simp [flipInclusion, memLower, memUpper, h, not_lt.mpr h]
    · simp [flipInclusion, memLower, memUpper, h, not_le.mp h]
  | exclusive v =>
    by_cases h : v < p
    · simp [flipInclusion, memLower, memUpper, h, not_le.mpr h]
    · simp [flipInclusion, memLower, memUpper, h, not_lt.mp h]

end TRangeBound

namespace TRange

variable {α : Type} [LinearOrder α]

open TRangeBound

theorem isEmpty_no_mem {l u : TRangeBound α} {p : α}
    (he : isEmpty ⟨l, u⟩ = true) :
    ¬(memLower l p = true ∧ memUpper u p = true) := by
  rintro ⟨h1, h2⟩
  cases l <;> cases u <;> simp_all [isEmpty, memLower, memUpper] <;>
    first
      | exact absurd (le_trans h1 h2) (not_le_of_lt he)
      | exact absurd (lt_of_le_of_lt h1 h2) (not_lt_of_le he)
      | exact absurd (lt_of_lt_of_le h1 h2) (not_lt_of_le he)
      | exact absurd (lt_trans h1 h2) (not_lt_of_le (le_of_lt he))
      | exact absurd (lt_trans h1 h2) (not_lt_of_le he)

theorem mem_of_not_isEmpty_of_not_memLower {l u : TRangeBound α} {p : α}
    (he : isEmpty ⟨l, u⟩ = false) (hp : memLower l p = false) :
    memUpper u p = true := by
  cases l <;> cases u <;> simp_all [isEmpty, memLower, memUpper, not_le, not_lt] <;>
    first
      | exact le_trans (le_of_lt hp) he
      | exact le_trans hp he
      | exact lt_of_le_of_lt hp he
      | exact lt_of_lt_of_le hp he
      | exact lt_trans hp he
      | exact le_of_lt (lt_of_le_of_lt hp he)
      | exact le_of_lt (lt_of_lt_of_le hp he)

theorem isEmpty_mono_lower {l1 l2 u : TRangeBound α} (h : lowLE l1 l2 = true)
    (he : isEmpty ⟨l1, u⟩ = true) : isEmpty ⟨l2, u⟩ = true := by
  cases l1 <;> cases l2 <;> cases u <;> simp_all [TRangeBound.lowLE, isEmpty] <;>
    first
      | exact lt_of_lt_of_le he h
      | exact le_trans he h
      | exact lt_of_le_of_lt he h
      | exact le_of_lt (lt_of_lt_of_le he h)
      | exact le_of_lt (lt_of_le_of_lt he h)
      | exact le_trans he (le_of_lt h)
      | exact le_trans (le_of_lt he) h
      | exact lt_trans he h

theorem isEmpty_anti_upper {l u1 u2 : TRangeBound α} (h : upLE u1 u2 = true)
    (he : isEmpty ⟨l, u2⟩ = true) : isEmpty ⟨l, u1⟩ = true := by
  cases l <;> cases u1 <;> cases u2 <;> simp_all [TRangeBound.upLE, isEmpty] <;>
    first
      | exact lt_of_le_of_lt h he
      | exact le_trans h he
      | exact lt_of_lt_of_le h he
      | exact le_of_lt (lt_of_lt_of_le h he)
      | exact le_of_lt (lt_of_le_of_lt h he)
      | exact le_trans h (le_of_lt he)
      | exact le_trans (le_of_lt h) he
      | exact lt_trans h he

theorem lowLE_flip {u : TRangeBound α} (hu : u ≠ TRangeBound.unbounded)
    (L : TRangeBound α) : lowLE u.flipInclusion L = isEmpty ⟨L, u⟩ := by
  cases u <;> cases L <;>
    simp_all [TRangeBound.flipInclusion, TRangeBound.lowLE, isEmpty]

theorem upLE_flip {l : TRangeBound α} (hl : l ≠ TRangeBound.unbounded)
    (U : TRangeBound α) : upLE U l.flipInclusion = isEmpty ⟨l, U⟩ := by
  cases l <;> cases U <;>
    simp_all [TRangeBound.flipInclusion, TRangeBound.upLE, isEmpty]

theorem containsRange_sound {r s : TRange α} (h : r.containsRange s = true)
    {p : α} (hm : s.memR p = true) : r.memR p = true := by
  simp only [containsRange, Bool.and_eq_true] at h
  simp only [memR, Bool.and_eq_true] at hm ⊢
  exact ⟨memLower_mono h.1 hm.1, memUpper_mono h.2 hm.2⟩

theorem containsRange_intersection_right (a b : TRange α) :
    b.containsRange (TRange.intersection a b) = true := by
  simp only [containsRange, intersection, TRangeBound.maxLower, TRangeBound.minUpper,
    Bool.and_eq_true]
  constructor
  · by_cases h : TRangeBound.lowLE a.lowerBound b.lowerBound = true
    · simp [h, TRangeBound.lowLE_refl]
    · simp only [Bool.not_eq_true] at h
      simp [h, TRangeBound.lowLE_of_not_lowLE h]
  · by_cases h : TRangeBound.upLE a.upperBound b.upperBound = true
    · simp [h]
    · simp only [Bool.not_eq_true] at h
      simp [h, TRangeBound.upLE_refl]

end TRange

/-! ### C10: ProcessSegments on an empty compiled list -/

/-- C10: if the compiled segment list handed to `ProcessSegments` is
empty, it returns immediately: the output list stays empty and no policy
hook (`BlendSegment`, `InsertEmptySpace`, `PostProcessSegments`) is
invoked — the recorded invocation trace is empty. -/
theorem processSegments_empty_input (rules : FMovieSceneSegmentCompilerRules α)
    (src : List (FMovieSceneSectionData α)) :
    processSegments rules [] src = ([], []) := rfl

/-! ### C8: InsertSegment clamps the returned range and blends before inserting -/

/-- C8: whenever a policy's `InsertEmptySpace` returns a segment for a
(non-empty) gap, `InsertSegment` inserts exactly the blend of the
gap-clamped segment at that index (so `BlendSegment` runs before the
insertion), and — provided blending preserves ranges, as the rules
contract requires — the inserted segment's range is contained in the gap,
both under `TRange::Contains` and pointwise; a returned range not
contained in the gap is corrected by intersection rather than rejected. -/
theorem insertSegment_clamps_and_blends (rules : FMovieSceneSegmentCompilerRules α)
    (segments : List (FMovieSceneSegment α)) (idx : Nat)
    (src : List (FMovieSceneSectionData α)) (newSeg : FMovieSceneSegment α)
    (hblend : ∀ s d, (rules.BlendSegment s d).Range = s.Range)
    (hgap : (emptyRangeAt segments idx).isEmpty = false)
    (hret : rules.InsertEmptySpace (emptyRangeAt segments idx)
      (prevSegAt segments idx) (nextSegAt segments idx) = some newSeg) :
    (insertSegment rules segments idx src).1 =
      segments.insertIdx idx
        (rules.BlendSegment (clampToGap (emptyRangeAt segments idx) newSeg) src) ∧
    (insertSegment rules segments idx src).2.1 = true ∧
    (emptyRangeAt segments idx).containsRange
      (rules.BlendSegment (clampToGap (emptyRangeAt segments idx) newSeg) src).Range = true ∧
    ∀ p, (rules.BlendSegment (clampToGap (emptyRangeAt segments idx) newSeg) src).Range.memR p
        = true → (emptyRangeAt segments idx).memR p = true := by
  have hcontain : (emptyRangeAt segments idx).containsRange
      (clampToGap (emptyRangeAt segments idx) newSeg).Range = true := by
    unfold clampToGap
    by_cases hc : (emptyRangeAt segments idx).containsRange newSeg.Range = true
    · simp [hc]
    · simp only [Bool.not_eq_true] at hc
      simp [hc, TRange.containsRange_intersection_right]
  have hcontain' : (emptyRangeAt segments idx).containsRange
      (rules.BlendSegment (clampToGap (emptyRangeAt segments idx) newSeg) src).Range = true := by
    rw [hblend]
    exact hcontain
  refine ⟨?_, ?_, hcontain', ?_⟩
  · simp [insertSegment, hgap, hret]
  · simp [insertSegment, hgap, hret]
  · intro p hp
    exact TRange.containsRange_sound hcontain' hp

/-- Witness for C8 at a concrete input: the gap `[1,5)` between the two
compiled `gapSections` segments, with a policy returning the overflowing
segment `[100,200]`. -/
theorem insertSegment_clamps_and_blends_witness :
    (emptyRangeAt (FMovieSceneSegmentCompiler.compile gapSections) 1).containsRange
      (overflowGapRules.BlendSegment
        (clampToGap (emptyRangeAt (FMovieSceneSegmentCompiler.compile gapSections) 1)
          ⟨⟨.inclusive 100, .inclusive 200⟩, []⟩) gapSections).Range = true :=
  (insertSegment_clamps_and_blends overflowGapRules
    (FMovieSceneSegmentCompiler.compile gapSections) 1 gapSections
    ⟨⟨.inclusive 100, .inclusive 200⟩, []⟩
    (fun _ _ => rfl) (by decide) (by decide)).2.2.1

/-! ### C3: where InsertEmptySpace is invoked -/

theorem emptyRangeAt_lowerBound (segments : List (FMovieSceneSegment α)) (idx : Nat) :
    (emptyRangeAt segments idx).lowerBound =
      (prevSegAt segments idx).elim TRangeBound.unbounded
        (fun s => s.Range.upperBound.flipInclusion) := by
  unfold emptyRangeAt
  cases prevSegAt segments idx <;> rfl

theorem emptyRangeAt_upperBound (segments : List (FMovieSceneSegment α)) (idx : Nat) :
    (emptyRangeAt segments idx).upperBound =
      (nextSegAt segments idx).elim TRangeBound.unbounded
        (fun s => s.Range.lowerBound.flipInclusion) := by
  unfold emptyRangeAt
  cases nextSegAt segments idx <;> rfl

theorem insertSegment_event {rules : FMovieSceneSegmentCompilerRules α}
    {segments : List (FMovieSceneSegment α)} {idx : Nat}
    {src : List (FMovieSceneSectionData α)} {g : TRange α}
    {po no : Option (FMovieSceneSegment α)}
    (h : RulesEvent.insertEmptySpace g po no ∈ (insertSegment rules segments idx src).2.2) :
    g = emptyRangeAt segments idx ∧ po = prevSegAt segments idx ∧
    no = nextSegAt segments idx ∧ g.isEmpty = false := by
  unfold insertSegment at h
  by_cases he : (emptyRangeAt segments idx).isEmpty = true
  · simp [he] at h
  · simp only [Bool.not_eq_true] at he
    rcases hr : rules.InsertEmptySpace (emptyRangeAt segments idx)
        (prevSegAt segments idx) (nextSegAt segments idx) with _ | s
    · simp only [he, hr, Bool.false_eq_true, if_false, List.mem_singleton,
        RulesEvent.insertEmptySpace.injEq] at h
      obtain ⟨hg, hp, hn⟩ := h
      exact ⟨hg, hp, hn, hg ▸ he⟩
    · simp only [he, hr, Bool.false_eq_true, if_false, List.cons_append, List.nil_append,
        List.mem_cons, List.mem_singleton, RulesEvent.insertEmptySpace.injEq] at h
      rcases h with ⟨hg, hp, hn⟩ | h
      · exact ⟨hg, hp, hn, hg ▸ he⟩
      · exact absurd h (by simp)

theorem gapEventOk_of_insertSegment {rules : FMovieSceneSegmentCompilerRules α}
    {segments : List (FMovieSceneSegment α)} {idx : Nat}
    {src : List (FMovieSceneSectionData α)} {g : TRange α}
    {po no : Option (FMovieSceneSegment α)}
    (h : RulesEvent.insertEmptySpace g po no ∈ (insertSegment rules segments idx src).2.2)
    (hns : segments ≠ []) (hle : idx ≤ segments.length) :
    GapEventOk g po no := by
  obtain ⟨hg, hp, hn, hne⟩ := insertSegment_event h
  refine ⟨hne, ?_, ?_, ?_⟩
  · rw [hg, emptyRangeAt_lowerBound, hp]
  · rw [hg, emptyRangeAt_upperBound, hn]
  · by_cases h0 : idx = 0
    · right
      rw [hn]
      unfold nextSegAt
      subst h0
      rcases segments with _ | ⟨s, ss⟩
      · exact absurd rfl hns
      · simp
    · left
      rw [hp]
      unfold prevSegAt
      simp only [h0, if_false]
      have hlt : idx - 1 < segments.length := by
        rcases segments with _ | ⟨s, ss⟩
        · exact absurd rfl hns
        · simp at hle ⊢; omega
      rw [List.get?_eq_get hlt]
      simp

theorem insertLoop_event {rules : FMovieSceneSegmentCompilerRules α}
    {src : List (FMovieSceneSectionData α)} :
    ∀ (fuel : Nat) (segments : List (FMovieSceneSegment α)) (idx : Nat),
    ∀ {g : TRange α} {po no : Option (FMovieSceneSegment α)},
    RulesEvent.insertEmptySpace g po no ∈ (insertLoop rules src fuel segments idx).2 →
      GapEventOk g po no := by
  intro fuel
  induction fuel with
  | zero => intro segments idx g po no h; simp [insertLoop] at h
  | succ fuel ih =>
    intro segments idx g po no h
    rw [insertLoop] at h
    by_cases hlt : idx < segments.length
    · simp only [hlt, if_true] at h
      have hns : segments ≠ [] := by
        intro he; rw [he] at hlt; simp at hlt
      by_cases hins : (insertSegment rules segments idx src).2.1 = true
      · simp only [hins, if_true, List.mem_append] at h
        rcases h with h | h
        · exact gapEventOk_of_insertSegment h hns (le_of_lt hlt)
        · exact ih _ _ h
      · simp only [Bool.not_eq_true] at hins
        simp only [hins, Bool.false_eq_true, if_false, List.mem_append] at h
        rcases h with h | h
        · exact gapEventOk_of_insertSegment h hns (le_of_lt hlt)
        · exact ih _ _ h
    · simp only [hlt, if_false] at h
      simp at h

theorem leadingStep_event {rules : FMovieSceneSegmentCompilerRules α}
    {segments : List (FMovieSceneSegment α)} {src : List (FMovieSceneSectionData α)}
    {g : TRange α} {po no : Option (FMovieSceneSegment α)}
    (h : RulesEvent.insertEmptySpace g po no ∈ (leadingStep rules segments src).2) :
    GapEventOk g po no := by
  rcases segments with _ | ⟨first, rest⟩
  · simp [leadingStep] at h
  · rw [leadingStep] at h
    by_cases ho : first.Range.lowerBound.isOpen = true
    · simp only [ho, if_true] at h
      simp at h
    · simp only [Bool.not_eq_true] at ho
      simp only [ho, Bool.false_eq_true, if_false] at h
      exact gapEventOk_of_insertSegment h (by simp) (by simp)

theorem trailingStep_event {rules : FMovieSceneSegmentCompilerRules α}
    {segments : List (FMovieSceneSegment α)} {src : List (FMovieSceneSectionData α)}
    {g : TRange α} {po no : Option (FMovieSceneSegment α)}
    (h : RulesEvent.insertEmptySpace g po no ∈ (trailingStep rules segments src).2) :
    GapEventOk g po no := by
  rw [trailingStep] at h
  rcases hl : segments.getLast? with _ | lastSeg
  · rw [hl] at h
    simp at h
  · rw [hl] at h
    by_cases ho : lastSeg.Range.upperBound.isOpen = true
    · simp only [ho, if_true] at h
      simp at h
    · simp only [Bool.not_eq_true] at ho
      simp only [ho, Bool.false_eq_true, if_false] at h
      have hns : segments ≠ [] := by
        intro he; rw [he] at hl; simp at hl
      exact gapEventOk_of_insertSegment h hns (le_refl _)

/-- C3 (counterexample): compiling the disjoint sections `[0,1)`, `[5,6)`
leaves an interior gap, and rules processing *does* invoke
`InsertEmptySpace` between the two adjacent compiled segments — the trace
contains an invocation whose previous and next neighbors are both
present, contradicting "never invoked between two adjacent compiled
segments". -/
theorem interior_insertEmptySpace_occurs :
    RulesEvent.insertEmptySpace ⟨.inclusive 1, .exclusive 5⟩
      (some ⟨⟨.inclusive 0, .exclusive 1⟩, [evalData 0]⟩)
      (some ⟨⟨.inclusive 5, .exclusive 6⟩, [evalData 1]⟩) ∈
      (processSegments trivialRules
        (FMovieSceneSegmentCompiler.compile gapSections) gapSections).2 := by
  decide

/-- C3 (amended): during rules processing, `InsertEmptySpace` is invoked
once for each non-empty gap encountered — before the first segment, after
the last segment, *and* between adjacent segments (interior gaps can
occur, e.g. for disjoint sections).  Every invocation receives a
non-empty gap range whose bounds are the flipped bounds of the
neighboring segments (open where there is no neighbor), and at least one
neighbor is always present; in particular adjoining neighbors (empty gap)
never trigger an invocation. -/
theorem insertEmptySpace_only_at_gaps (rules : FMovieSceneSegmentCompilerRules α)
    (segments : List (FMovieSceneSegment α)) (src : List (FMovieSceneSectionData α))
    {g : TRange α} {po no : Option (FMovieSceneSegment α)}
    (h : RulesEvent.insertEmptySpace g po no ∈ (processSegments rules segments src).2) :
    GapEventOk g po no := by
  rcases segments with _ | ⟨first0, rest0⟩
  · simp [processSegments] at h
  rw [processSegments] at h
  simp only [List.mem_append, List.mem_cons, List.mem_singleton] at h
  rcases h with ((((h | h) | h) | h) | h)
  · simp only [List.mem_map] at h
    obtain ⟨s, _, hs⟩ := h
    exact absurd hs (by simp)
  · exact leadingStep_event h
  · exact insertLoop_event _ _ _ h
  · exact trailingStep_event h
  · exact absurd h (by simp)

/-- Witness for the amended C3 theorem at the concrete interior
invocation produced by compiling `gapSections`. -/
theorem insertEmptySpace_only_at_gaps_witness :
    GapEventOk (⟨.inclusive 1, .exclusive 5⟩ : TRange Int)
      (some ⟨⟨.inclusive 0, .exclusive 1⟩, [evalData 0]⟩)
      (some ⟨⟨.inclusive 5, .exclusive 6⟩, [evalData 1]⟩) :=
  insertEmptySpace_only_at_gaps trivialRules
    (FMovieSceneSegmentCompiler.compile gapSections) gapSections (by decide)

/-! ### Stable sorting lemmas (for C6 and the sweep invariant) -/

section StableSort

variable {β γ : Type} [DecidableEq γ]

theorem insertSorted_perm (le : β → β → Bool) (x : β) (l : List β) :
    (insertSorted le x l).Perm (x :: l) := by
  induction l with
  | nil => exact List.Perm.refl _
  | cons y ys ih =>
    by_cases h : le y x = true
    · simp only [insertSorted, h, if_true]
      exact (ih.cons y).trans (List.Perm.swap x y ys)
    · simp only [Bool.not_eq_true] at h
      simp only [insertSorted, h, Bool.false_eq_true, if_false]
      exact List.Perm.refl _

theorem mem_insertSorted {le : β → β → Bool} {x z : β} {l : List β} :
    z ∈ insertSorted le x l ↔ z = x ∨ z ∈ l := by
  rw [(insertSorted_perm le x l).mem_iff]
  simp

theorem insertSorted_sorted (le : β → β → Bool)
    (htot : ∀ a b, le a b = false → le b a = true)
    (htrans : ∀ a b c, le a b = true → le b c = true → le a c = true)
    (x : β) (l : List β) (hl : l.Pairwise (fun a b => le a b = true)) :
    (insertSorted le x l).Pairwise (fun a b => le a b = true) := by
  induction l with
  | nil => simp [insertSorted]
  | cons y ys ih =>
    rcases List.pairwise_cons.mp hl with ⟨hy, hys⟩
    by_cases h : le y x = true
    · simp only [insertSorted, h, if_true]
      refine List.pairwise_cons.mpr ⟨?_, ih hys⟩
      intro z hz
      rcases mem_insertSorted.mp hz with rfl | hz
      · exact h
      · exact hy z hz
    · simp only [Bool.not_eq_true] at h
      simp only [insertSorted, h, Bool.false_eq_true, if_false]
      refine List.pairwise_cons.mpr ⟨?_, hl⟩
      intro z hz
      rcases List.mem_cons.mp hz with rfl | hz
      · exact htot _ _ h
      · exact htrans _ _ _ (htot _ _ h) (hy z hz)

theorem filter_insertSorted (k : β → γ) (c : γ → γ → Bool)
    (hrefl : ∀ u, c u u = true) (x : β) (l : List β)
    (hl : l.Pairwise (fun a b => c (k a) (k b) = true)) (b : γ) :
    (insertSorted (fun a b => c (k a) (k b)) x l).filter (fun y => k y = b) =
      if k x = b then l.filter (fun y => k y = b) ++ [x]
      else l.filter (fun y => k y = b) := by
  induction l with
  | nil =>
    by_cases hx : k x = b <;> simp [insertSorted, hx]
  | cons y ys ih =>
    rcases List.pairwise_cons.mp hl with ⟨hy, hys⟩
    by_cases h : c (k y) (k x) = true
    · simp only [insertSorted, h, if_true, List.filter_cons]
      rw [ih hys]
      by_cases hx : k x = b <;> by_cases hyb : k y = b <;>
        simp [hx, hyb]
    · simp only [Bool.not_eq_true] at h
      simp only [insertSorted, h, Bool.false_eq_true, if_false]
      by_cases hx : k x = b
      · have hyb : ¬ (k y = b) := by
          intro hyb
          rw [hyb, ← hx] at h
          rw [hrefl (k x)] at h
          simp at h
        have hall : ys.filter (fun z => k z = b) = [] := by
          rw [List.filter_eq_nil_iff]
          intro z hz hzb
          simp only [decide_eq_true_eq] at hzb
          have hyz := hy z hz
          rw [hzb, ← hx] at hyz
          rw [hyz] at h
          simp at h
        simp [hx, hyb, hall, List.filter_cons]
      · by_cases hyb : k y = b <;> simp [hx, hyb, List.filter_cons]

theorem stableSortBy_append_singleton (le : β → β → Bool) (l : List β) (x : β) :
    stableSortBy le (l ++ [x]) = insertSorted le x (stableSortBy le l) := by
  simp [stableSortBy, List.foldl_append]

theorem stableSortBy_perm (le : β → β → Bool) (l : List β) :
    (stableSortBy le l).Perm l := by
  induction l using List.reverseRecOn with
  | nil => exact List.Perm.refl _
  | append_singleton l x ih =>
    rw [stableSortBy_append_singleton]
    exact ((insertSorted_perm le x _).trans (ih.cons x)).trans
      (List.perm_append_singleton x l).symm

theorem stableSortBy_sorted (le : β → β → Bool)
    (htot : ∀ a b, le a b = false → le b a = true)
    (htrans : ∀ a b c, le a b = true → le b c = true → le a c = true)
    (l : List β) :
    (stableSortBy le l).Pairwise (fun a b => le a b = true) := by
  induction l using List.reverseRecOn with
  | nil => simp [stableSortBy]
  | append_singleton l x ih =>
    rw [stableSortBy_append_singleton]
    exact insertSorted_sorted le htot htrans x _ ih

theorem stableSortBy_filter (k : β → γ) (c : γ → γ → Bool)
    (hrefl : ∀ u, c u u = true)
    (htot : ∀ a b, c a b = false → c b a = true)
    (htrans : ∀ a b d, c a b = true → c b d = true → c a d = true)
    (l : List β) (b : γ) :
    (stableSortBy (fun a b => c (k a) (k b)) l).filter (fun y => k y = b) =
      l.filter (fun y => k y = b) := by
  induction l using List.reverseRecOn with
  | nil => simp [stableSortBy]
  | append_singleton l x ih =>
    rw [stableSortBy_append_singleton]
    rw [filter_insertSorted k c hrefl x _
      (stableSortBy_sorted (fun a b => c (k a) (k b))
        (fun a b h => htot _ _ h) (fun a b d h1 h2 => htrans _ _ _ h1 h2) l) b]
    by_cases hx : k x = b <;> simp [hx, ih, List.filter_append]

end StableSort

/-! ### The sort comparators agree with the bound orders -/

theorem minLower_refl (u : TRangeBound α) : TRangeBound.minLower u u = u := by
  unfold TRangeBound.minLower
  by_cases h : TRangeBound.lowLE u u = true <;> simp [h]

theorem minUpper_refl (u : TRangeBound α) : TRangeBound.minUpper u u = u := by
  unfold TRangeBound.minUpper
  by_cases h : TRangeBound.upLE u u = true <;> simp [h]

theorem minLower_eq_lowLE (u v : TRangeBound α) :
    (decide (TRangeBound.minLower u v = u)) = TRangeBound.lowLE u v := by
  unfold TRangeBound.minLower
  by_cases h : TRangeBound.lowLE u v = true
  · simp [h]
  · simp only [Bool.not_eq_true] at h
    simp only [h, Bool.false_eq_true, if_false, decide_eq_false_iff_not]
    intro he
    rw [he] at h
    rw [TRangeBound.lowLE_refl u] at h
    simp at h

theorem minUpper_eq_upLE (u v : TRangeBound α) :
    (decide (TRangeBound.minUpper u v = u)) = TRangeBound.upLE u v := by
  unfold TRangeBound.minUpper
  by_cases h : TRangeBound.upLE u v = true
  · simp [h]
  · simp only [Bool.not_eq_true] at h
    simp only [h, Bool.false_eq_true, if_false, decide_eq_false_iff_not]
    intro he
    rw [he] at h
    rw [TRangeBound.upLE_refl u] at h
    simp at h

theorem lowerCmp_eq (a b : FBound α) : lowerCmp a b = TRangeBound.lowLE a.Bound b.Bound := by
  unfold lowerCmp
  exact minLower_eq_lowLE a.Bound b.Bound

theorem upperCmp_eq (a b : FBound α) : upperCmp a b = TRangeBound.upLE a.Bound b.Bound := by
  unfold upperCmp
  exact minUpper_eq_upLE a.Bound b.Bound

theorem lowerCmp_key (a b : FBound α) :
    lowerCmp a b = (fun u v => decide (TRangeBound.minLower u v = u)) a.Bound b.Bound := rfl

theorem upperCmp_key (a b : FBound α) :
    upperCmp a b = (fun u v => decide (TRangeBound.minUpper u v = u)) a.Bound b.Bound := rfl

/-! ### C6: determinism and stable tie-breaking -/

/-- C6: compilation is a pure function of the input list — two runs on
equal inputs produce identical segment lists — and the bound sorts used
by `Compile` break ties among equal bound values by stable input order:
restricting the sorted event list to any one bound value yields exactly
the input-order sublist of events with that bound.  (The `TArray::Sort`
implementation is outside `src/`; it is modelled as the stable sort the
spec mandates.) -/
theorem compile_deterministic_and_stable (data : List (FMovieSceneSectionData α)) :
    (∀ data2, data = data2 →
      FMovieSceneSegmentCompiler.compile data = FMovieSceneSegmentCompiler.compile data2) ∧
    (∀ b : TRangeBound α,
      (FMovieSceneSegmentCompiler.sortedLowerBounds data).filter (fun e => e.Bound = b) =
        (FMovieSceneSegmentCompiler.rawLowerBounds data).filter (fun e => e.Bound = b)) ∧
    (∀ b : TRangeBound α,
      (FMovieSceneSegmentCompiler.sortedUpperBounds data).filter (fun e => e.Bound = b) =
        (FMovieSceneSegmentCompiler.rawUpperBounds data).filter (fun e => e.Bound = b)) := by
  refine ⟨fun data2 h => by rw [h], fun b => ?_, fun b => ?_⟩
  · exact stableSortBy_filter (fun e : FBound α => e.Bound)
      (fun u v => decide (TRangeBound.minLower u v = u))
      (fun u => by
        show decide (TRangeBound.minLower u u = u) = true
        rw [minLower_eq_lowLE]
        exact TRangeBound.lowLE_refl u)
      (fun u v h => by
        have h' : decide (TRangeBound.minLower u v = u) = false := h
        show decide (TRangeBound.minLower v u = v) = true
        rw [minLower_eq_lowLE] at h' ⊢
        exact TRangeBound.lowLE_of_not_lowLE h')
      (fun u v w h1 h2 => by
        have h1' : decide (TRangeBound.minLower u v = u) = true := h1
        have h2' : decide (TRangeBound.minLower v w = v) = true := h2
        show decide (TRangeBound.minLower u w = u) = true
        rw [minLower_eq_lowLE] at h1' h2' ⊢
        exact TRangeBound.lowLE_trans h1' h2')
      (FMovieSceneSegmentCompiler.rawLowerBounds data) b
  · exact stableSortBy_filter (fun e : FBound α => e.Bound)
      (fun u v => decide (TRangeBound.minUpper u v = u))
      (fun u => by
        show decide (TRangeBound.minUpper u u = u) = true
        rw [minUpper_eq_upLE]
        exact TRangeBound.upLE_refl u)
      (fun u v h => by
        have h' : decide (TRangeBound.minUpper u v = u) = false := h
        show decide (TRangeBound.minUpper v u = v) = true
        rw [minUpper_eq_upLE] at h' ⊢
        exact TRangeBound.upLE_of_not_upLE h')
      (fun u v w h1 h2 => by
        have h1' : decide (TRangeBound.minUpper u v = u) = true := h1
        have h2' : decide (TRangeBound.minUpper v w = v) = true := h2
        show decide (TRangeBound.minUpper u w = u) = true
        rw [minUpper_eq_upLE] at h1' h2' ⊢
        exact TRangeBound.upLE_trans h1' h2')
      (FMovieSceneSegmentCompiler.rawUpperBounds data) b

/-- Witness for C6 at a concrete input with a tie among equal bound
values (two sections with the same lower bound). -/
theorem compile_deterministic_and_stable_witness :
    FMovieSceneSegmentCompiler.compile gapSections =
      FMovieSceneSegmentCompiler.compile gapSections ∧
    (FMovieSceneSegmentCompiler.sortedLowerBounds
        [⟨⟨.inclusive 0, .exclusive 1⟩, evalData 0, 0⟩,
         ⟨⟨.inclusive 0, .exclusive 2⟩, evalData 1, 0⟩]).filter
      (fun e => e.Bound = TRangeBound.inclusive 0) =
      (FMovieSceneSegmentCompiler.rawLowerBounds
        [⟨⟨.inclusive 0, .exclusive 1⟩, evalData 0, 0⟩,
         ⟨⟨.inclusive 0, .exclusive 2⟩, evalData 1, 0⟩]).filter
      (fun e => e.Bound = TRangeBound.inclusive 0) :=
  ⟨(compile_deterministic_and_stable gapSections).1 gapSections rfl,
   (compile_deterministic_and_stable _).2.1 (TRangeBound.inclusive 0)⟩

/-! ### C5: touching sections -/

/-- C5 (counterexample): compiling the touching sections `[0,1)`, `[1,2)`
does *not* yield one merged segment `[0,2)` with both Impls — it yields
two segments. -/
theorem compile_touching_not_merged :
    FMovieSceneSegmentCompiler.compile touchingSections =
      [⟨⟨.inclusive 0, .exclusive 1⟩, [evalData 0]⟩,
       ⟨⟨.inclusive 1, .exclusive 2⟩, [evalData 1]⟩] ∧
    FMovieSceneSegmentCompiler.compile touchingSections ≠
      [⟨⟨.inclusive 0, .exclusive 2⟩, [evalData 0, evalData 1]⟩] := by
  decide

/-- C5 (amended): for any two sections `[a,b)` and `[b,c)` (touching,
non-overlapping), a rule-free compile yields exactly the two segments
`[a,b) → {first}` and `[b,c) → {second}`, whose ranges adjoin — never two
segments separated by a zero-width gap, and never one merged segment. -/
theorem compile_touching_adjoins (a b c : α) (e0 e1 : FSectionEvaluationData)
    (p0 p1 : Int) (hab : a < b) (hbc : b < c) :
    FMovieSceneSegmentCompiler.compile
      [⟨⟨.inclusive a, .exclusive b⟩, e0, p0⟩, ⟨⟨.inclusive b, .exclusive c⟩, e1, p1⟩] =
      [⟨⟨.inclusive a, .exclusive b⟩, [e0]⟩, ⟨⟨.inclusive b, .exclusive c⟩, [e1]⟩] ∧
    TRange.adjoins (⟨.inclusive a, .exclusive b⟩ : TRange α) ⟨.inclusive b, .exclusive c⟩
      = true := by
  constructor
  · simp [FMovieSceneSegmentCompiler.compile, FMovieSceneSegmentCompiler.compileSweep,
      FMovieSceneSegmentCompiler.sortedLowerBounds, FMovieSceneSegmentCompiler.sortedUpperBounds,
      FMovieSceneSegmentCompiler.rawLowerBounds, FMovieSceneSegmentCompiler.rawUpperBounds,
      stableSortBy, insertSorted, lowerCmp, upperCmp,
      TRangeBound.minLower, TRangeBound.minUpper, TRangeBound.lowLE, TRangeBound.upLE,
      TRange.isEmpty, sweepLoop, closeCompletedSegments, closeLoop, closeBatch, openBatch,
      addOverlap, removeOverlap, removeAtSwap, TRangeBound.flipInclusion,
      hab, hbc, hab.le, hbc.le, not_le.mpr hab, not_le.mpr hbc,
      hab.ne, hbc.ne, hab.ne', hbc.ne']
  · simp [TRange.adjoins, TRange.isEmpty, TRange.boundAdjacent,
      not_le.mpr hab, not_le.mpr hbc]

/-! ### C9: row building emits main plus phantom entries -/

section ListHelpers

variable {β : Type}

theorem getD_replicate (n q : Nat) (d : β) : (List.replicate n d).getD q d = d := by
  induction n generalizing q with
  | zero => simp [List.getD]
  | succ n ih =>
    cases q with
    | zero => rfl
    | succ q => exact ih q

theorem getD_append_replicate_default (l : List β) (n : Nat) (d : β) :
    ∀ q, (l ++ List.replicate n d).getD q d = l.getD q d := by
  induction l with
  | nil => intro q; simp [getD_replicate]
  | cons x xs ih =>
    intro q
    cases q with
    | zero => rfl
    | succ q => exact ih q

theorem getD_set_eq (l : List β) (n : Nat) (v d : β) (h : n < l.length) :
    (l.set n v).getD n d = v := by
  induction l generalizing n with
  | nil => simp at h
  | cons x xs ih =>
    cases n with
    | zero => rfl
    | succ n => exact ih n (by simpa using h)

theorem getD_set_ne (l : List β) (n m : Nat) (v d : β) (h : n ≠ m) :
    (l.set n v).getD m d = l.getD m d := by
  induction l generalizing n m with
  | nil => rfl
  | cons x xs ih =>
    cases n with
    | zero =>
      cases m with
      | zero => exact absurd rfl h
      | succ m => rfl
    | succ n =>
      cases m with
      | zero => rfl
      | succ m => exact ih n m (by omega)

theorem getD_mem {l : List β} {n : Nat} {d : β} (h : l.getD n d ≠ d) :
    l.getD n d ∈ l := by
  induction l generalizing n with
  | nil => exact absurd rfl h
  | cons x xs ih =>
    cases n with
    | zero => exact List.mem_cons_self x xs
    | succ n => exact List.mem_cons_of_mem x (ih h)

end ListHelpers

namespace FMovieSceneTrackCompiler

theorem padRows_lt (rows : List (List (FMovieSceneSectionRowData Int))) (r : Nat) :
    r < (padRows rows r).length := by
  unfold padRows
  by_cases h : r < rows.length
  · simp [h]
  · simp only [h, if_false]
    rw [List.length_append, List.length_replicate]
    omega

theorem padRows_getD (rows : List (List (FMovieSceneSectionRowData Int))) (r q : Nat) :
    (padRows rows r).getD q [] = rows.getD q [] := by
  unfold padRows
  by_cases h : r < rows.length
  · simp [h]
  · simp only [h, if_false]
    exact getD_append_replicate_default rows _ [] q

theorem addSection_inactive (rows : List (List (FMovieSceneSectionRowData Int)))
    (idx : Nat) (sec : UMovieSceneSection) (h : sec.IsActive = false) :
    addSection rows idx sec = rows := by
  simp [addSection, h]

theorem addSection_active (rows : List (List (FMovieSceneSectionRowData Int)))
    (idx : Nat) (sec : UMovieSceneSection) (h : sec.IsActive = true) :
    addSection rows idx sec =
      (padRows rows sec.RowIndex).set sec.RowIndex
        (((padRows rows sec.RowIndex).getD sec.RowIndex []) ++
          claimedSectionBlock idx
            (((padRows rows sec.RowIndex).getD sec.RowIndex []).length : Int) sec) := by
  unfold addSection claimedSectionBlock
  simp only [h, Bool.not_true, Bool.false_eq_true, if_false]
  rcases hR : (if sec.IsInfinite = true then (⟨.unbounded, .unbounded⟩ : TRange Int)
      else sec.SectionRange) with ⟨lb, ub⟩
  cases lb <;> cases ub <;>
    by_cases h1 : 0 < sec.PreRollTime <;> by_cases h2 : 0 < sec.PostRollTime <;>
      simp [h1, h2, List.append_assoc]

theorem claimedSectionBlock_infinite (idx : Nat) (k : Int) (sec : UMovieSceneSection)
    (h : sec.IsInfinite = true) :
    claimedSectionBlock idx k sec =
      [⟨idx, ⟨.unbounded, .unbounded⟩, ⟨k, .none⟩, sec.OverlapPriority⟩] := by
  unfold claimedSectionBlock
  simp [h]

theorem addSection_keeps (rows : List (List (FMovieSceneSectionRowData Int)))
    (idx : Nat) (sec : UMovieSceneSection) (q : Nat)
    (block : List (FMovieSceneSectionRowData Int))
    (h : ∃ pre post, rows.getD q [] = pre ++ block ++ post) :
    ∃ pre post, (addSection rows idx sec).getD q [] = pre ++ block ++ post := by
  obtain ⟨pre, post, hpp⟩ := h
  by_cases ha : sec.IsActive = true
  · rw [addSection_active rows idx sec ha]
    by_cases hq : sec.RowIndex = q
    · subst hq
      rw [getD_set_eq _ _ _ _ (padRows_lt rows sec.RowIndex)]
      refine ⟨pre, post ++ claimedSectionBlock idx
        (((padRows rows sec.RowIndex).getD sec.RowIndex []).length : Int) sec, ?_⟩
      rw [padRows_getD, hpp]
      simp [List.append_assoc]
    · rw [getD_set_ne _ _ _ _ _ hq]
      rw [padRows_getD]
      exact ⟨pre, post, hpp⟩
  · simp only [Bool.not_eq_true] at ha
    rw [addSection_inactive rows idx sec ha]
    exact ⟨pre, post, hpp⟩

theorem buildRowsAux_keeps (rest : List UMovieSceneSection) :
    ∀ (j : Nat) (rows : List (List (FMovieSceneSectionRowData Int))) (q : Nat)
      (block : List (FMovieSceneSectionRowData Int)),
    (∃ pre post, rows.getD q [] = pre ++ block ++ post) →
    ∃ pre post, (buildRowsAux rest j rows).getD q [] = pre ++ block ++ post := by
  induction rest with
  | nil => intro j rows q block h; exact h
  | cons sec rest ih =>
    intro j rows q block h
    exact ih (j + 1) (addSection rows j sec) q block (addSection_keeps rows j sec q block h)

theorem buildRowsAux_block (sections : List UMovieSceneSection) :
    ∀ (j : Nat) (rows : List (List (FMovieSceneSectionRowData Int)))
      (i : Nat) (hi : i < sections.length),
    (sections.get ⟨i, hi⟩).IsActive = true →
    ∃ (k : Int) (pre post : List (FMovieSceneSectionRowData Int)),
      (buildRowsAux sections j rows).getD (sections.get ⟨i, hi⟩).RowIndex [] =
        pre ++ claimedSectionBlock (j + i) k (sections.get ⟨i, hi⟩) ++ post := by
  induction sections with
  | nil => intro j rows i hi; simp at hi
  | cons sec rest ih =>
    intro j rows i hi ha
    cases i with
    | zero =>
      simp only [List.get] at ha ⊢
      rw [buildRowsAux]
      simp only [Nat.add_zero]
      refine ⟨(((padRows rows sec.RowIndex).getD sec.RowIndex []).length : Int), ?_⟩
      refine buildRowsAux_keeps rest (j + 1) (addSection rows j sec) sec.RowIndex
        (claimedSectionBlock j
          (((padRows rows sec.RowIndex).getD sec.RowIndex []).length : Int) sec) ?_
      rw [addSection_active rows j sec ha]
      rw [getD_set_eq _ _ _ _ (padRows_lt rows sec.RowIndex)]
      exact ⟨(padRows rows sec.RowIndex).getD sec.RowIndex [], [], by simp⟩
    | succ i =>
      simp only [List.get] at ha ⊢
      rw [buildRowsAux]
      have hlt : i < rest.length := by
        simp only [List.length_cons] at hi
        omega
      obtain ⟨k, pre, post, hpp⟩ := ih (j + 1) (addSection rows j sec) i hlt ha
      refine ⟨k, pre, post, ?_⟩
      rw [show j + (i + 1) = (j + 1) + i from by omega]
      exact hpp

/-- C9: for every active entity, `FRows` emits into that entity's row a
contiguous block consisting of the primary entry over its
(infinite-mapped) range plus — exactly when the corresponding bound is
non-open and the pre-roll/post-roll duration is positive — a pre-roll
phantom `[lv - preRoll, lv)` tagged `PreRoll` and a post-roll phantom
`(uv, uv + postRoll]` tagged `PostRoll`, each with the same impl index
and priority as the primary entry (see `claimedSectionBlock`); an entity
with an infinite range is mapped to the all-open range and its block is
the primary entry alone, with no phantoms. -/
theorem buildRows_emits (sections : List UMovieSceneSection) (i : Nat)
    (hi : i < sections.length) (ha : (sections.get ⟨i, hi⟩).IsActive = true) :
    ∃ L ∈ buildRows sections, ∃ (k : Int)
      (pre post : List (FMovieSceneSectionRowData Int)),
      L = pre ++ claimedSectionBlock i k (sections.get ⟨i, hi⟩) ++ post ∧
      ((sections.get ⟨i, hi⟩).IsInfinite = true →
        claimedSectionBlock i k (sections.get ⟨i, hi⟩) =
          [⟨i, ⟨.unbounded, .unbounded⟩, ⟨k, .none⟩,
            (sections.get ⟨i, hi⟩).OverlapPriority⟩]) := by
  obtain ⟨k, pre, post, hpp⟩ := buildRowsAux_block sections 0 [] i hi ha
  rw [Nat.zero_add] at hpp
  set L := (buildRowsAux sections 0 []).getD (sections.get ⟨i, hi⟩).RowIndex [] with hL
  have hblock_ne : claimedSectionBlock i k (sections.get ⟨i, hi⟩) ≠ [] := by
    unfold claimedSectionBlock
    simp
  have hne : L ≠ [] := by
    rw [hpp]
    intro hcon
    rcases List.append_eq_nil.mp hcon with ⟨hcon1, _⟩
    rcases List.append_eq_nil.mp hcon1 with ⟨_, hcon2⟩
    exact hblock_ne hcon2
  have hmem : L ∈ buildRowsAux sections 0 [] := getD_mem hne
  refine ⟨L, List.mem_filter.mpr ⟨hmem, by simpa using hne⟩, k, pre, post, hpp, ?_⟩
  intro hinf
  exact claimedSectionBlock_infinite i k _ hinf

/-- Witness for C9 at a concrete active section `[0,10)` with pre-roll 3
and post-roll 4. -/
theorem buildRows_emits_witness :
    ∃ L ∈ buildRows [⟨true, 0, false, ⟨.inclusive 0, .exclusive 10⟩, 3, 4, 7⟩],
      ∃ (k : Int) (pre post : List (FMovieSceneSectionRowData Int)),
        L = pre ++ claimedSectionBlock 0 k
          (([⟨true, 0, false, ⟨.inclusive 0, .exclusive 10⟩, 3, 4, 7⟩] :
            List UMovieSceneSection).get ⟨0, by decide⟩) ++ post ∧
        ((([⟨true, 0, false, ⟨.inclusive 0, .exclusive 10⟩, 3, 4, 7⟩] :
            List UMovieSceneSection).get ⟨0, by decide⟩).IsInfinite = true →
          claimedSectionBlock 0 k
            (([⟨true, 0, false, ⟨.inclusive 0, .exclusive 10⟩, 3, 4, 7⟩] :
              List UMovieSceneSection).get ⟨0, by decide⟩) =
            [⟨0, ⟨.unbounded, .unbounded⟩, ⟨k, .none⟩,
              (([⟨true, 0, false, ⟨.inclusive 0, .exclusive 10⟩, 3, 4, 7⟩] :
                List UMovieSceneSection).get ⟨0, by decide⟩).OverlapPriority⟩]) :=
  buildRows_emits [⟨true, 0, false, ⟨.inclusive 0, .exclusive 10⟩, 3, 4, 7⟩] 0
    (by decide) (by decide)

end FMovieSceneTrackCompiler

/-! ### C4: the final merge pass is order-sensitive on Impls -/

namespace FMovieSceneTrackCompiler

/-- C4 (counterexample): a track whose row-level blending produces two
adjoining segments carrying the same Impls *set* in different orders;
the final pass does not merge them — the output is two segments, because
the code compares the `Impls` arrays element-wise (order-sensitively),
not as sets. -/
theorem trackCompile_set_equal_not_merged :
    FMovieSceneTrackCompiler.compileTracks [reorderRow] none =
      [⟨⟨.inclusive 0, .exclusive 10⟩, [evalData 0, evalData 1]⟩,
       ⟨⟨.inclusive 10, .exclusive 20⟩, [evalData 1, evalData 0]⟩] ∧
    TRange.adjoins (⟨.inclusive (0 : Int), .exclusive 10⟩ : TRange Int)
      ⟨.inclusive 10, .exclusive 20⟩ = true ∧
    ([evalData 0, evalData 1] : List FSectionEvaluationData).Perm
      [evalData 1, evalData 0] :=
  ⟨by decide, by decide, List.Perm.swap (evalData 1) (evalData 0) []⟩

theorem lowLT_trans {a b c : TRangeBound α} (h1 : TRangeBound.lowLT a b = true)
    (h2 : TRangeBound.lowLT b c = true) : TRangeBound.lowLT a c = true := by
  rw [TRangeBound.lowLT_iff] at h1 h2 ⊢
  by_contra hc
  simp only [Bool.not_eq_false] at hc
  rcases Bool.eq_false_or_eq_true (TRangeBound.lowLE b a) with hba | hba
  · rw [hba] at h1
    exact absurd h1 (by simp)
  · have := TRangeBound.lowLE_trans hc (TRangeBound.lowLE_of_lowLT
      (TRangeBound.lowLT_iff.mpr h1))
    rw [this] at h2
    exact absurd h2 (by simp)

theorem boundAdjacent_isEmpty {u l : TRangeBound α}
    (h : TRange.boundAdjacent u l = true) : TRange.isEmpty ⟨l, u⟩ = true := by
  cases u <;> cases l <;> simp_all [TRange.boundAdjacent, TRange.isEmpty] <;>
    exact le_of_eq h.symm

theorem upLE_of_before {bl au bu : TRangeBound α}
    (hemp : TRange.isEmpty ⟨bl, au⟩ = true) (hne : TRange.isEmpty ⟨bl, bu⟩ = false) :
    TRangeBound.upLE au bu = true := by
  by_contra hc
  simp only [Bool.not_eq_true] at hc
  have := TRange.isEmpty_anti_upper (TRangeBound.upLE_of_not_upLE hc) hemp
  rw [this] at hne
  exact absurd hne (by simp)

theorem hull_before {s t : TRange α} (hs : s.isEmpty = false) (ht : t.isEmpty = false)
    (hlt : TRangeBound.lowLT s.lowerBound t.lowerBound = true)
    (hemp : TRange.isEmpty ⟨t.lowerBound, s.upperBound⟩ = true) :
    TRange.hull s t = ⟨s.lowerBound, t.upperBound⟩ := by
  unfold TRange.hull
  rw [hs, ht]
  simp only [Bool.false_eq_true, if_false]
  have h1 : TRangeBound.minLower s.lowerBound t.lowerBound = s.lowerBound := by
    unfold TRangeBound.minLower
    rw [TRangeBound.lowLE_of_lowLT hlt]
    simp
  have h2 : TRangeBound.maxUpper s.upperBound t.upperBound = t.upperBound := by
    unfold TRangeBound.maxUpper
    rw [upLE_of_before hemp ht]
    simp
  rw [h1, h2]

theorem adjoins_parts {a b : TRange α} (h : TRange.adjoins a b = true) :
    a.isEmpty = false ∧ b.isEmpty = false ∧
    (TRange.boundAdjacent a.upperBound b.lowerBound = true ∨
     TRange.boundAdjacent b.upperBound a.lowerBound = true) := by
  unfold TRange.adjoins at h
  by_cases ha : a.isEmpty = true
  · rw [ha] at h; simp at h
  · by_cases hb : b.isEmpty = true
    · rw [hb] at h; simp at h
    · simp only [Bool.not_eq_true] at ha hb
      rw [ha, hb] at h
      simp only [Bool.or_self, Bool.false_eq_true, if_false, Bool.or_eq_true] at h
      exact ⟨ha, hb, h⟩

theorem adjoins_of_parts {a b : TRange α} (ha : a.isEmpty = false)
    (hb : b.isEmpty = false)
    (h : TRange.boundAdjacent a.upperBound b.lowerBound = true ∨
      TRange.boundAdjacent b.upperBound a.lowerBound = true) :
    TRange.adjoins a b = true := by
  unfold TRange.adjoins
  rw [ha, hb]
  simpa using h

theorem getLast?_decomp {β : Type} {l : List β} {z : β} (h : l.getLast? = some z) :
    l = l.dropLast ++ [z] := by
  rcases l with _ | ⟨x, xs⟩
  · simp at h
  · have hne : x :: xs ≠ [] := by simp
    rw [List.getLast?_eq_getLast _ hne] at h
    have := List.dropLast_append_getLast hne
    rw [Option.some_inj.mp h] at this
    exact this.symm

/-- Unfolding `mergeStep`: the segment is dropped. -/
theorem mergeStep_drop (lut : List Nat) (ae : Bool)
    (result : List (FMovieSceneSegment α)) (seg : FMovieSceneSegment α)
    (h : ¬ ((remapSeg lut seg).Impls ≠ [] ∨ ae = true)) :
    mergeStep lut ae result seg = result := by
  unfold mergeStep
  rw [if_neg h]

/-- Unfolding `mergeStep`: appending to an empty result. -/
theorem mergeStep_nil (lut : List Nat) (ae : Bool)
    (result : List (FMovieSceneSegment α)) (seg : FMovieSceneSegment α)
    (hk : (remapSeg lut seg).Impls ≠ [] ∨ ae = true)
    (hgl : result.getLast? = none) :
    mergeStep lut ae result seg = result ++ [remapSeg lut seg] := by
  unfold mergeStep
  simp only [hgl]
  rw [if_pos hk]

/-- Unfolding `mergeStep`: the merge branch. -/
theorem mergeStep_merge (lut : List Nat) (ae : Bool)
    (result : List (FMovieSceneSegment α)) (seg lastSeg : FMovieSceneSegment α)
    (hk : (remapSeg lut seg).Impls ≠ [] ∨ ae = true)
    (hgl : result.getLast? = some lastSeg)
    (hc : lastSeg.Range.adjoins (remapSeg lut seg).Range = true ∧
      lastSeg.Impls = (remapSeg lut seg).Impls) :
    mergeStep lut ae result seg =
      result.dropLast ++
        [⟨TRange.hull lastSeg.Range (remapSeg lut seg).Range, lastSeg.Impls⟩] := by
  unfold mergeStep
  simp only [hgl]
  rw [if_pos hk, if_pos hc]

/-- Unfolding `mergeStep`: the append branch. -/
theorem mergeStep_append (lut : List Nat) (ae : Bool)
    (result : List (FMovieSceneSegment α)) (seg lastSeg : FMovieSceneSegment α)
    (hk : (remapSeg lut seg).Impls ≠ [] ∨ ae = true)
    (hgl : result.getLast? = some lastSeg)
    (hc : ¬ (lastSeg.Range.adjoins (remapSeg lut seg).Range = true ∧
      lastSeg.Impls = (remapSeg lut seg).Impls)) :
    mergeStep lut ae result seg = result ++ [remapSeg lut seg] := by
  unfold mergeStep
  simp only [hgl]
  rw [if_pos hk, if_neg hc]

/-- The fold invariant for the final merge pass: given that the incoming
segments are pairwise ordered, the accumulated result stays ordered with
no consecutive mergeable pair, and its last segment lies before every
remaining input segment. -/
theorem mergeFold_inv (lut : List Nat) (allowEmpty : Bool) :
    ∀ (input : List (FMovieSceneSegment α)) (acc : List (FMovieSceneSegment α)),
    input.Pairwise (fun s t => RangeBefore s.Range t.Range) →
    acc.Chain' (fun s t => RangeBefore s.Range t.Range ∧ ¬ SegMergeable s t) →
    (∀ x ∈ input, ∀ lastSeg ∈ acc.getLast?, RangeBefore lastSeg.Range x.Range) →
    (input.foldl (mergeStep lut allowEmpty) acc).Chain'
      (fun s t => RangeBefore s.Range t.Range ∧ ¬ SegMergeable s t) := by
  intro input
  induction input with
  | nil => intro acc _ hacc _; exact hacc
  | cons x rest ih =>
    intro acc hpair hacc hlast
    rcases List.pairwise_cons.mp hpair with ⟨hx, hrest⟩
    rw [List.foldl_cons]
    have hstep : (mergeStep lut allowEmpty acc x).Chain'
        (fun s t => RangeBefore s.Range t.Range ∧ ¬ SegMergeable s t) ∧
        (∀ y ∈ rest, ∀ lastSeg ∈ (mergeStep lut allowEmpty acc x).getLast?,
          RangeBefore lastSeg.Range y.Range) := by
      by_cases hkeep : (remapSeg lut x).Impls ≠ [] ∨ allowEmpty = true
      · rcases hgl : acc.getLast? with _ | lastSeg
        · -- empty accumulator: result [remapped]
          have hacc_nil : acc = [] := by
            rcases acc with _ | ⟨a, as⟩
            · rfl
            · rw [List.getLast?_eq_getLast _ (by simp)] at hgl
              simp at hgl
          rw [mergeStep_nil lut allowEmpty acc x hkeep hgl, hacc_nil]
          constructor
          · simp
          · intro y hy lastSeg hl
            simp only [List.nil_append, List.getLast?_singleton, Option.mem_def,
              Option.some_inj] at hl
            subst hl
            exact hx y hy
        · have hbefore : RangeBefore lastSeg.Range x.Range :=
            hlast x (List.mem_cons_self x rest) lastSeg (by simp [hgl])
          have hbefore' : RangeBefore lastSeg.Range (remapSeg lut x).Range := hbefore
          by_cases hcond : lastSeg.Range.adjoins (remapSeg lut x).Range = true ∧
              lastSeg.Impls = (remapSeg lut x).Impls
          · -- merge into the previous segment
            rw [mergeStep_merge lut allowEmpty acc x lastSeg hkeep hgl hcond]
            obtain ⟨hadj_ne1, hadj_ne2, _⟩ := adjoins_parts hcond.1
            have hhull : TRange.hull lastSeg.Range (remapSeg lut x).Range =
                ⟨lastSeg.Range.lowerBound, (remapSeg lut x).Range.upperBound⟩ :=
              hull_before hadj_ne1 hadj_ne2 hbefore'.1 hbefore'.2
            have hdecomp := getLast?_decomp hgl
            rw [hdecomp] at hacc
            rw [List.chain'_append] at hacc
            obtain ⟨hchain_dl, _, hlink⟩ := hacc
            constructor
            · rw [List.chain'_append]
              refine ⟨hchain_dl, by simp, ?_⟩
              intro dl hdl y hy
              simp only [List.head?_cons, Option.mem_def, Option.some_inj] at hy
              subst hy
              have hold := hlink dl hdl lastSeg (by simp)
              constructor
              · show RangeBefore dl.Range (TRange.hull lastSeg.Range (remapSeg lut x).Range)
                rw [hhull]
                exact ⟨hold.1.1, hold.1.2⟩
              · intro hm
                obtain ⟨hmadj, hmimpls⟩ := hm
                have hmadj' : TRange.adjoins dl.Range
                    (TRange.hull lastSeg.Range (remapSeg lut x).Range) = true := hmadj
                rw [hhull] at hmadj'
                have himpls_eq : dl.Impls = lastSeg.Impls := hmimpls
                have hnadj : ¬ (TRange.adjoins dl.Range lastSeg.Range = true) := by
                  intro hc
                  exact hold.2 ⟨hc, himpls_eq⟩
                obtain ⟨hdl_ne, hh_ne, hdir⟩ := adjoins_parts hmadj'
                rcases hdir with hdir | hdir
                · exact hnadj (adjoins_of_parts hdl_ne hadj_ne1 (Or.inl hdir))
                · have hde : TRange.isEmpty ⟨dl.Range.lowerBound,
                      (remapSeg lut x).Range.upperBound⟩ = true := boundAdjacent_isEmpty hdir
                  have hle : TRangeBound.lowLE dl.Range.lowerBound
                      (remapSeg lut x).Range.lowerBound = true :=
                    TRangeBound.lowLE_of_lowLT (lowLT_trans (hold.1.1) hbefore'.1)
                  have hxe : TRange.isEmpty ⟨(remapSeg lut x).Range.lowerBound,
                      (remapSeg lut x).Range.upperBound⟩ = true :=
                    TRange.isEmpty_mono_lower hle hde
                  have hxne : TRange.isEmpty (remapSeg lut x).Range = false := hadj_ne2
                  rw [show (⟨(remapSeg lut x).Range.lowerBound,
                      (remapSeg lut x).Range.upperBound⟩ :
                      TRange α) = (remapSeg lut x).Range from rfl] at hxe
                  rw [hxe] at hxne
                  exact absurd hxne (by simp)
            · intro y hy lastSeg' hl
              rw [List.getLast?_concat] at hl
              simp only [Option.mem_def, Option.some_inj] at hl
              subst hl
              constructor
              · show TRangeBound.lowLT
                  (TRange.hull lastSeg.Range (remapSeg lut x).Range).lowerBound
                  y.Range.lowerBound = true
                rw [hhull]
                exact lowLT_trans hbefore.1 (hx y hy).1
              · show TRange.isEmpty ⟨y.Range.lowerBound,
                  (TRange.hull lastSeg.Range (remapSeg lut x).Range).upperBound⟩ = true
                rw [hhull]
                exact (hx y hy).2
          · -- append without merging
            rw [mergeStep_append lut allowEmpty acc x lastSeg hkeep hgl hcond]
            constructor
            · rw [List.chain'_append]
              refine ⟨hacc, by simp, ?_⟩
              intro dl hdl y hy
              simp only [List.head?_cons, Option.mem_def, Option.some_inj] at hy
              subst hy
              rw [hgl] at hdl
              simp only [Option.mem_def, Option.some_inj] at hdl
              subst hdl
              exact ⟨hbefore', fun hm => hcond ⟨hm.1, hm.2⟩⟩
            · intro y hy lastSeg' hl
              rw [List.getLast?_concat] at hl
              simp only [Option.mem_def, Option.some_inj] at hl
              subst hl
              exact hx y hy
      · rw [mergeStep_drop lut allowEmpty acc x hkeep]
        refine ⟨hacc, ?_⟩
        intro y hy lastSeg hl
        exact hlast y (List.mem_cons_of_mem x hy) lastSeg hl
    exact ih (mergeStep lut allowEmpty acc x) hrest hstep.1 hstep.2


/-- C4 (amended): in the track compiler's final pass, two consecutive
segments are replaced by their hull exactly when their ranges adjoin and
their `Impls` arrays are identical *as lists* (element-wise, order
sensitive) — set equality with a different order does not merge.
Consequently, for a (pairwise-ordered) segment stream the pass leaves no
two consecutive output segments that adjoin with list-identical Impls. -/
theorem remapAndMerge_no_consecutive_mergeable (lut : List Nat) (allowEmpty : Bool)
    (segs : List (FMovieSceneSegment α))
    (h : segs.Pairwise (fun s t => RangeBefore s.Range t.Range)) :
    (remapAndMerge lut allowEmpty segs).Chain' (fun s t => ¬ SegMergeable s t) := by
  have := mergeFold_inv lut allowEmpty segs [] h (by simp) (by simp)
  unfold remapAndMerge
  exact List.Chain'.imp (fun a b hab => hab.2) this

/-- Witness for the amended C4 theorem on a concrete ordered stream. -/
theorem remapAndMerge_no_consecutive_mergeable_witness :
    (remapAndMerge [0, 1] false
      [⟨⟨.inclusive (0 : Int), .exclusive 10⟩, [evalData 0, evalData 1]⟩,
       ⟨⟨.inclusive 10, .exclusive 20⟩, [evalData 1, evalData 0]⟩]).Chain'
      (fun s t => ¬ SegMergeable s t) :=
  remapAndMerge_no_consecutive_mergeable [0, 1] false _
    (by
      refine List.pairwise_cons.mpr ⟨?_, by simp⟩
      intro t ht
      simp only [List.mem_singleton] at ht
      subst ht
      exact ⟨by decide, by decide⟩)

end FMovieSceneTrackCompiler

/-- Witness for the amended C5 theorem at `a,b,c = 0,1,2`. -/
theorem compile_touching_adjoins_witness :
    FMovieSceneSegmentCompiler.compile
      [⟨⟨.inclusive (0 : Int), .exclusive 1⟩, evalData 0, 0⟩,
       ⟨⟨.inclusive 1, .exclusive 2⟩, evalData 1, 0⟩] =
      [⟨⟨.inclusive 0, .exclusive 1⟩, [evalData 0]⟩,
       ⟨⟨.inclusive 1, .exclusive 2⟩, [evalData 1]⟩] ∧
    TRange.adjoins (⟨.inclusive (0 : Int), .exclusive 1⟩ : TRange Int)
      ⟨.inclusive 1, .exclusive 2⟩ = true :=
  compile_touching_adjoins 0 1 2 (evalData 0) (evalData 1) 0 0
    (by decide) (by decide)

/-! ### C1/C2/C7: the sweep-line invariant

The remainder of the development proves the three global sweep claims:
balance of the active set (C7), ordering and disjointness of the output
(C2), and exact coverage (C1).  It proceeds in layers: generic list
surgery for `RemoveAtSwap` on parallel arrays, reference-count accounting
for `addOverlap`/`removeOverlap`, batch lemmas for `openBatch` and
`closeBatch`, a counting (pigeonhole) argument relating consumed events to
the active multiset, and finally the loop invariants. -/

section ListSurgery

variable {β γ : Type}

theorem take_getD_drop : ∀ (l : List β) (i : Nat) (d : β), i < l.length →
    l.take i ++ l.getD i d :: l.drop (i + 1) = l
  | [], i, d, h => by simp at h
  | x :: xs, 0, d, _ => by simp
  | x :: xs, i + 1, d, h => by
    simp only [List.take_succ_cons, List.getD_cons_succ, List.drop_succ_cons, List.cons_append,
      List.cons.injEq, true_and]
    exact take_getD_drop xs i d (by simpa using h)

theorem set_take_drop : ∀ (l : List β) (i : Nat) (v : β), i < l.length →
    l.set i v = l.take i ++ v :: l.drop (i + 1)
  | [], i, v, h => by simp at h
  | x :: xs, 0, v, _ => by simp
  | x :: xs, i + 1, v, h => by
    simp only [List.set_cons_succ, List.take_succ_cons, List.drop_succ_cons, List.cons_append,
      List.cons.injEq, true_and]
    exact set_take_drop xs i v (by simpa using h)

theorem zip_set : ∀ (l : List β) (m : List γ) (i : Nat) (a : β) (b : γ),
    l.length = m.length → (l.set i a).zip (m.set i b) = (l.zip m).set i (a, b)
  | [], [], _, _, _, _ => by simp
  | [], _ :: _, _, _, _, h => by simp at h
  | _ :: _, [], _, _, _, h => by simp at h
  | x :: xs, y :: ys, 0, a, b, _ => by simp
  | x :: xs, y :: ys, i + 1, a, b, h => by
    simp only [List.set_cons_succ, List.zip_cons_cons]
    rw [zip_set xs ys i a b (by simpa using h)]

theorem zip_dropLast : ∀ (l : List β) (m : List γ), l.length = m.length →
    l.dropLast.zip m.dropLast = (l.zip m).dropLast
  | [], [], _ => by simp
  | [], _ :: _, h => by simp at h
  | _ :: _, [], h => by simp at h
  | [x], [y], _ => by simp
  | [_], _ :: _ :: _, h => by simp at h
  | _ :: _ :: _, [_], h => by simp at h
  | x :: x' :: xs, y :: y' :: ys, h => by
    simp only [List.dropLast_cons₂, List.zip_cons_cons]
    rw [zip_dropLast (x' :: xs) (y' :: ys) (by simpa using h)]
    have : (x' :: xs).zip (y' :: ys) = (x', y') :: xs.zip ys := by simp
    rw [this]

theorem getLast?_zip : ∀ (l : List β) (m : List γ), l.length = m.length →
    ∀ (a : β) (b : γ), l.getLast? = some a → m.getLast? = some b →
    (l.zip m).getLast? = some (a, b)
  | [], [], _, a, b, ha, _ => by simp at ha
  | [], _ :: _, h, _, _, _, _ => by simp at h
  | _ :: _, [], h, _, _, _, _ => by simp at h
  | [x], [y], _, a, b, ha, hb => by
    simp at ha hb
    simp [ha, hb]
  | [_], _ :: _ :: _, h, _, _, _, _ => by simp at h
  | _ :: _ :: _, [_], h, _, _, _, _ => by simp at h
  | x :: x' :: xs, y :: y' :: ys, h, a, b, ha, hb => by
    rw [List.getLast?_cons_cons] at ha hb
    have : (x :: x' :: xs).zip (y :: y' :: ys) = (x, y) :: (x' :: xs).zip (y' :: ys) := by simp
    rw [this]
    have hz := getLast?_zip (x' :: xs) (y' :: ys) (by simpa using h) a b ha hb
    have hne : (x' :: xs).zip (y' :: ys) ≠ [] := by simp
    cases hzz : (x' :: xs).zip (y' :: ys) with
    | nil => exact absurd hzz hne
    | cons z zs =>
      rw [hzz] at hz
      rw [List.getLast?_cons_cons]
      exact hz

theorem zip_removeAtSwap (l : List β) (m : List γ) (i : Nat) (h : l.length = m.length) :
    (removeAtSwap l i).zip (removeAtSwap m i) = removeAtSwap (l.zip m) i := by
  cases hl : l.getLast? with
  | none =>
    have hl0 : l = [] := by simpa using hl
    have hm0 : m = [] := by
      subst hl0
      cases m with
      | nil => rfl
      | cons _ _ => simp at h
    subst hl0 hm0
    rfl
  | some la =>
    cases hm : m.getLast? with
    | none =>
      have hm0 : m = [] := by simpa using hm
      subst hm0
      cases l with
      | nil => simp at hl
      | cons _ _ => simp at h
    | some mb =>
      have hz := getLast?_zip l m h la mb hl hm
      unfold removeAtSwap
      rw [hl, hm, hz]
      rw [zip_dropLast _ _ (by simp [h]), zip_set _ _ _ _ _ h]

theorem removeAtSwap_perm (l : List β) (i : Nat) (hi : i < l.length) :
    (removeAtSwap l i).Perm (l.take i ++ l.drop (i + 1)) := by
  have hne : l ≠ [] := by
    intro h
    subst h
    simp at hi
  have hl : l.getLast? = some (l.getLast hne) := List.getLast?_eq_getLast l hne
  unfold removeAtSwap
  rw [hl]
  show ((l.set i (l.getLast hne)).dropLast).Perm (l.take i ++ l.drop (i + 1))
  have hset := set_take_drop l i (l.getLast hne) hi
  rcases Nat.lt_or_ge (i + 1) l.length with hlt | hge
  · -- the removed slot is not the last one
    have hdne : l.drop (i + 1) ≠ [] := by
      intro h0
      have := congrArg List.length h0
      simp at this
      omega
    have hdl : (l.drop (i + 1)).getLast? = some (l.getLast hne) := by
      rw [← hl]
      conv_rhs => rw [← List.take_append_drop (i + 1) l]
      rw [List.getLast?_append_of_ne_nil _ hdne]
    have hD := FMovieSceneTrackCompiler.getLast?_decomp hdl
    have hassoc : ∀ (A : List β) (v : β) (B : List β),
        A ++ v :: (B ++ [v]) = (A ++ v :: B) ++ [v] := by
      intro A v B
      simp
    rw [hset, hD, hassoc, List.dropLast_concat]
    exact List.Perm.append_left _ (List.perm_append_singleton _ _).symm
  · -- the removed slot is the last one
    have hieq : i + 1 = l.length := by omega
    have hdrop : l.drop (i + 1) = [] := by
      rw [hieq, List.drop_length]
    rw [hset, hdrop, List.dropLast_concat]
    simp

theorem perm_flatten {z1 z2 : List (List β)} (h : z1.Perm z2) :
    z1.flatten.Perm z2.flatten := by
  induction h with
  | nil => exact List.Perm.refl _
  | cons x _ ih =>
    simp only [List.flatten_cons]
    exact ih.append_left x
  | swap x y l =>
    simp only [List.flatten_cons]
    rw [← List.append_assoc, ← List.append_assoc]
    exact List.perm_append_comm.append_right _
  | trans _ _ ih1 ih2 => exact ih1.trans ih2

theorem zip_getD : ∀ (l : List β) (m : List γ) (i : Nat) (d : β) (e : γ),
    i < l.length → l.length = m.length →
    (l.zip m).getD i (d, e) = (l.getD i d, m.getD i e)
  | [], _, _, _, _, hi, _ => by simp at hi
  | _ :: _, [], _, _, _, _, h => by simp at h
  | x :: xs, y :: ys, 0, _, _, _, _ => by simp
  | x :: xs, y :: ys, i + 1, d, e, hi, h => by
    simp only [List.zip_cons_cons, List.getD_cons_succ]
    exact zip_getD xs ys i d e (by simpa using hi) (by simpa using h)

theorem getD_mem_of_lt {l : List β} {i : Nat} (d : β) (hi : i < l.length) :
    l.getD i d ∈ l := by
  rw [List.getD_eq_getElem l d hi]
  exact List.getElem_mem hi

theorem findIdx_some_aux (q : β → Bool) (d : β) :
    ∀ (l : List β) (s i : Nat), List.findIdx? q l s = some i →
      s ≤ i ∧ i - s < l.length ∧ q (l.getD (i - s) d) = true
  | [], s, i, h => by simp [List.findIdx?] at h
  | x :: xs, s, i, h => by
    rw [List.findIdx?_cons] at h
    by_cases hx : q x
    · simp only [hx, if_true, Option.some.injEq] at h
      subst h
      simpa using hx
    · simp only [hx, Bool.false_eq_true, if_false] at h
      obtain ⟨hs, hlen, hq⟩ := findIdx_some_aux q d xs (s + 1) i h
      refine ⟨by omega, by simp only [List.length_cons]; omega, ?_⟩
      have hix : i - s = (i - (s + 1)) + 1 := by omega
      rw [hix, List.getD_cons_succ]
      exact hq

theorem findIdx_some_spec (q : β → Bool) (d : β) {l : List β} {i : Nat}
    (h : l.findIdx? q = some i) : i < l.length ∧ q (l.getD i d) = true := by
  obtain ⟨_, h1, h2⟩ := findIdx_some_aux q d l 0 i h
  refine ⟨by simpa using h1, by simpa using h2⟩

theorem findIdx_none_spec (q : β → Bool) {l : List β}
    (h : l.findIdx? q = none) : ∀ x ∈ l, q x = false :=
  List.findIdx?_eq_none_iff.mp h

theorem countP_and_or (p q : β → Bool) : ∀ (l : List β),
    l.countP (fun x => p x && q x) + l.countP (fun x => p x || q x) =
      l.countP p + l.countP q
  | [] => by simp
  | x :: xs => by
    simp only [List.countP_cons]
    have := countP_and_or p q xs
    by_cases hp : p x <;> by_cases hq : q x <;> simp [hp, hq] <;> omega

end ListSurgery

/-! ### Additional bound-algebra facts -/

namespace TRangeBound

variable {α : Type} [LinearOrder α]

theorem lowLT_of_lowLE_of_lowLT {a b c : TRangeBound α} (h1 : lowLE a b = true)
    (h2 : lowLT b c = true) : lowLT a c = true := by
  rw [lowLT_iff] at h2 ⊢
  by_cases hca : lowLE c a = true
  · exact absurd (lowLE_trans hca h1) (by simp [h2])
  · simpa using hca

theorem lowLT_of_lowLT_of_lowLE {a b c : TRangeBound α} (h1 : lowLT a b = true)
    (h2 : lowLE b c = true) : lowLT a c = true := by
  rw [lowLT_iff] at h1 ⊢
  by_cases hca : lowLE c a = true
  · exact absurd (lowLE_trans h2 hca) (by simp [h1])
  · simpa using hca

theorem upLT_of_upLE_of_upLT {a b c : TRangeBound α} (h1 : upLE a b = true)
    (h2 : upLT b c = true) : upLT a c = true := by
  rw [upLT_iff] at h2 ⊢
  by_cases hca : upLE c a = true
  · exact absurd (upLE_trans hca h1) (by simp [h2])
  · simpa using hca

theorem upLT_of_upLT_of_upLE {a b c : TRangeBound α} (h1 : upLT a b = true)
    (h2 : upLE b c = true) : upLT a c = true := by
  rw [upLT_iff] at h1 ⊢
  by_cases hca : upLE c a = true
  · exact absurd (upLE_trans h2 hca) (by simp [h1])
  · simpa using hca

theorem lowLE_total (a b : TRangeBound α) : lowLE a b = true ∨ lowLE b a = true := by
  by_cases h : lowLE a b = true
  · exact Or.inl h
  · exact Or.inr (lowLE_of_not_lowLE (by simpa using h))

theorem upLE_total (a b : TRangeBound α) : upLE a b = true ∨ upLE b a = true := by
  by_cases h : upLE a b = true
  · exact Or.inl h
  · exact Or.inr (upLE_of_not_upLE (by simpa using h))

theorem lowLT_of_lowLE_ne {a b : TRangeBound α} (h : lowLE a b = true)
    (hne : a ≠ b) : lowLT a b = true := by
  rw [lowLT_iff]
  by_cases hba : lowLE b a = true
  · exact absurd (lowLE_antisymm h hba) hne
  · simpa using hba

theorem upLT_of_upLE_ne {a b : TRangeBound α} (h : upLE a b = true)
    (hne : a ≠ b) : upLT a b = true := by
  rw [upLT_iff]
  by_cases hba : upLE b a = true
  · exact absurd (upLE_antisymm h hba) hne
  · simpa using hba

theorem upLE_unbounded_right (a : TRangeBound α) : upLE a unbounded = true := by
  cases a <;> simp [upLE]

theorem lowLE_unbounded_left (a : TRangeBound α) : lowLE unbounded a = true := by
  cases a <;> simp [lowLE]

theorem eq_unbounded_of_upLE_unbounded {a : TRangeBound α}
    (h : upLE unbounded a = true) : a = unbounded := by
  cases a <;> simp [upLE] at h <;> rfl

theorem eq_unbounded_of_lowLE_unbounded {a : TRangeBound α}
    (h : lowLE a unbounded = true) : a = unbounded := by
  cases a <;> simp [lowLE] at h <;> rfl

theorem lowLE_flip_flip {a b : TRangeBound α} (ha : a ≠ unbounded)
    (hb : b ≠ unbounded) : lowLE a.flipInclusion b.flipInclusion = upLE a b := by
  have h1 := TRange.lowLE_flip ha b.flipInclusion
  have h2 := TRange.upLE_flip (fun h => hb (flip_unbounded_iff.mp h)) a
  rw [flip_flip] at h2
  rw [h1]
  exact h2.symm

end TRangeBound

namespace TRange

variable {α : Type} [LinearOrder α]

open TRangeBound

theorem lowLT_flip_of_nonempty {l u : TRangeBound α} (hu : u ≠ unbounded) :
    lowLT l u.flipInclusion = !isEmpty ⟨l, u⟩ := by
  unfold TRangeBound.lowLT
  rw [lowLE_flip hu l]

theorem isEmpty_flip_lower (u u' : TRangeBound α) (hu : u ≠ unbounded) :
    isEmpty ⟨u.flipInclusion, u'⟩ = upLE u' u := by
  have h := upLE_flip (fun h => hu (flip_unbounded_iff.mp h)) u'
  rw [flip_flip] at h
  exact h.symm

theorem isEmpty_self_flip {l : TRangeBound α} (hl : l ≠ unbounded) :
    isEmpty ⟨l, l.flipInclusion⟩ = true := by
  rw [← upLE_flip hl l.flipInclusion]
  exact upLE_refl _

theorem isEmpty_flip_self {u : TRangeBound α} (hu : u ≠ unbounded) :
    isEmpty ⟨u.flipInclusion, u⟩ = true := by
  rw [isEmpty_flip_lower u u hu]
  exact upLE_refl _

theorem upLT_flip_nonempty {u u' : TRangeBound α} (h : upLT u u' = true) :
    isEmpty ⟨u.flipInclusion, u'⟩ = false := by
  have hu : u ≠ unbounded := by
    intro he
    subst he
    rw [upLT_iff] at h
    cases u' <;> simp [upLE] at h
  rw [isEmpty_flip_lower u u' hu, ← upLT_iff]
  exact h

theorem empty_between {l u : TRangeBound α} {p : α} (h1 : memLower l p = false)
    (h2 : memUpper u p = false) : isEmpty ⟨l, u⟩ = true := by
  by_cases he : isEmpty (⟨l, u⟩ : TRange α) = true
  · exact he
  · have := mem_of_not_isEmpty_of_not_memLower (by simpa using he) h1
    exact absurd this (by simp [h2])

theorem nonempty_lower_or_upper {l u : TRangeBound α} (p : α)
    (he : isEmpty ⟨l, u⟩ = false) :
    memLower l p = true ∨ memUpper u p = true := by
  by_cases hL : memLower l p = true
  · exact Or.inl hL
  · by_cases hU : memUpper u p = true
    · exact Or.inr hU
    · have := empty_between (by simpa using hL) (by simpa using hU) (l := l) (u := u)
      rw [this] at he
      simp at he

end TRange

/-! ### Reference-count bookkeeping for the overlap arrays -/

section OverlapBookkeeping

theorem mem_ovFlat {ov : List FSectionEvaluationData} {rc : List Nat}
    (h : OvOk ov rc) {e : FSectionEvaluationData} :
    e ∈ ovFlat ov rc ↔ e ∈ ov := by
  obtain ⟨hnd, hlen, hpos⟩ := h
  unfold ovFlat
  rw [List.mem_flatten]
  constructor
  · rintro ⟨blk, hblk, hb⟩
    rw [List.mem_map] at hblk
    obtain ⟨x, hx, rfl⟩ := hblk
    rw [List.mem_replicate] at hb
    obtain ⟨-, rfl⟩ := hb
    exact (List.of_mem_zip hx).1
  · intro he
    obtain ⟨⟨j, hjl⟩, rfl⟩ := List.mem_iff_get.mp he
    refine ⟨List.replicate (rc.getD j 0) (ov.get ⟨j, hjl⟩), ?_, ?_⟩
    · rw [List.mem_map]
      refine ⟨(ov.get ⟨j, hjl⟩, rc.getD j 0), ?_, rfl⟩
      have hz := zip_getD ov rc j (ov.get ⟨j, hjl⟩) 0 hjl hlen.symm
      have hself : ov.getD j (ov.get ⟨j, hjl⟩) = ov.get ⟨j, hjl⟩ := by
        rw [List.getD_eq_getElem _ _ hjl]
        simp [List.get_eq_getElem]
      rw [hself] at hz
      rw [← hz]
      apply getD_mem_of_lt
      rw [List.length_zip]
      omega
    · rw [List.mem_replicate]
      have hmem : rc.getD j 0 ∈ rc := getD_mem_of_lt 0 (by omega)
      have := hpos _ hmem
      exact ⟨by omega, rfl⟩

theorem addOverlap_ok {ov : List FSectionEvaluationData} {rc : List Nat}
    (h : OvOk ov rc) (ed : FSectionEvaluationData) :
    OvOk (addOverlap ov rc ed).1 (addOverlap ov rc ed).2 := by
  obtain ⟨hnd, hlen, hpos⟩ := h
  unfold addOverlap
  cases hf : ov.findIdx? (fun x => x = ed) with
  | none =>
    have hni : ed ∉ ov := by
      intro hm
      have := findIdx_none_spec _ hf ed hm
      simp at this
    refine ⟨?_, by simp [hlen], ?_⟩
    · rw [List.nodup_append]
      refine ⟨hnd, List.nodup_singleton ed, ?_⟩
      intro a ha hae
      rw [List.mem_singleton] at hae
      subst hae
      exact hni ha
    · intro n hn
      rcases List.mem_append.mp hn with h1 | h1
      · exact hpos n h1
      · simp at h1
        omega
  | some i =>
    obtain ⟨hilen, -⟩ := findIdx_some_spec _ ed hf
    refine ⟨hnd, by simp [hlen], ?_⟩
    intro n hn
    rcases List.mem_or_eq_of_mem_set hn with h1 | h1
    · exact hpos n h1
    · omega

theorem addOverlap_flat {ov : List FSectionEvaluationData} {rc : List Nat}
    (h : OvOk ov rc) (ed : FSectionEvaluationData) :
    (ovFlat (addOverlap ov rc ed).1 (addOverlap ov rc ed).2).Perm
      (ed :: ovFlat ov rc) := by
  obtain ⟨hnd, hlen, hpos⟩ := h
  unfold addOverlap
  cases hf : ov.findIdx? (fun x => x = ed) with
  | none =>
    show (ovFlat (ov ++ [ed]) (rc ++ [1])).Perm _
    unfold ovFlat
    rw [List.zip_append hlen.symm]
    simp only [List.map_append, List.flatten_append, List.map_cons, List.map_nil,
      List.flatten_cons, List.flatten_nil, List.replicate_one, List.append_nil,
      List.singleton_append, List.append_nil]
    exact List.perm_append_singleton _ _
  | some i =>
    obtain ⟨hilen, hq⟩ := findIdx_some_spec _ ed hf
    have hged : ov.getD i ed = ed := by simpa using hq
    show (ovFlat ov (rc.set i (rc.getD i 0 + 1))).Perm _
    unfold ovFlat
    have h1 := set_take_drop ov i ed hilen
    have h2 := take_getD_drop ov i ed hilen
    rw [hged] at h2
    have hovset : ov.set i ed = ov := h1.trans h2
    conv_lhs => rw [← hovset]
    rw [zip_set ov rc i ed (rc.getD i 0 + 1) hlen.symm]
    have hiz : i < (ov.zip rc).length := by
      rw [List.length_zip]
      omega
    rw [set_take_drop _ i _ hiz]
    have hzd : (ov.zip rc).getD i (ed, 0) = (ed, rc.getD i 0) := by
      rw [zip_getD ov rc i ed 0 hilen hlen.symm, hged]
    conv_rhs => rw [← take_getD_drop (ov.zip rc) i (ed, 0) hiz, hzd]
    simp only [List.map_append, List.map_cons, List.flatten_append, List.flatten_cons,
      List.replicate_succ, List.cons_append]
    exact List.perm_middle

theorem removeOverlap_not_mem {ov : List FSectionEvaluationData} {rc : List Nat}
    {ed : FSectionEvaluationData} (h : ed ∉ ov) :
    removeOverlap ov rc ed = (ov, rc) := by
  unfold removeOverlap
  cases hf : ov.findIdx? (fun x => x = ed) with
  | none => rfl
  | some i =>
    obtain ⟨hilen, hq⟩ := findIdx_some_spec _ ed hf
    have : ov.getD i ed = ed := by simpa using hq
    exact absurd (this ▸ getD_mem_of_lt ed hilen) h

theorem removeOverlap_ok {ov : List FSectionEvaluationData} {rc : List Nat}
    (h : OvOk ov rc) (ed : FSectionEvaluationData) :
    OvOk (removeOverlap ov rc ed).1 (removeOverlap ov rc ed).2 := by
  obtain ⟨hnd, hlen, hpos⟩ := h
  unfold removeOverlap
  cases hf : ov.findIdx? (fun x => x = ed) with
  | none => exact ⟨hnd, hlen, hpos⟩
  | some i =>
    obtain ⟨hilen, -⟩ := findIdx_some_spec _ ed hf
    have hirc : i < rc.length := by omega
    by_cases hz : rc.getD i 0 - 1 = 0
    · simp only [hz, if_true]
      have hpo := removeAtSwap_perm ov i hilen
      have hpr := removeAtSwap_perm rc i hirc
      refine ⟨?_, ?_, ?_⟩
      · refine hpo.symm.nodup ?_
        have hsub : (ov.take i ++ ov.drop (i + 1)).Sublist ov := by
          conv_rhs => rw [← List.take_append_drop i ov]
          refine List.Sublist.append (List.Sublist.refl _) ?_
          rw [← List.drop_drop]
          exact List.drop_sublist 1 (ov.drop i)
        exact hnd.sublist hsub
      · rw [hpo.length_eq, hpr.length_eq]
        simp
        omega
      · intro n hn
        have := hpr.subset hn
        rcases List.mem_append.mp this with h1 | h1
        · exact hpos n ((List.take_sublist _ _).subset h1)
        · exact hpos n ((List.drop_sublist _ _).subset h1)
    · simp only [hz, if_false]
      refine ⟨hnd, by simp [hlen], ?_⟩
      intro n hn
      rcases List.mem_or_eq_of_mem_set hn with h1 | h1
      · exact hpos n h1
      · omega

theorem removeOverlap_flat {ov : List FSectionEvaluationData} {rc : List Nat}
    (h : OvOk ov rc) {ed : FSectionEvaluationData} (hm : ed ∈ ov) :
    (ovFlat ov rc).Perm
      (ed :: ovFlat (removeOverlap ov rc ed).1 (removeOverlap ov rc ed).2) := by
  obtain ⟨hnd, hlen, hpos⟩ := h
  unfold removeOverlap
  cases hf : ov.findIdx? (fun x => x = ed) with
  | none =>
    have := findIdx_none_spec _ hf ed hm
    simp at this
  | some i =>
    obtain ⟨hilen, hq⟩ := findIdx_some_spec _ ed hf
    have hged : ov.getD i ed = ed := by simpa using hq
    have hirc : i < rc.length := by omega
    have hiz : i < (ov.zip rc).length := by
      rw [List.length_zip]
      omega
    have hzd : (ov.zip rc).getD i (ed, 0) = (ed, rc.getD i 0) := by
      rw [zip_getD ov rc i ed 0 hilen hlen.symm, hged]
    have hn1 : 1 ≤ rc.getD i 0 := hpos _ (getD_mem_of_lt 0 hirc)
    by_cases hz : rc.getD i 0 - 1 = 0
    · -- the count drops to zero: both entries are swap-removed
      simp only [hz, if_true]
      have hn : rc.getD i 0 = 1 := by omega
      unfold ovFlat
      rw [zip_removeAtSwap ov rc i hlen.symm]
      have hperm := removeAtSwap_perm (ov.zip rc) i hiz
      refine List.Perm.trans ?_ ((perm_flatten (hperm.map _)).cons ed).symm
      conv_lhs => rw [← take_getD_drop (ov.zip rc) i (ed, 0) hiz, hzd, hn]
      simp only [List.map_append, List.map_cons, List.flatten_append, List.flatten_cons,
        List.replicate_one, List.singleton_append]
      exact List.perm_middle.trans (List.Perm.refl _)
    · -- the count is merely decremented
      simp only [hz, if_false]
      unfold ovFlat
      have h1 := set_take_drop ov i ed hilen
      have h2 := take_getD_drop ov i ed hilen
      rw [hged] at h2
      have hovset : ov.set i ed = ov := h1.trans h2
      conv_rhs => rw [← hovset]
      rw [zip_set ov rc i ed (rc.getD i 0 - 1) hlen.symm]
      rw [set_take_drop _ i _ hiz]
      conv_lhs => rw [← take_getD_drop (ov.zip rc) i (ed, 0) hiz, hzd]
      have hrepl : List.replicate (rc.getD i 0) ed =
          ed :: List.replicate (rc.getD i 0 - 1) ed := by
        have : rc.getD i 0 = (rc.getD i 0 - 1) + 1 := by omega
        rw [this, List.replicate_succ]
        simp
      simp only [List.map_append, List.map_cons, List.flatten_append, List.flatten_cons]
      rw [hrepl]
      simp only [List.cons_append]
      exact List.perm_middle

end OverlapBookkeeping

/-! ### Batch lemmas for the open and close loops -/

section BatchLemmas

variable {α : Type} [LinearOrder α]

theorem closeBatch_spec (closing : TRangeBound α) :
    ∀ (uppers : List (FBound α)) (ov : List FSectionEvaluationData) (rc : List Nat),
    OvOk ov rc →
    (∀ e, (uppers.takeWhile fun x => decide (x.Bound = closing)).countP
        (fun x => decide (x.EvalData = e)) ≤
      (ovFlat ov rc).countP (fun x => decide (x = e))) →
    OvOk (closeBatch closing uppers ov rc).2.1 (closeBatch closing uppers ov rc).2.2 ∧
    (closeBatch closing uppers ov rc).1 =
      uppers.dropWhile (fun x => decide (x.Bound = closing)) ∧
    (ovFlat ov rc).Perm
      ((uppers.takeWhile fun x => decide (x.Bound = closing)).map FBound.EvalData ++
        ovFlat (closeBatch closing uppers ov rc).2.1 (closeBatch closing uppers ov rc).2.2)
  | [], ov, rc, hok, _ => by
    refine ⟨hok, by simp [closeBatch], ?_⟩
    simp [closeBatch]
  | ub :: rest, ov, rc, hok, hcnt => by
    by_cases hb : ub.Bound = closing
    · have hstep : closeBatch closing (ub :: rest) ov rc =
          closeBatch closing rest (removeOverlap ov rc ub.EvalData).1
            (removeOverlap ov rc ub.EvalData).2 := by
        simp only [closeBatch]
        rw [if_pos hb]
      have htw : (ub :: rest).takeWhile (fun x => decide (x.Bound = closing)) =
          ub :: rest.takeWhile (fun x => decide (x.Bound = closing)) := by
        rw [List.takeWhile_cons, if_pos (by simpa using hb)]
      have hdw : (ub :: rest).dropWhile (fun x => decide (x.Bound = closing)) =
          rest.dropWhile (fun x => decide (x.Bound = closing)) := by
        rw [List.dropWhile_cons, if_pos (by simpa using hb)]
      -- the closed event is currently open
      have hm : ub.EvalData ∈ ov := by
        have h0 := hcnt ub.EvalData
        rw [htw] at h0
        simp only [List.countP_cons] at h0
        have hpos : 0 < (ovFlat ov rc).countP fun x => decide (x = ub.EvalData) := by
          simp at h0
          omega
        obtain ⟨x, hx, hxe⟩ := List.countP_pos_iff.mp hpos
        have hxx : x = ub.EvalData := by simpa using hxe
        subst hxx
        exact (mem_ovFlat hok).mp hx
      have hok1 := removeOverlap_ok hok ub.EvalData
      have hflat1 := removeOverlap_flat hok hm
      have hcnt1 : ∀ e, (rest.takeWhile fun x => decide (x.Bound = closing)).countP
          (fun x => decide (x.EvalData = e)) ≤
          (ovFlat (removeOverlap ov rc ub.EvalData).1
            (removeOverlap ov rc ub.EvalData).2).countP (fun x => decide (x = e)) := by
        intro e
        have h0 := hcnt e
        rw [htw] at h0
        rw [hflat1.countP_eq (fun x => decide (x = e))] at h0
        simp only [List.countP_cons] at h0
        omega
      obtain ⟨ihok, ihup, ihperm⟩ := closeBatch_spec closing rest _ _ hok1 hcnt1
      rw [hstep, htw, hdw]
      refine ⟨ihok, ihup, ?_⟩
      refine hflat1.trans ?_
      refine (ihperm.cons ub.EvalData).trans ?_
      simp only [List.map_cons, List.cons_append]
      exact List.Perm.refl _
    · have hstep : closeBatch closing (ub :: rest) ov rc = (ub :: rest, ov, rc) := by
        simp only [closeBatch]
        rw [if_neg hb]
      have htw : (ub :: rest).takeWhile (fun x => decide (x.Bound = closing)) = [] := by
        rw [List.takeWhile_cons, if_neg (by simpa using hb)]
      have hdw : (ub :: rest).dropWhile (fun x => decide (x.Bound = closing)) =
          ub :: rest := by
        rw [List.dropWhile_cons, if_neg (by simpa using hb)]
      rw [hstep, htw, hdw]
      exact ⟨hok, rfl, by simp⟩

theorem openBatch_spec (opening : TRangeBound α) :
    ∀ (lowers : List (FBound α)) (ov : List FSectionEvaluationData) (rc : List Nat),
    OvOk ov rc →
    (∀ lb, lowers.head? = some lb → lb.Bound = opening) →
    OvOk (openBatch opening lowers ov rc).2.1 (openBatch opening lowers ov rc).2.2 ∧
    (openBatch opening lowers ov rc).1 =
      lowers.dropWhile (fun x => decide (x.Bound = opening)) ∧
    (ovFlat (openBatch opening lowers ov rc).2.1
        (openBatch opening lowers ov rc).2.2).Perm
      ((lowers.takeWhile fun x => decide (x.Bound = opening)).map FBound.EvalData ++
        ovFlat ov rc)
  | [], ov, rc, hok, _ => by
    refine ⟨hok, by simp [openBatch], ?_⟩
    simp [openBatch]
  | [lb], ov, rc, hok, hhd => by
    have hb : lb.Bound = opening := hhd lb rfl
    have hok1 := addOverlap_ok hok lb.EvalData
    have hflat1 := addOverlap_flat hok lb.EvalData
    have htw : [lb].takeWhile (fun x => decide (x.Bound = opening)) = [lb] := by
      rw [List.takeWhile_cons, if_pos (by simpa using hb)]
      simp
    have hdw : [lb].dropWhile (fun x => decide (x.Bound = opening)) = [] := by
      rw [List.dropWhile_cons, if_pos (by simpa using hb)]
      simp
    have hstep : openBatch opening [lb] ov rc =
        ([], (addOverlap ov rc lb.EvalData).1, (addOverlap ov rc lb.EvalData).2) := by
      simp only [openBatch]
    rw [hstep, htw, hdw]
    refine ⟨hok1, rfl, ?_⟩
    simp only [List.map_cons, List.map_nil, List.singleton_append]
    exact hflat1
  | lb :: lb2 :: rest2, ov, rc, hok, hhd => by
    have hb : lb.Bound = opening := hhd lb rfl
    have hok1 := addOverlap_ok hok lb.EvalData
    have hflat1 := addOverlap_flat hok lb.EvalData
    have htw : (lb :: lb2 :: rest2).takeWhile (fun x => decide (x.Bound = opening)) =
        lb :: (lb2 :: rest2).takeWhile (fun x => decide (x.Bound = opening)) := by
      rw [List.takeWhile_cons, if_pos (by simpa using hb)]
    have hdw : (lb :: lb2 :: rest2).dropWhile (fun x => decide (x.Bound = opening)) =
        (lb2 :: rest2).dropWhile (fun x => decide (x.Bound = opening)) := by
      rw [List.dropWhile_cons, if_pos (by simpa using hb)]
    by_cases hb2 : lb2.Bound = opening
    · have hstep : openBatch opening (lb :: lb2 :: rest2) ov rc =
          openBatch opening (lb2 :: rest2) (addOverlap ov rc lb.EvalData).1
            (addOverlap ov rc lb.EvalData).2 := by
        simp only [openBatch]
        rw [if_pos hb2]
      obtain ⟨ihok, ihup, ihperm⟩ := openBatch_spec opening (lb2 :: rest2) _ _ hok1
        (fun x hx => by
          rw [List.head?_cons, Option.some.injEq] at hx
          rw [← hx]
          exact hb2)
      rw [hstep, htw, hdw]
      refine ⟨ihok, ihup, ?_⟩
      refine ihperm.trans ?_
      refine (List.Perm.append_left _ hflat1).trans ?_
      simp only [List.map_cons, List.cons_append]
      exact List.perm_middle
    · have hstep : openBatch opening (lb :: lb2 :: rest2) ov rc =
          (lb2 :: rest2, (addOverlap ov rc lb.EvalData).1,
            (addOverlap ov rc lb.EvalData).2) := by
        simp only [openBatch]
        rw [if_neg hb2]
      have htw2 : (lb2 :: rest2).takeWhile (fun x => decide (x.Bound = opening)) = [] := by
        rw [List.takeWhile_cons, if_neg (by simpa using hb2)]
      have hdw2 : (lb2 :: rest2).dropWhile (fun x => decide (x.Bound = opening)) =
          lb2 :: rest2 := by
        rw [List.dropWhile_cons, if_neg (by simpa using hb2)]
      rw [hstep, htw, hdw, htw2, hdw2]
      refine ⟨hok1, rfl, ?_⟩
      simp only [List.map_cons, List.map_nil, List.singleton_append]
      exact hflat1

end BatchLemmas

/-! ### Counting: consumed events versus the active multiset -/

section SweepCounting

variable {α : Type} [LinearOrder α]

open TRangeBound

theorem dropWhile_upLT {c : TRangeBound α} : ∀ {Us : List (FBound α)},
    Us.Pairwise (fun a b => upLE a.Bound b.Bound = true) →
    (∀ u ∈ Us, upLE c u.Bound = true) →
    ∀ x ∈ Us.dropWhile (fun x => decide (x.Bound = c)), upLT c x.Bound = true := by
  intro Us
  induction Us with
  | nil => intro _ _ x hx; simp at hx
  | cons u us ih =>
    intro hp hall x hx
    rw [List.dropWhile_cons] at hx
    by_cases hu : u.Bound = c
    · rw [if_pos (by simpa using hu)] at hx
      exact ih (List.pairwise_cons.mp hp).2
        (fun v hv => hall v (List.mem_cons_of_mem _ hv)) x hx
    · rw [if_neg (by simpa using hu)] at hx
      have hcu : upLE c u.Bound = true := hall u (List.mem_cons_self _ _)
      have hcu' : upLT c u.Bound = true := upLT_of_upLE_ne hcu (fun h => hu h.symm)
      rcases List.mem_cons.mp hx with rfl | hx'
      · exact hcu'
      · exact upLT_of_upLT_of_upLE hcu' ((List.pairwise_cons.mp hp).1 x hx')

theorem dropWhile_lowLT {c : TRangeBound α} : ∀ {Ls : List (FBound α)},
    Ls.Pairwise (fun a b => lowLE a.Bound b.Bound = true) →
    (∀ l ∈ Ls, lowLE c l.Bound = true) →
    ∀ x ∈ Ls.dropWhile (fun x => decide (x.Bound = c)), lowLT c x.Bound = true := by
  intro Ls
  induction Ls with
  | nil => intro _ _ x hx; simp at hx
  | cons u us ih =>
    intro hp hall x hx
    rw [List.dropWhile_cons] at hx
    by_cases hu : u.Bound = c
    · rw [if_pos (by simpa using hu)] at hx
      exact ih (List.pairwise_cons.mp hp).2
        (fun v hv => hall v (List.mem_cons_of_mem _ hv)) x hx
    · rw [if_neg (by simpa using hu)] at hx
      have hcu : lowLE c u.Bound = true := hall u (List.mem_cons_self _ _)
      have hcu' : lowLT c u.Bound = true := lowLT_of_lowLE_ne hcu (fun h => hu h.symm)
      rcases List.mem_cons.mp hx with rfl | hx'
      · exact hcu'
      · exact lowLT_of_lowLT_of_lowLE hcu' ((List.pairwise_cons.mp hp).1 x hx')

theorem bal_count {ov : List FSectionEvaluationData} {rc : List Nat}
    {CU CL : List (FBound α)}
    (bal : (ovFlat ov rc ++ CU.map FBound.EvalData).Perm (CL.map FBound.EvalData))
    (e : FSectionEvaluationData) :
    (ovFlat ov rc).countP (fun x => decide (x = e)) +
      CU.countP (fun x => decide (x.EvalData = e)) =
    CL.countP (fun x => decide (x.EvalData = e)) := by
  have h := bal.countP_eq (fun x => decide (x = e))
  rw [List.countP_append, List.countP_map, List.countP_map] at h
  exact h

theorem totals_count {S : List (FMovieSceneSectionData α)} {CL Ls CU Us : List (FBound α)}
    (permL : (CL ++ Ls).Perm (S.map fun sd => ⟨sd.EvalData, sd.Bounds.lowerBound⟩))
    (permU : (CU ++ Us).Perm (S.map fun sd => ⟨sd.EvalData, sd.Bounds.upperBound⟩))
    (e : FSectionEvaluationData) :
    CL.countP (fun x => decide (x.EvalData = e)) +
      Ls.countP (fun x => decide (x.EvalData = e)) =
    CU.countP (fun x => decide (x.EvalData = e)) +
      Us.countP (fun x => decide (x.EvalData = e)) := by
  have hL := permL.countP_eq (fun x => decide (x.EvalData = e))
  have hU := permU.countP_eq (fun x => decide (x.EvalData = e))
  rw [List.countP_append, List.countP_map] at hL hU
  rw [hL, hU]
  rfl

theorem flat_nil_of_counts {ov : List FSectionEvaluationData} {rc : List Nat}
    (h : ∀ e, (ovFlat ov rc).countP (fun x => decide (x = e)) = 0) :
    ovFlat ov rc = [] := by
  rw [List.eq_nil_iff_forall_not_mem]
  intro a ha
  have h0 := h a
  rw [List.countP_eq_zero] at h0
  exact h0 a ha (by simp)

theorem ov_nil_of_flat_nil {ov : List FSectionEvaluationData} {rc : List Nat}
    (hok : OvOk ov rc) (h : ovFlat ov rc = []) : ov = [] := by
  cases hov : ov with
  | nil => rfl
  | cons x xs =>
    have hx : x ∈ ov := by
      rw [hov]
      exact List.mem_cons_self x xs
    have hxf := (mem_ovFlat hok).mpr hx
    rw [h] at hxf
    simp at hxf

theorem close_pigeonhole {S : List (FMovieSceneSectionData α)}
    {CL Ls CU Us : List (FBound α)} {closing : TRangeBound α}
    (srcNe : ∀ sd ∈ S, sd.Bounds.isEmpty = false)
    (permL : (CL ++ Ls).Perm (S.map fun sd => ⟨sd.EvalData, sd.Bounds.lowerBound⟩))
    (permU : (CU ++ Us).Perm (S.map fun sd => ⟨sd.EvalData, sd.Bounds.upperBound⟩))
    (sortedU : (CU ++ Us).Pairwise fun a b => upLE a.Bound b.Bound = true)
    (runU : ∀ a ∈ CU, upLT a.Bound closing = true)
    (hcls : ∀ b ∈ Ls, TRange.isEmpty ⟨b.Bound, closing⟩ = true)
    (hhd : ∀ u, Us.head? = some u → u.Bound = closing)
    (e : FSectionEvaluationData) :
    CU.countP (fun x => decide (x.EvalData = e)) +
      (Us.takeWhile fun x => decide (x.Bound = closing)).countP
        (fun x => decide (x.EvalData = e)) ≤
    CL.countP (fun x => decide (x.EvalData = e)) := by
  have hUsorted : Us.Pairwise (fun a b => upLE a.Bound b.Bound = true) :=
    sortedU.sublist (List.sublist_append_right CU Us)
  have hallc : ∀ u ∈ Us, upLE closing u.Bound = true := by
    cases Us with
    | nil => intro u hu; simp at hu
    | cons hd tl =>
      have hhd0 : hd.Bound = closing := hhd hd rfl
      intro u hu
      rcases List.mem_cons.mp hu with rfl | hu'
      · rw [hhd0]
        exact upLE_refl _
      · have h1 := (List.pairwise_cons.mp hUsorted).1 u hu'
        rw [hhd0] at h1
        exact h1
  have hdrop := dropWhile_upLT hUsorted hallc
  -- the consumed uppers together with the closing run, counted over sections
  have h1 : (CU ++ Us).countP (fun x => decide (x.EvalData = e) && upLE x.Bound closing) =
      CU.countP (fun x => decide (x.EvalData = e)) +
      (Us.takeWhile fun x => decide (x.Bound = closing)).countP
        (fun x => decide (x.EvalData = e)) := by
    rw [List.countP_append]
    have hCUc : CU.countP (fun x => decide (x.EvalData = e) && upLE x.Bound closing) =
        CU.countP (fun x => decide (x.EvalData = e)) :=
      List.countP_congr (fun a ha => by simp [upLE_of_upLT (runU a ha)])
    have hTD := List.takeWhile_append_dropWhile
      (p := fun x : FBound α => decide (x.Bound = closing)) (l := Us)
    have hUsc : Us.countP (fun x => decide (x.EvalData = e) && upLE x.Bound closing) =
        (Us.takeWhile fun x => decide (x.Bound = closing)).countP
          (fun x => decide (x.EvalData = e)) := by
      conv_lhs => rw [← hTD]
      rw [List.countP_append]
      have hT0 : (Us.takeWhile fun x => decide (x.Bound = closing)).countP
          (fun x => decide (x.EvalData = e) && upLE x.Bound closing) =
          (Us.takeWhile fun x => decide (x.Bound = closing)).countP
            (fun x => decide (x.EvalData = e)) :=
        List.countP_congr (fun a ha => by
          have hb : a.Bound = closing := by simpa using List.mem_takeWhile_imp ha
          simp [hb, upLE_refl])
      have hD0 : (Us.dropWhile fun x => decide (x.Bound = closing)).countP
          (fun x => decide (x.EvalData = e) && upLE x.Bound closing) = 0 := by
        rw [List.countP_eq_zero]
        intro a ha
        have h2 : upLE a.Bound closing = false := upLT_iff.mp (hdrop a ha)
        simp [h2]
      rw [hT0, hD0]
      omega
    rw [hCUc, hUsc]
  -- transport to a per-section count
  have h2 : (CU ++ Us).countP (fun x => decide (x.EvalData = e) && upLE x.Bound closing) =
      S.countP (fun sd => decide (sd.EvalData = e) && upLE sd.Bounds.upperBound closing) := by
    rw [permU.countP_eq, List.countP_map]
    rfl
  -- a non-empty section closing at or before `closing` must have opened before it
  have h3 : S.countP (fun sd => decide (sd.EvalData = e) && upLE sd.Bounds.upperBound closing) ≤
      S.countP (fun sd => decide (sd.EvalData = e) &&
        !TRange.isEmpty ⟨sd.Bounds.lowerBound, closing⟩) := by
    apply List.countP_mono_left
    intro sd hsd hp
    rw [Bool.and_eq_true] at hp
    rw [Bool.and_eq_true]
    refine ⟨hp.1, ?_⟩
    have hne := srcNe sd hsd
    by_cases hE : TRange.isEmpty ⟨sd.Bounds.lowerBound, closing⟩ = true
    · have h4 := TRange.isEmpty_anti_upper hp.2 hE
      rw [show (⟨sd.Bounds.lowerBound, sd.Bounds.upperBound⟩ : TRange α) = sd.Bounds
        from rfl] at h4
      rw [h4] at hne
      simp at hne
    · simp only [Bool.not_eq_true] at hE
      simp [hE]
  -- transport back to the lower-bound events
  have h4 : S.countP (fun sd => decide (sd.EvalData = e) &&
      !TRange.isEmpty ⟨sd.Bounds.lowerBound, closing⟩) =
      (CL ++ Ls).countP (fun x => decide (x.EvalData = e) &&
        !TRange.isEmpty ⟨x.Bound, closing⟩) := by
    rw [permL.countP_eq, List.countP_map]
    rfl
  have h5 : (CL ++ Ls).countP (fun x => decide (x.EvalData = e) &&
      !TRange.isEmpty ⟨x.Bound, closing⟩) ≤
      CL.countP (fun x => decide (x.EvalData = e)) := by
    rw [List.countP_append]
    have hLs0 : Ls.countP (fun x => decide (x.EvalData = e) &&
        !TRange.isEmpty ⟨x.Bound, closing⟩) = 0 := by
      rw [List.countP_eq_zero]
      intro b hb
      simp [hcls b hb]
    have hCLm : CL.countP (fun x => decide (x.EvalData = e) &&
        !TRange.isEmpty ⟨x.Bound, closing⟩) ≤
        CL.countP (fun x => decide (x.EvalData = e)) :=
      List.countP_mono_left (fun a _ h => by
        rw [Bool.and_eq_true] at h
        exact h.1)
    omega
  omega

theorem zone_exact {S : List (FMovieSceneSectionData α)} {CL Ls CU Us : List (FBound α)}
    {ov : List FSectionEvaluationData} {rc : List Nat} {p : α}
    (srcNe : ∀ sd ∈ S, sd.Bounds.isEmpty = false)
    (permL : (CL ++ Ls).Perm (S.map fun sd => ⟨sd.EvalData, sd.Bounds.lowerBound⟩))
    (permU : (CU ++ Us).Perm (S.map fun sd => ⟨sd.EvalData, sd.Bounds.upperBound⟩))
    (hok : OvOk ov rc)
    (bal : (ovFlat ov rc ++ CU.map FBound.EvalData).Perm (CL.map FBound.EvalData))
    (hCL : ∀ a ∈ CL, a.Bound.memLower p = true)
    (hLs : ∀ b ∈ Ls, b.Bound.memLower p = false)
    (hCU : ∀ a ∈ CU, a.Bound.memUpper p = false)
    (hUs : ∀ u ∈ Us, u.Bound.memUpper p = true)
    (e : FSectionEvaluationData) :
    e ∈ ov ↔ ActiveAt S e p := by
  -- sections with `e` whose lower bound admits `p` are exactly the consumed lowers
  have hA : S.countP (fun sd => decide (sd.EvalData = e) &&
      sd.Bounds.lowerBound.memLower p) =
      CL.countP (fun x => decide (x.EvalData = e)) := by
    have h1 : (CL ++ Ls).countP (fun x => decide (x.EvalData = e) && x.Bound.memLower p) =
        S.countP (fun sd => decide (sd.EvalData = e) && sd.Bounds.lowerBound.memLower p) := by
      rw [permL.countP_eq, List.countP_map]
      rfl
    rw [← h1, List.countP_append]
    have hLs0 : Ls.countP (fun x => decide (x.EvalData = e) && x.Bound.memLower p) = 0 := by
      rw [List.countP_eq_zero]
      intro b hb
      simp [hLs b hb]
    have hCLc : CL.countP (fun x => decide (x.EvalData = e) && x.Bound.memLower p) =
        CL.countP (fun x => decide (x.EvalData = e)) :=
      List.countP_congr (fun a ha => by simp [hCL a ha])
    omega
  -- sections with `e` whose upper bound admits `p` are exactly the remaining uppers
  have hB : S.countP (fun sd => decide (sd.EvalData = e) &&
      sd.Bounds.upperBound.memUpper p) =
      Us.countP (fun x => decide (x.EvalData = e)) := by
    have h1 : (CU ++ Us).countP (fun x => decide (x.EvalData = e) && x.Bound.memUpper p) =
        S.countP (fun sd => decide (sd.EvalData = e) && sd.Bounds.upperBound.memUpper p) := by
      rw [permU.countP_eq, List.countP_map]
      rfl
    rw [← h1, List.countP_append]
    have hCU0 : CU.countP (fun x => decide (x.EvalData = e) && x.Bound.memUpper p) = 0 := by
      rw [List.countP_eq_zero]
      intro a ha
      simp [hCU a ha]
    have hUsc : Us.countP (fun x => decide (x.EvalData = e) && x.Bound.memUpper p) =
        Us.countP (fun x => decide (x.EvalData = e)) :=
      List.countP_congr (fun u hu => by simp [hUs u hu])
    omega
  -- every non-empty section admits `p` on at least one side
  have hOR : S.countP (fun sd =>
      (decide (sd.EvalData = e) && sd.Bounds.lowerBound.memLower p) ||
      (decide (sd.EvalData = e) && sd.Bounds.upperBound.memUpper p)) =
      S.countP (fun sd => decide (sd.EvalData = e)) := by
    apply List.countP_congr
    intro sd hsd
    by_cases hd : sd.EvalData = e
    · have hne : TRange.isEmpty ⟨sd.Bounds.lowerBound, sd.Bounds.upperBound⟩ = false := by
        rw [show (⟨sd.Bounds.lowerBound, sd.Bounds.upperBound⟩ : TRange α) = sd.Bounds
          from rfl]
        exact srcNe sd hsd
      rcases TRange.nonempty_lower_or_upper p hne with hl | hu
      · simp [hd, hl]
      · simp [hd, hu]
    · simp [hd]
  have hAND : S.countP (fun sd =>
      (decide (sd.EvalData = e) && sd.Bounds.lowerBound.memLower p) &&
      (decide (sd.EvalData = e) && sd.Bounds.upperBound.memUpper p)) =
      S.countP (fun sd => decide (sd.EvalData = e) && sd.Bounds.memR p) := by
    apply List.countP_congr
    intro sd _
    by_cases hd : sd.EvalData = e
    · simp [hd, TRange.memR]
    · simp [hd]
  have hsum := countP_and_or
    (fun sd => decide (sd.EvalData = e) && sd.Bounds.lowerBound.memLower p)
    (fun sd => decide (sd.EvalData = e) && sd.Bounds.upperBound.memUpper p) S
  rw [hAND, hOR, hA, hB] at hsum
  have hbal := bal_count bal e
  have htotU : S.countP (fun sd => decide (sd.EvalData = e)) =
      CU.countP (fun x => decide (x.EvalData = e)) +
      Us.countP (fun x => decide (x.EvalData = e)) := by
    have h := permU.countP_eq (fun x => decide (x.EvalData = e))
    rw [List.countP_append, List.countP_map] at h
    exact h.symm
  -- the net count of active instances equals the flat reference count
  have hkey : S.countP (fun sd => decide (sd.EvalData = e) && sd.Bounds.memR p) =
      (ovFlat ov rc).countP (fun x => decide (x = e)) := by
    omega
  constructor
  · intro he
    have hf : e ∈ ovFlat ov rc := (mem_ovFlat hok).mpr he
    have hpos : 0 < (ovFlat ov rc).countP (fun x => decide (x = e)) :=
      List.countP_pos_iff.mpr ⟨e, hf, by simp⟩
    have hpos2 : 0 < S.countP (fun sd => decide (sd.EvalData = e) && sd.Bounds.memR p) := by
      omega
    obtain ⟨sd, hsd, hp⟩ := List.countP_pos_iff.mp hpos2
    rw [Bool.and_eq_true] at hp
    exact ⟨sd, hsd, by simpa using hp.1, hp.2⟩
  · rintro ⟨sd, hsd, hev, hmem⟩
    have hpos : 0 < S.countP (fun sd => decide (sd.EvalData = e) && sd.Bounds.memR p) :=
      List.countP_pos_iff.mpr ⟨sd, hsd, by simp [hev, hmem]⟩
    have hF : 0 < (ovFlat ov rc).countP (fun x => decide (x = e)) := by omega
    obtain ⟨x, hx, hxe⟩ := List.countP_pos_iff.mp hF
    have hxx : x = e := by simpa using hxe
    subst hxx
    exact (mem_ovFlat hok).mp hx

theorem exactCover_mono {S : List (FMovieSceneSectionData α)}
    {segs segs' : List (FMovieSceneSegment α)}
    (hsub : ∀ s ∈ segs, s ∈ segs') {p : α} (h : ExactCover S segs p) :
    ExactCover S segs' p := by
  rcases h with ⟨seg, hm, hr, hi⟩ | h
  · exact Or.inl ⟨seg, hsub seg hm, hr, hi⟩
  · exact Or.inr h

theorem rangeBefore_trans {s t r : TRange α}
    (h1 : FMovieSceneTrackCompiler.RangeBefore s t)
    (h2 : FMovieSceneTrackCompiler.RangeBefore t r) :
    FMovieSceneTrackCompiler.RangeBefore s r := by
  obtain ⟨hl1, he1⟩ := h1
  obtain ⟨hl2, he2⟩ := h2
  exact ⟨lowLT_of_lowLT_of_lowLE hl1 (lowLE_of_lowLT hl2),
    TRange.isEmpty_mono_lower (lowLE_of_lowLT hl2) he1⟩

end SweepCounting

/-! ### Step equations and consequences of the open-state invariant -/

section SweepSteps

variable {α : Type} [LinearOrder α]

open TRangeBound

theorem head_some_mem {β : Type} {l : List β} {a : β} (h : l.head? = some a) :
    a ∈ l := by
  cases l with
  | nil => simp at h
  | cons x xs =>
    rw [List.head?_cons, Option.some.injEq] at h
    rw [← h]
    exact List.mem_cons_self _ _

theorem closeLoop_nil_uppers (fuel : Nat) (Ls : List (FBound α))
    (ov : List FSectionEvaluationData) (rc : List Nat)
    (last : FMovieSceneSegment α) (rest : List (FMovieSceneSegment α)) :
    closeLoop fuel Ls [] ov rc last rest = ([], ov, rc, last :: rest) := by
  cases fuel <;> rfl

theorem closeLoop_closing_step (f : Nat) (Ls : List (FBound α)) (ub : FBound α)
    (urest : List (FBound α)) (ov : List FSectionEvaluationData) (rc : List Nat)
    (last : FMovieSceneSegment α) (rest : List (FMovieSceneSegment α))
    (hcond : (match Ls with
      | [] => false
      | hls :: _ => !(TRange.isEmpty ⟨hls.Bound, ub.Bound⟩)) = false) :
    closeLoop (f + 1) Ls (ub :: urest) ov rc last rest =
      (if (closeBatch ub.Bound (ub :: urest) ov rc).2.1 = [] then
        closeLoop f Ls (closeBatch ub.Bound (ub :: urest) ov rc).1
          (closeBatch ub.Bound (ub :: urest) ov rc).2.1
          (closeBatch ub.Bound (ub :: urest) ov rc).2.2
          { last with Range := ⟨last.Range.lowerBound, ub.Bound⟩ } rest
      else
        closeLoop f Ls (closeBatch ub.Bound (ub :: urest) ov rc).1
          (closeBatch ub.Bound (ub :: urest) ov rc).2.1
          (closeBatch ub.Bound (ub :: urest) ov rc).2.2
          ⟨⟨ub.Bound.flipInclusion, .unbounded⟩,
            (closeBatch ub.Bound (ub :: urest) ov rc).2.1⟩
          ({ last with Range := ⟨last.Range.lowerBound, ub.Bound⟩ } :: rest)) := by
  simp only [closeLoop]
  rw [hcond]
  simp

theorem closeLoop_trim_step (f : Nat) (hls : FBound α) (lrest : List (FBound α))
    (ub : FBound α) (urest : List (FBound α)) (ov : List FSectionEvaluationData)
    (rc : List Nat) (last : FMovieSceneSegment α)
    (rest : List (FMovieSceneSegment α))
    (hne : TRange.isEmpty ⟨hls.Bound, ub.Bound⟩ = false) :
    closeLoop (f + 1) (hls :: lrest) (ub :: urest) ov rc last rest =
      (if ov = [] then (ub :: urest, ov, rc, last :: rest)
      else
        if (TRange.isEmpty ⟨last.Range.lowerBound, hls.Bound.flipInclusion⟩) then
          (ub :: urest, ov, rc, rest)
        else
          (ub :: urest, ov, rc,
            { last with Range := ⟨last.Range.lowerBound, hls.Bound.flipInclusion⟩ } :: rest)) := by
  simp only [closeLoop]
  rw [hne]
  simp

theorem openInv_us_ne_nil {S : List (FMovieSceneSectionData α)}
    {CL Ls CU Us : List (FBound α)} {ov : List FSectionEvaluationData}
    {rc : List Nat} {pl : TRangeBound α} {closed : List (FMovieSceneSegment α)}
    (hinv : OpenInv S CL Ls CU Us ov rc pl closed) : Us ≠ [] := by
  intro h0
  subst h0
  have hov : ov = [] := by
    apply ov_nil_of_flat_nil hinv.ovOk
    apply flat_nil_of_counts
    intro e
    have hb := bal_count hinv.bal e
    have ht := totals_count hinv.permL hinv.permU e
    simp only [List.countP_nil] at ht
    omega
  exact hinv.ovNe hov

theorem flat_zero_end {S : List (FMovieSceneSectionData α)}
    {CL Ls CU Us : List (FBound α)} {ov : List FSectionEvaluationData} {rc : List Nat}
    (hok : OvOk ov rc)
    (permL : (CL ++ Ls).Perm (S.map fun sd => ⟨sd.EvalData, sd.Bounds.lowerBound⟩))
    (permU : (CU ++ Us).Perm (S.map fun sd => ⟨sd.EvalData, sd.Bounds.upperBound⟩))
    (bal : (ovFlat ov rc ++ CU.map FBound.EvalData).Perm (CL.map FBound.EvalData))
    (hUs : Us = []) : ov = [] := by
  subst hUs
  apply ov_nil_of_flat_nil hok
  apply flat_nil_of_counts
  intro e
  have hb := bal_count bal e
  have ht := totals_count permL permU e
  simp only [List.countP_nil] at ht
  omega

end SweepSteps

/-! ### Zone conditions around the pending segment -/

section ZoneConditions

variable {α : Type} [LinearOrder α]

open TRangeBound

theorem ls_not_memLower {Ls : List (FBound α)}
    (hsort : Ls.Pairwise fun a b => lowLE a.Bound b.Bound = true)
    {hls : FBound α} (hhd : Ls.head? = some hls) {p : α}
    (hp : hls.Bound.memLower p = false) : ∀ b ∈ Ls, b.Bound.memLower p = false := by
  cases Ls with
  | nil => intro b hb; simp at hb
  | cons x xs =>
    rw [List.head?_cons, Option.some.injEq] at hhd
    subst hhd
    intro b hb
    rcases List.mem_cons.mp hb with rfl | hb'
    · exact hp
    · by_cases hm : b.Bound.memLower p = true
      · exact absurd (memLower_mono ((List.pairwise_cons.mp hsort).1 b hb') hm)
          (by simp [hp])
      · simpa using hm

theorem us_memUpper {Us : List (FBound α)}
    (hsort : Us.Pairwise fun a b => upLE a.Bound b.Bound = true)
    {hu : FBound α} (hhd : Us.head? = some hu) {p : α}
    (hp : hu.Bound.memUpper p = true) : ∀ u ∈ Us, u.Bound.memUpper p = true := by
  cases Us with
  | nil => intro u hum; simp at hum
  | cons x xs =>
    rw [List.head?_cons, Option.some.injEq] at hhd
    subst hhd
    intro u hum
    rcases List.mem_cons.mp hum with rfl | hu'
    · exact hp
    · exact memUpper_mono ((List.pairwise_cons.mp hsort).1 u hu') hp

theorem cu_not_memUpper {CU : List (FBound α)} {pl : TRangeBound α}
    (hB7 : ∀ a ∈ CU, a.Bound ≠ unbounded ∧ lowLE a.Bound.flipInclusion pl = true)
    {p : α} (hppl : pl.memLower p = true) :
    ∀ a ∈ CU, a.Bound.memUpper p = false := by
  intro a ha
  obtain ⟨hne, hle⟩ := hB7 a ha
  have h1 : a.Bound.flipInclusion.memLower p = true := memLower_mono hle hppl
  rw [memLower_flip hne] at h1
  simpa using h1

theorem cl_memLower {CL : List (FBound α)} {pl : TRangeBound α}
    (hB8 : ∀ a ∈ CL, lowLE a.Bound pl = true) {p : α}
    (hppl : pl.memLower p = true) : ∀ a ∈ CL, a.Bound.memLower p = true :=
  fun a ha => memLower_mono (hB8 a ha) hppl

/-- Points inside the pending segment at closing time are covered exactly by
the current overlap list. -/
theorem closing_cover {S : List (FMovieSceneSectionData α)}
    {CL Ls CU : List (FBound α)} {ub : FBound α} {urest : List (FBound α)}
    {ov : List FSectionEvaluationData} {rc : List Nat} {pl : TRangeBound α}
    {closed : List (FMovieSceneSegment α)}
    (hinv : OpenInv S CL Ls CU (ub :: urest) ov rc pl closed)
    (hclsAll : ∀ b ∈ Ls, TRange.isEmpty ⟨b.Bound, ub.Bound⟩ = true)
    {p : α} (hppl : pl.memLower p = true) (hpub : ub.Bound.memUpper p = true)
    (e : FSectionEvaluationData) : e ∈ ov ↔ ActiveAt S e p := by
  apply zone_exact hinv.srcNe hinv.permL hinv.permU hinv.ovOk hinv.bal
  · exact cl_memLower hinv.pendCL hppl
  · intro b hb
    by_cases hm : b.Bound.memLower p = true
    · exfalso
      exact TRange.isEmpty_no_mem (hclsAll b hb) ⟨hm, hpub⟩
    · simpa using hm
  · exact cu_not_memUpper hinv.pendCU hppl
  · exact us_memUpper (hinv.sortedU.sublist (List.sublist_append_right CU _)) rfl hpub

end ZoneConditions

/-! ### The close loop: batch effects and exit states -/

section CloseLoopPost

variable {α : Type} [LinearOrder α]

open TRangeBound

/-- Facts produced by one closing batch, derived from the open-state
invariant and the closing condition. -/
theorem close_batch_facts {S : List (FMovieSceneSectionData α)}
    {CL Ls CU : List (FBound α)} {ub : FBound α} {urest : List (FBound α)}
    {ov : List FSectionEvaluationData} {rc : List Nat} {pl : TRangeBound α}
    {closed : List (FMovieSceneSegment α)}
    (hinv : OpenInv S CL Ls CU (ub :: urest) ov rc pl closed)
    (hclsAll : ∀ b ∈ Ls, TRange.isEmpty ⟨b.Bound, ub.Bound⟩ = true) :
    OvOk (closeBatch ub.Bound (ub :: urest) ov rc).2.1
        (closeBatch ub.Bound (ub :: urest) ov rc).2.2 ∧
    (closeBatch ub.Bound (ub :: urest) ov rc).1 =
      ((ub :: urest).dropWhile fun x => decide (x.Bound = ub.Bound)) ∧
    (ovFlat (closeBatch ub.Bound (ub :: urest) ov rc).2.1
        (closeBatch ub.Bound (ub :: urest) ov rc).2.2 ++
      (CU ++ ((ub :: urest).takeWhile fun x => decide (x.Bound = ub.Bound))).map
        FBound.EvalData).Perm (CL.map FBound.EvalData) ∧
    ((CU ++ ((ub :: urest).takeWhile fun x => decide (x.Bound = ub.Bound))) ++
      ((ub :: urest).dropWhile fun x => decide (x.Bound = ub.Bound))) =
      CU ++ (ub :: urest) ∧
    (∀ u ∈ (ub :: urest).dropWhile fun x => decide (x.Bound = ub.Bound),
      upLT ub.Bound u.Bound = true) ∧
    (∀ x ∈ (ub :: urest).takeWhile fun x => decide (x.Bound = ub.Bound),
      x.Bound = ub.Bound) := by
  have hhd : ∀ u, (ub :: urest).head? = some u → u.Bound = ub.Bound := by
    intro u hu
    rw [List.head?_cons, Option.some.injEq] at hu
    rw [← hu]
  have hrun_le : ∀ e, ((ub :: urest).takeWhile fun x =>
      decide (x.Bound = ub.Bound)).countP (fun x => decide (x.EvalData = e)) ≤
      (ovFlat ov rc).countP (fun x => decide (x = e)) := by
    intro e
    have hpig := close_pigeonhole hinv.srcNe hinv.permL hinv.permU hinv.sortedU
      (fun a ha => hinv.runU a ha ub rfl) hclsAll hhd e
    have hb := bal_count hinv.bal e
    omega
  obtain ⟨hok1, hup1, hflat1⟩ := closeBatch_spec ub.Bound (ub :: urest) ov rc
    hinv.ovOk hrun_le
  have hsplit : ((ub :: urest).takeWhile fun x => decide (x.Bound = ub.Bound)) ++
      ((ub :: urest).dropWhile fun x => decide (x.Bound = ub.Bound)) = ub :: urest :=
    List.takeWhile_append_dropWhile (fun x => decide (x.Bound = ub.Bound)) (ub :: urest)
  have happ : ((CU ++ ((ub :: urest).takeWhile fun x => decide (x.Bound = ub.Bound))) ++
      ((ub :: urest).dropWhile fun x => decide (x.Bound = ub.Bound))) =
      CU ++ (ub :: urest) := by
    rw [List.append_assoc, hsplit]
  have hUsorted : (ub :: urest).Pairwise (fun a b => upLE a.Bound b.Bound = true) :=
    hinv.sortedU.sublist (List.sublist_append_right CU _)
  have hallc : ∀ u ∈ ub :: urest, upLE ub.Bound u.Bound = true := by
    intro u hu
    rcases List.mem_cons.mp hu with rfl | hu'
    · exact upLE_refl _
    · exact (List.pairwise_cons.mp hUsorted).1 u hu'
  have hU1gt := dropWhile_upLT hUsorted hallc
  have hbal1 : (ovFlat (closeBatch ub.Bound (ub :: urest) ov rc).2.1
      (closeBatch ub.Bound (ub :: urest) ov rc).2.2 ++
      (CU ++ ((ub :: urest).takeWhile fun x => decide (x.Bound = ub.Bound))).map
        FBound.EvalData).Perm (CL.map FBound.EvalData) := by
    refine List.Perm.trans ?_ hinv.bal
    rw [List.map_append]
    refine List.Perm.trans (List.Perm.append_left _ List.perm_append_comm) ?_
    rw [← List.append_assoc]
    refine List.Perm.append_right _ ?_
    refine List.Perm.trans List.perm_append_comm ?_
    exact hflat1.symm
  refine ⟨hok1, hup1, hbal1, happ, hU1gt, ?_⟩
  intro x hx
  simpa using List.mem_takeWhile_imp hx

/-- The state after a closing batch that empties the overlap list satisfies
the post-close invariant, provided the loop exits right afterwards. -/
theorem post_close_gap {S : List (FMovieSceneSectionData α)}
    {CL Ls CU : List (FBound α)} {ub : FBound α} {urest : List (FBound α)}
    {ov : List FSectionEvaluationData} {rc : List Nat} {pl : TRangeBound α}
    {closed : List (FMovieSceneSegment α)}
    (hinv : OpenInv S CL Ls CU (ub :: urest) ov rc pl closed)
    (hclsAll : ∀ b ∈ Ls, TRange.isEmpty ⟨b.Bound, ub.Bound⟩ = true)
    (hgap : (closeBatch ub.Bound (ub :: urest) ov rc).2.1 = [])
    (hB6 : ∀ b, Ls.head? = some b →
      ∀ u, ((ub :: urest).dropWhile fun x => decide (x.Bound = ub.Bound)).head? = some u →
      TRange.isEmpty ⟨b.Bound, u.Bound⟩ = false)
    (hlsnil : Ls = [] →
      ((ub :: urest).dropWhile fun x => decide (x.Bound = ub.Bound)) = []) :
    PostClose S CL Ls
      (CU ++ ((ub :: urest).takeWhile fun x => decide (x.Bound = ub.Bound)))
      ((ub :: urest).dropWhile fun x => decide (x.Bound = ub.Bound))
      [] (closeBatch ub.Bound (ub :: urest) ov rc).2.2
      (⟨⟨pl, ub.Bound⟩, ov⟩ :: closed) := by
  obtain ⟨hok1, hup1, hbal1, happ, hU1gt, hRb⟩ := close_batch_facts hinv hclsAll
  have hplclose : TRange.isEmpty ⟨pl, ub.Bound⟩ = false := hinv.pendUs ub rfl
  have hLsort : Ls.Pairwise (fun a b => lowLE a.Bound b.Bound = true) :=
    hinv.sortedL.sublist (List.sublist_append_right CL Ls)
  -- the pending segment strictly precedes any remaining opening
  have hplhls : ∀ b ∈ Ls, lowLT pl b.Bound = true := by
    intro b hb
    rw [lowLT_iff]
    by_cases hle : lowLE b.Bound pl = true
    · exact absurd (TRange.isEmpty_mono_lower hle (hclsAll b hb)) (by simp [hplclose])
    · simpa using hle
  have hU1sorted : ((ub :: urest).dropWhile fun x =>
      decide (x.Bound = ub.Bound)).Pairwise
      (fun a b => upLE a.Bound b.Bound = true) :=
    (hinv.sortedU.sublist (List.sublist_append_right CU _)).sublist
      (List.dropWhile_sublist _)
  refine
    { permU := ?_
      sortedU := ?_
      runU := ?_
      ovOk := ?_
      bal := ?_
      postB7 := ?_
      postB6 := hB6
      lsNil := hlsnil
      chain := ?_
      headB := ?_
      exact := ?_ }
  · rw [happ]
    exact hinv.permU
  · rw [happ]
    exact hinv.sortedU
  · intro a ha u hu
    have hu1 := head_some_mem hu
    have hcu : upLT ub.Bound u.Bound = true := hU1gt u hu1
    rcases List.mem_append.mp ha with h1 | h1
    · exact upLT_of_upLT_of_upLE (hinv.runU a h1 ub rfl) (upLE_of_upLT hcu)
    · rw [hRb a h1]
      exact hcu
  · rw [← hgap]
    exact hok1
  · have h0 := hbal1
    rw [hgap] at h0
    exact h0
  · intro a ha b hb
    have hbm : b ∈ Ls := head_some_mem hb
    rcases List.mem_append.mp ha with h1 | h1
    · obtain ⟨hne, hle⟩ := hinv.pendCU a h1
      exact ⟨hne, lowLE_trans hle (hinv.pendLs b hbm)⟩
    · have hclne : ub.Bound ≠ unbounded := by
        intro he
        have h0 := hclsAll b hbm
        rw [he] at h0
        cases hbb : b.Bound <;> rw [hbb] at h0 <;> simp [TRange.isEmpty] at h0
      rw [hRb a h1]
      refine ⟨hclne, ?_⟩
      rw [TRange.lowLE_flip hclne]
      exact hclsAll b hbm
  · rw [List.chain'_cons']
    refine ⟨?_, hinv.closedChain⟩
    intro c hc
    obtain ⟨h1, h2⟩ := hinv.closedHead c hc
    exact ⟨h1, h2⟩
  · intro c hc b hb
    rw [List.head?_cons, Option.some.injEq] at hc
    subst hc
    have hbm : b ∈ Ls := head_some_mem hb
    exact ⟨hplhls b hbm, hclsAll b hbm⟩
  · intro p hreg
    by_cases hppl : pl.memLower p = true
    · by_cases hpub : ub.Bound.memUpper p = true
      · -- covered by the newly closed segment
        refine Or.inl ⟨⟨⟨pl, ub.Bound⟩, ov⟩, List.mem_cons_self _ _, ?_, ?_⟩
        · simp [TRange.memR, hppl, hpub]
        · exact closing_cover hinv hclsAll hppl hpub
      · -- a point past the closing bound and before the next opening: nothing active
        refine Or.inr ?_
        intro e hact
        have hLsmem : ∀ b ∈ Ls, b.Bound.memLower p = false := by
          intro b hb
          cases hLE : Ls with
          | nil =>
            rw [hLE] at hb
            simp at hb
          | cons hls lrest =>
            have hreg0 : hls.Bound.memLower p = false := by
              apply hreg
              rw [hLE]
              rfl
            have hLsort2 := hLsort
            rw [hLE] at hLsort2
            rw [hLE] at hb
            exact ls_not_memLower hLsort2 rfl hreg0 b hb
        have hUs1adm : ∀ u ∈ ((ub :: urest).dropWhile fun x =>
            decide (x.Bound = ub.Bound)), u.Bound.memUpper p = true := by
          intro u hu
          cases hU1E : ((ub :: urest).dropWhile fun x => decide (x.Bound = ub.Bound)) with
          | nil =>
            rw [hU1E] at hu
            simp at hu
          | cons u1 u1rest =>
            cases hLE : Ls with
            | nil =>
              have h0 := hlsnil hLE
              rw [h0] at hU1E
              simp at hU1E
            | cons hls lrest =>
              have hne1 : TRange.isEmpty ⟨hls.Bound, u1.Bound⟩ = false := by
                apply hB6 hls (by rw [hLE]; rfl) u1
                rw [hU1E]
                rfl
              have hregh : hls.Bound.memLower p = false := by
                apply hreg
                rw [hLE]
                rfl
              have hu1adm : u1.Bound.memUpper p = true :=
                TRange.mem_of_not_isEmpty_of_not_memLower hne1 hregh
              have hsorted2 := hU1sorted
              rw [hU1E] at hsorted2
              rw [hU1E] at hu
              exact us_memUpper hsorted2 rfl hu1adm u hu
        have hCU1 : ∀ a ∈ (CU ++ ((ub :: urest).takeWhile fun x =>
            decide (x.Bound = ub.Bound))), a.Bound.memUpper p = false := by
          intro a ha
          rcases List.mem_append.mp ha with h1 | h1
          · exact cu_not_memUpper hinv.pendCU hppl a h1
          · rw [hRb a h1]
            simpa using hpub
        have hok0 : OvOk [] (closeBatch ub.Bound (ub :: urest) ov rc).2.2 := by
          rw [← hgap]
          exact hok1
        have hbal0 : (ovFlat [] (closeBatch ub.Bound (ub :: urest) ov rc).2.2 ++
            (CU ++ ((ub :: urest).takeWhile fun x =>
              decide (x.Bound = ub.Bound))).map FBound.EvalData).Perm
            (CL.map FBound.EvalData) := by
          have h0 := hbal1
          rw [hgap] at h0
          exact h0
        have hiff := zone_exact hinv.srcNe hinv.permL
          (by rw [happ]; exact hinv.permU) hok0 hbal0
          (cl_memLower hinv.pendCL hppl) hLsmem hCU1 hUs1adm e
        exact absurd (hiff.mpr hact) (by simp)
    · -- left of the pending segment: already decided by the closed segments
      refine exactCover_mono ?_ (hinv.closedExact p (by simpa using hppl))
      intro s hs
      exact List.mem_cons_of_mem _ hs

/-- Exiting the close loop by dropping an empty pending segment leaves a
valid post-close state. -/
theorem post_trim_drop {S : List (FMovieSceneSectionData α)}
    {CL CU : List (FBound α)} {hls : FBound α} {lrest : List (FBound α)}
    {ub : FBound α} {urest : List (FBound α)}
    {ov : List FSectionEvaluationData} {rc : List Nat} {pl : TRangeBound α}
    {closed : List (FMovieSceneSegment α)}
    (hinv : OpenInv S CL (hls :: lrest) CU (ub :: urest) ov rc pl closed)
    (hne : TRange.isEmpty ⟨hls.Bound, ub.Bound⟩ = false)
    (hEmp : TRange.isEmpty ⟨pl, hls.Bound.flipInclusion⟩ = true) :
    PostClose S CL (hls :: lrest) CU (ub :: urest) ov rc closed := by
  have hhlsne : hls.Bound ≠ unbounded :=
    hinv.lsNoUnb hls (List.mem_cons_self _ _)
  refine
    { permU := hinv.permU
      sortedU := hinv.sortedU
      runU := hinv.runU
      ovOk := hinv.ovOk
      bal := hinv.bal
      postB7 := ?_
      postB6 := ?_
      lsNil := fun h => absurd h (by simp)
      chain := hinv.closedChain
      headB := ?_
      exact := ?_ }
  · intro a ha b hb
    obtain ⟨hne2, hle⟩ := hinv.pendCU a ha
    exact ⟨hne2, lowLE_trans hle (hinv.pendLs b (head_some_mem hb))⟩
  · intro b hb u hu
    rw [List.head?_cons, Option.some.injEq] at hb hu
    subst hb
    subst hu
    exact hne
  · intro c hc b hb
    obtain ⟨h1, h2⟩ := hinv.closedHead c hc
    have hbm := head_some_mem hb
    exact ⟨lowLT_of_lowLT_of_lowLE h1 (hinv.pendLs b hbm),
      TRange.isEmpty_mono_lower (hinv.pendLs b hbm) h2⟩
  · intro p hreg
    have hregh : hls.Bound.memLower p = false := hreg hls rfl
    by_cases hppl : pl.memLower p = true
    · exfalso
      have hpub : hls.Bound.flipInclusion.memUpper p = true := by
        rw [memUpper_flip hhlsne]
        simp [hregh]
      exact TRange.isEmpty_no_mem hEmp ⟨hppl, hpub⟩
    · exact hinv.closedExact p (by simpa using hppl)

/-- Exiting the close loop by trimming the pending segment at the next
opening bound leaves a valid post-close state. -/
theorem post_trim_keep {S : List (FMovieSceneSectionData α)}
    {CL CU : List (FBound α)} {hls : FBound α} {lrest : List (FBound α)}
    {ub : FBound α} {urest : List (FBound α)}
    {ov : List FSectionEvaluationData} {rc : List Nat} {pl : TRangeBound α}
    {closed : List (FMovieSceneSegment α)}
    (hinv : OpenInv S CL (hls :: lrest) CU (ub :: urest) ov rc pl closed)
    (hne : TRange.isEmpty ⟨hls.Bound, ub.Bound⟩ = false)
    (hEmp : TRange.isEmpty ⟨pl, hls.Bound.flipInclusion⟩ = false) :
    PostClose S CL (hls :: lrest) CU (ub :: urest) ov rc
      (⟨⟨pl, hls.Bound.flipInclusion⟩, ov⟩ :: closed) := by
  have hhlsne : hls.Bound ≠ unbounded :=
    hinv.lsNoUnb hls (List.mem_cons_self _ _)
  have hflipne : hls.Bound.flipInclusion ≠ unbounded := by
    intro h
    exact hhlsne (flip_unbounded_iff.mp h)
  have hstrict : lowLT pl hls.Bound = true := by
    have h0 := TRange.lowLT_flip_of_nonempty hflipne (l := pl)
    rw [flip_flip, hEmp] at h0
    simpa using h0
  have hLsort : (hls :: lrest).Pairwise (fun a b => lowLE a.Bound b.Bound = true) :=
    hinv.sortedL.sublist (List.sublist_append_right CL _)
  refine
    { permU := hinv.permU
      sortedU := hinv.sortedU
      runU := hinv.runU
      ovOk := hinv.ovOk
      bal := hinv.bal
      postB7 := ?_
      postB6 := ?_
      lsNil := fun h => absurd h (by simp)
      chain := ?_
      headB := ?_
      exact := ?_ }
  · intro a ha b hb
    obtain ⟨hne2, hle⟩ := hinv.pendCU a ha
    exact ⟨hne2, lowLE_trans hle (hinv.pendLs b (head_some_mem hb))⟩
  · intro b hb u hu
    rw [List.head?_cons, Option.some.injEq] at hb hu
    subst hb
    subst hu
    exact hne
  · rw [List.chain'_cons']
    refine ⟨?_, hinv.closedChain⟩
    intro c hc
    exact hinv.closedHead c hc
  · intro c hc b hb
    rw [List.head?_cons, Option.some.injEq] at hc hb
    subst hc
    subst hb
    exact ⟨hstrict, TRange.isEmpty_self_flip hhlsne⟩
  · intro p hreg
    have hregh : hls.Bound.memLower p = false := hreg hls rfl
    by_cases hppl : pl.memLower p = true
    · refine Or.inl ⟨⟨⟨pl, hls.Bound.flipInclusion⟩, ov⟩, List.mem_cons_self _ _, ?_, ?_⟩
      · have hpub : hls.Bound.flipInclusion.memUpper p = true := by
          rw [memUpper_flip hhlsne]
          simp [hregh]
        simp [TRange.memR, hppl, hpub]
      · intro e
        apply zone_exact hinv.srcNe hinv.permL hinv.permU hinv.ovOk hinv.bal
        · exact cl_memLower hinv.pendCL hppl
        · exact ls_not_memLower hLsort rfl hregh
        · exact cu_not_memUpper hinv.pendCU hppl
        · have hubadm : ub.Bound.memUpper p = true :=
            TRange.mem_of_not_isEmpty_of_not_memLower hne hregh
          exact us_memUpper (hinv.sortedU.sublist (List.sublist_append_right CU _))
            rfl hubadm
    · refine exactCover_mono ?_ (hinv.closedExact p (by simpa using hppl))
      intro s hs
      exact List.mem_cons_of_mem _ hs

/-- After a closing batch that leaves sections open, the loop is again in a
valid open state whose pending segment starts at the flipped closing bound. -/
theorem openInv_after_close {S : List (FMovieSceneSectionData α)}
    {CL Ls CU : List (FBound α)} {ub : FBound α} {urest : List (FBound α)}
    {ov : List FSectionEvaluationData} {rc : List Nat} {pl : TRangeBound α}
    {closed : List (FMovieSceneSegment α)}
    (hinv : OpenInv S CL Ls CU (ub :: urest) ov rc pl closed)
    (hclsAll : ∀ b ∈ Ls, TRange.isEmpty ⟨b.Bound, ub.Bound⟩ = true)
    (hne1 : (closeBatch ub.Bound (ub :: urest) ov rc).2.1 ≠ []) :
    OpenInv S CL Ls
      (CU ++ ((ub :: urest).takeWhile fun x => decide (x.Bound = ub.Bound)))
      ((ub :: urest).dropWhile fun x => decide (x.Bound = ub.Bound))
      (closeBatch ub.Bound (ub :: urest) ov rc).2.1
      (closeBatch ub.Bound (ub :: urest) ov rc).2.2
      ub.Bound.flipInclusion
      (⟨⟨pl, ub.Bound⟩, ov⟩ :: closed) := by
  obtain ⟨hok1, hup1, hbal1, happ, hU1gt, hRb⟩ := close_batch_facts hinv hclsAll
  have hplclose : TRange.isEmpty ⟨pl, ub.Bound⟩ = false := hinv.pendUs ub rfl
  have hpermU1 : ((CU ++ ((ub :: urest).takeWhile fun x => decide (x.Bound = ub.Bound))) ++
      ((ub :: urest).dropWhile fun x => decide (x.Bound = ub.Bound))).Perm
      (S.map fun sd => ⟨sd.EvalData, sd.Bounds.upperBound⟩) := by
    rw [happ]
    exact hinv.permU
  have hclne : ub.Bound ≠ unbounded := by
    intro he
    have hU1nil : ((ub :: urest).dropWhile fun x => decide (x.Bound = ub.Bound)) = [] := by
      cases hU1E : ((ub :: urest).dropWhile fun x => decide (x.Bound = ub.Bound)) with
      | nil => rfl
      | cons u1 u1rest =>
        have h1 := hU1gt u1 (by rw [hU1E]; exact List.mem_cons_self _ _)
        rw [he, upLT_iff, upLE_unbounded_right] at h1
        simp at h1
    exact hne1 (flat_zero_end hok1 hinv.permL hpermU1 hbal1 hU1nil)
  have hplflip : lowLT pl ub.Bound.flipInclusion = true := by
    have h0 := TRange.lowLT_flip_of_nonempty hclne (l := pl)
    rw [hplclose] at h0
    simpa using h0
  refine
    { srcNe := hinv.srcNe
      permL := hinv.permL
      permU := hpermU1
      sortedL := hinv.sortedL
      sortedU := by rw [happ]; exact hinv.sortedU
      runU := ?_
      ovOk := hok1
      bal := hbal1
      ovNe := hne1
      pendLs := ?_
      lsNoUnb := hinv.lsNoUnb
      pendCL := ?_
      pendCU := ?_
      pendUs := ?_
      closedChain := ?_
      closedHead := ?_
      closedExact := ?_ }
  · intro a ha u hu
    have hu1 := head_some_mem hu
    have hcu : upLT ub.Bound u.Bound = true := hU1gt u hu1
    rcases List.mem_append.mp ha with h1 | h1
    · exact upLT_of_upLT_of_upLE (hinv.runU a h1 ub rfl) (upLE_of_upLT hcu)
    · rw [hRb a h1]
      exact hcu
  · intro b hb
    rw [TRange.lowLE_flip hclne]
    exact hclsAll b hb
  · intro a ha
    exact lowLE_trans (hinv.pendCL a ha) (lowLE_of_lowLT hplflip)
  · intro a ha
    rcases List.mem_append.mp ha with h1 | h1
    · obtain ⟨hne2, hle⟩ := hinv.pendCU a h1
      exact ⟨hne2, lowLE_trans hle (lowLE_of_lowLT hplflip)⟩
    · rw [hRb a h1]
      exact ⟨hclne, lowLE_refl _⟩
  · intro u hu
    exact TRange.upLT_flip_nonempty (hU1gt u (head_some_mem hu))
  · rw [List.chain'_cons']
    refine ⟨?_, hinv.closedChain⟩
    intro c hc
    exact hinv.closedHead c hc
  · intro c hc
    rw [List.head?_cons, Option.some.injEq] at hc
    subst hc
    exact ⟨hplflip, TRange.isEmpty_flip_self hclne⟩
  · intro p hp
    have hpub : ub.Bound.memUpper p = true := by
      rw [memLower_flip hclne] at hp
      simpa using hp
    by_cases hppl : pl.memLower p = true
    · refine Or.inl ⟨⟨⟨pl, ub.Bound⟩, ov⟩, List.mem_cons_self _ _, ?_, ?_⟩
      · simp [TRange.memR, hppl, hpub]
      · exact closing_cover hinv hclsAll hppl hpub
    · refine exactCover_mono ?_ (hinv.closedExact p (by simpa using hppl))
      intro s hs
      exact List.mem_cons_of_mem _ hs

/-- The opening-range check is a boolean: excluded middle for rewriting. -/
theorem open_check_em (Ls : List (FBound α)) (u : FBound α) :
    (match Ls with
      | [] => false
      | hls :: _ => !(TRange.isEmpty ⟨hls.Bound, u.Bound⟩)) = true ∨
    (match Ls with
      | [] => false
      | hls :: _ => !(TRange.isEmpty ⟨hls.Bound, u.Bound⟩)) = false := by
  rcases Bool.eq_false_or_eq_true (match Ls with
    | [] => false
    | hls :: _ => !(TRange.isEmpty ⟨hls.Bound, u.Bound⟩)) with h | h
  · exact Or.inl h
  · exact Or.inr h

/-- Characterization of a true opening-range check. -/
theorem match_open_true {Ls : List (FBound α)} {ub : FBound α}
    (h : (match Ls with
      | [] => false
      | hls :: _ => !(TRange.isEmpty ⟨hls.Bound, ub.Bound⟩)) = true) :
    ∃ hls lrest, Ls = hls :: lrest ∧ TRange.isEmpty ⟨hls.Bound, ub.Bound⟩ = false := by
  cases Ls with
  | nil => simp at h
  | cons hls lrest => exact ⟨hls, lrest, rfl, by simpa using h⟩

/-- A false opening-range check makes every remaining lower bound close
against the upper bound. -/
theorem clsAll_of_match_false {CL Ls : List (FBound α)} {ub : FBound α}
    (h : (match Ls with
      | [] => false
      | hls :: _ => !(TRange.isEmpty ⟨hls.Bound, ub.Bound⟩)) = false)
    (hsorted : (CL ++ Ls).Pairwise fun a b => lowLE a.Bound b.Bound = true) :
    ∀ b ∈ Ls, TRange.isEmpty ⟨b.Bound, ub.Bound⟩ = true := by
  have hLsort : Ls.Pairwise (fun a b => lowLE a.Bound b.Bound = true) :=
    hsorted.sublist (List.sublist_append_right CL Ls)
  cases Ls with
  | nil =>
    intro b hb
    simp at hb
  | cons hls lrest =>
    have hhe : TRange.isEmpty ⟨hls.Bound, ub.Bound⟩ = true := by
      simpa using h
    intro b hb
    rcases List.mem_cons.mp hb with rfl | hb'
    · exact hhe
    · exact TRange.isEmpty_mono_lower ((List.pairwise_cons.mp hLsort).1 b hb') hhe

/-- The master induction for `CloseCompletedSegments`: from any open state,
the loop terminates in a valid post-close state over the same consumed
lower bounds. -/
theorem closeLoop_post {S : List (FMovieSceneSectionData α)} {CL Ls : List (FBound α)} :
    ∀ (fuel : Nat) (CU Us : List (FBound α)) (ov : List FSectionEvaluationData)
      (rc : List Nat) (pl : TRangeBound α) (closed : List (FMovieSceneSegment α)),
    OpenInv S CL Ls CU Us ov rc pl closed →
    Us.length ≤ fuel →
    ∃ CU1, PostClose S CL Ls CU1
      (closeLoop fuel Ls Us ov rc ⟨⟨pl, TRangeBound.unbounded⟩, ov⟩ closed).1
      (closeLoop fuel Ls Us ov rc ⟨⟨pl, TRangeBound.unbounded⟩, ov⟩ closed).2.1
      (closeLoop fuel Ls Us ov rc ⟨⟨pl, TRangeBound.unbounded⟩, ov⟩ closed).2.2.1
      (closeLoop fuel Ls Us ov rc ⟨⟨pl, TRangeBound.unbounded⟩, ov⟩ closed).2.2.2 := by
  intro fuel
  induction fuel with
  | zero =>
    intro CU Us ov rc pl closed hinv hfuel
    exact absurd (List.eq_nil_of_length_eq_zero (by omega)) (openInv_us_ne_nil hinv)
  | succ f ih =>
    intro CU Us ov rc pl closed hinv hfuel
    obtain ⟨ub, urest, rfl⟩ : ∃ ub urest, Us = ub :: urest := by
      cases Us with
      | nil => exact absurd rfl (openInv_us_ne_nil hinv)
      | cons a b => exact ⟨a, b, rfl⟩
    rcases open_check_em Ls ub with hOpen | hOpen
    · -- a non-empty opening range remains: trim the pending segment and return
      obtain ⟨hls, lrest, hLE, hne⟩ := match_open_true hOpen
      subst hLE
      rw [closeLoop_trim_step f hls lrest ub urest ov rc
        ⟨⟨pl, TRangeBound.unbounded⟩, ov⟩ closed hne]
      rw [if_neg hinv.ovNe]
      have hproj : (⟨⟨pl, TRangeBound.unbounded⟩, ov⟩ :
          FMovieSceneSegment α).Range.lowerBound = pl := rfl
      rw [hproj]
      have hred2 : ({ (⟨⟨pl, TRangeBound.unbounded⟩, ov⟩ : FMovieSceneSegment α) with
          Range := ⟨pl, hls.Bound.flipInclusion⟩ } : FMovieSceneSegment α) =
          ⟨⟨pl, hls.Bound.flipInclusion⟩, ov⟩ := rfl
      rw [hred2]
      by_cases hEmp : TRange.isEmpty ⟨pl, hls.Bound.flipInclusion⟩ = true
      · rw [if_pos hEmp]
        exact ⟨CU, post_trim_drop hinv hne hEmp⟩
      · rw [if_neg hEmp]
        exact ⟨CU, post_trim_keep hinv hne (by simpa using hEmp)⟩
    · -- no opening range: close a batch of upper bounds
      have hcond := hOpen
      have hclsAll : ∀ b ∈ Ls, TRange.isEmpty ⟨b.Bound, ub.Bound⟩ = true :=
        clsAll_of_match_false hcond hinv.sortedL
      rw [closeLoop_closing_step f Ls ub urest ov rc
        ⟨⟨pl, TRangeBound.unbounded⟩, ov⟩ closed hcond]
      have hred : ({ (⟨⟨pl, TRangeBound.unbounded⟩, ov⟩ : FMovieSceneSegment α) with
          Range := ⟨(⟨⟨pl, TRangeBound.unbounded⟩, ov⟩ :
            FMovieSceneSegment α).Range.lowerBound, ub.Bound⟩ } :
          FMovieSceneSegment α) = ⟨⟨pl, ub.Bound⟩, ov⟩ := rfl
      rw [hred]
      obtain ⟨hok1, hup1, hbal1, happ, hU1gt, hRb⟩ := close_batch_facts hinv hclsAll
      have hlen1 : ((ub :: urest).dropWhile fun x =>
          decide (x.Bound = ub.Bound)).length ≤ f := by
        have h0 := congrArg List.length (List.takeWhile_append_dropWhile
          (fun x : FBound α => decide (x.Bound = ub.Bound)) (ub :: urest))
        rw [List.length_append] at h0
        have hRlen : 1 ≤ ((ub :: urest).takeWhile fun x =>
            decide (x.Bound = ub.Bound)).length := by
          rw [List.takeWhile_cons, if_pos (by simp)]
          simp
        simp only [List.length_cons] at h0 hfuel
        omega
      by_cases hgap : (closeBatch ub.Bound (ub :: urest) ov rc).2.1 = []
      · -- the batch emptied the overlap list: the loop exits at once
        rw [if_pos hgap, hup1, hgap]
        cases hU1E : ((ub :: urest).dropWhile fun x => decide (x.Bound = ub.Bound)) with
        | nil =>
          rw [closeLoop_nil_uppers]
          refine ⟨CU ++ ((ub :: urest).takeWhile fun x => decide (x.Bound = ub.Bound)), ?_⟩
          have hpost := post_close_gap hinv hclsAll hgap
            (by
              intro b hb u hu
              rw [hU1E] at hu
              simp at hu)
            (fun _ => hU1E)
          rw [hU1E] at hpost
          exact hpost
        | cons u1 u1rest =>
          rw [hU1E] at hlen1
          obtain ⟨f2, rfl⟩ : ∃ f2, f = f2 + 1 := by
            cases f with
            | zero => simp at hlen1
            | succ f2 => exact ⟨f2, rfl⟩
          rcases open_check_em Ls u1 with hOp2 | hOp2
          · -- the gap state exits through the opening-range check
            obtain ⟨hls, lrest, hLE, hne2⟩ := match_open_true hOp2
            subst hLE
            rw [closeLoop_trim_step f2 hls lrest u1 u1rest []
              (closeBatch ub.Bound (ub :: urest) ov rc).2.2
              ⟨⟨pl, ub.Bound⟩, ov⟩ closed hne2]
            rw [if_pos rfl]
            refine ⟨CU ++ ((ub :: urest).takeWhile fun x => decide (x.Bound = ub.Bound)), ?_⟩
            have hpost := post_close_gap hinv hclsAll hgap
              (by
                intro b hb u hu
                rw [hU1E] at hu
                rw [List.head?_cons, Option.some.injEq] at hb hu
                subst hb
                subst hu
                exact hne2)
              (fun h => absurd h (by simp))
            rw [hU1E] at hpost
            exact hpost
          · -- impossible: closing again with an empty overlap list
            exfalso
            have hclsAll2 : ∀ b ∈ Ls, TRange.isEmpty ⟨b.Bound, u1.Bound⟩ = true :=
              clsAll_of_match_false hOp2 hinv.sortedL
            have hpermU1 : ((CU ++ ((ub :: urest).takeWhile fun x =>
                decide (x.Bound = ub.Bound))) ++ (u1 :: u1rest)).Perm
                (S.map fun sd => ⟨sd.EvalData, sd.Bounds.upperBound⟩) := by
              rw [← hU1E, happ]
              exact hinv.permU
            have hsortedU1 : ((CU ++ ((ub :: urest).takeWhile fun x =>
                decide (x.Bound = ub.Bound))) ++ (u1 :: u1rest)).Pairwise
                (fun a b => upLE a.Bound b.Bound = true) := by
              rw [← hU1E, happ]
              exact hinv.sortedU
            have hrun2 : ∀ a ∈ (CU ++ ((ub :: urest).takeWhile fun x =>
                decide (x.Bound = ub.Bound))), upLT a.Bound u1.Bound = true := by
              intro a ha
              have hu1m : u1 ∈ ((ub :: urest).dropWhile fun x =>
                  decide (x.Bound = ub.Bound)) := by
                rw [hU1E]
                exact List.mem_cons_self _ _
              have hcu : upLT ub.Bound u1.Bound = true := hU1gt u1 hu1m
              rcases List.mem_append.mp ha with h1 | h1
              · exact upLT_of_upLT_of_upLE (hinv.runU a h1 ub rfl) (upLE_of_upLT hcu)
              · rw [hRb a h1]
                exact hcu
            have hpig := close_pigeonhole hinv.srcNe hinv.permL hpermU1 hsortedU1
              hrun2 hclsAll2
              (by
                intro u hu
                rw [List.head?_cons, Option.some.injEq] at hu
                rw [← hu])
              u1.EvalData
            have hbalg : (ovFlat [] (closeBatch ub.Bound (ub :: urest) ov rc).2.2 ++
                (CU ++ ((ub :: urest).takeWhile fun x =>
                  decide (x.Bound = ub.Bound))).map FBound.EvalData).Perm
                (CL.map FBound.EvalData) := by
              have h0 := hbal1
              rw [hgap] at h0
              exact h0
            have hb := bal_count hbalg u1.EvalData
            have hr1 : 1 ≤ ((u1 :: u1rest).takeWhile fun x =>
                decide (x.Bound = u1.Bound)).countP
                (fun x => decide (x.EvalData = u1.EvalData)) := by
              rw [List.takeWhile_cons, if_pos (by simp)]
              rw [List.countP_cons]
              simp
            simp only [ovFlat, List.zip_nil_left, List.map_nil, List.flatten_nil,
              List.countP_nil] at hb
            omega
      · -- sections remain open: a new pending segment continues the loop
        rw [if_neg hgap, hup1]
        exact ih (CU ++ ((ub :: urest).takeWhile fun x => decide (x.Bound = ub.Bound)))
          ((ub :: urest).dropWhile fun x => decide (x.Bound = ub.Bound))
          (closeBatch ub.Bound (ub :: urest) ov rc).2.1
          (closeBatch ub.Bound (ub :: urest) ov rc).2.2
          ub.Bound.flipInclusion (⟨⟨pl, ub.Bound⟩, ov⟩ :: closed)
          (openInv_after_close hinv hclsAll hgap) hlen1

end CloseLoopPost


/-! ### Opening a batch of equal lower bounds and pushing a new segment -/

section SweepLoopPost

variable {α : Type} [LinearOrder α]

open TRangeBound

/-- Structural facts about the run of equal lower bounds at the head of a
sorted lower-bound list. -/
theorem open_run_facts {hl : FBound α} {lrest : List (FBound α)}
    (hsorted : (hl :: lrest).Pairwise fun a b => lowLE a.Bound b.Bound = true) :
    ((((hl :: lrest).takeWhile fun x => decide (x.Bound = hl.Bound)) ++
      ((hl :: lrest).dropWhile fun x => decide (x.Bound = hl.Bound))) = hl :: lrest) ∧
    (∀ x ∈ (hl :: lrest).takeWhile fun x => decide (x.Bound = hl.Bound),
      x.Bound = hl.Bound) ∧
    (1 ≤ ((hl :: lrest).takeWhile fun x => decide (x.Bound = hl.Bound)).length) ∧
    (∀ b ∈ (hl :: lrest).dropWhile fun x => decide (x.Bound = hl.Bound),
      lowLE hl.Bound b.Bound = true) ∧
    (∀ b ∈ (hl :: lrest).dropWhile fun x => decide (x.Bound = hl.Bound),
      b.Bound ≠ TRangeBound.unbounded) := by
  have hall : ∀ b ∈ hl :: lrest, lowLE hl.Bound b.Bound = true := by
    intro b hb
    rcases List.mem_cons.mp hb with rfl | hb'
    · exact lowLE_refl _
    · exact (List.pairwise_cons.mp hsorted).1 b hb'
  have hgt := dropWhile_lowLT hsorted hall
  refine ⟨List.takeWhile_append_dropWhile _ _, ?_, ?_, ?_, ?_⟩
  · intro x hx
    simpa using List.mem_takeWhile_imp hx
  · rw [List.takeWhile_cons, if_pos (by simp)]
    simp
  · intro b hb
    exact hall b ((List.dropWhile_sublist _).subset hb)
  · intro b hb he
    have h1 := hgt b hb
    rw [lowLT_iff, he, lowLE_unbounded_left] at h1
    simp at h1

/-- An opening batch that consumes at least one lower bound leaves a
non-empty overlapping-section list. -/
theorem openBatch_ovNe {opening : TRangeBound α} {lowers : List (FBound α)}
    {ov : List FSectionEvaluationData} {rc : List Nat}
    (hflat : (ovFlat (openBatch opening lowers ov rc).2.1
        (openBatch opening lowers ov rc).2.2).Perm
      ((lowers.takeWhile fun x => decide (x.Bound = opening)).map FBound.EvalData ++
        ovFlat ov rc))
    (hne : (lowers.takeWhile fun x => decide (x.Bound = opening)) ≠ []) :
    (openBatch opening lowers ov rc).2.1 ≠ [] := by
  intro h0
  rw [h0] at hflat
  have hfl : ovFlat [] (openBatch opening lowers ov rc).2.2 = [] := rfl
  rw [hfl] at hflat
  have h1 := hflat.symm.eq_nil
  rw [List.append_eq_nil] at h1
  rw [List.map_eq_nil_iff] at h1
  exact hne h1.1

/-- The first remaining lower bound is minimal among all section lower
bounds. -/
theorem init_lower_min {S : List (FMovieSceneSectionData α)} {hl : FBound α}
    {lrest : List (FBound α)}
    (permL : (hl :: lrest).Perm (S.map fun sd => ⟨sd.EvalData, sd.Bounds.lowerBound⟩))
    (sortedL : (hl :: lrest).Pairwise fun a b => lowLE a.Bound b.Bound = true)
    {sd : FMovieSceneSectionData α} (hsd : sd ∈ S) :
    lowLE hl.Bound sd.Bounds.lowerBound = true := by
  have hm : (⟨sd.EvalData, sd.Bounds.lowerBound⟩ : FBound α) ∈ hl :: lrest :=
    permL.mem_iff.mpr (List.mem_map_of_mem _ hsd)
  rcases List.mem_cons.mp hm with h | h
  · rw [← h]
    exact lowLE_refl _
  · exact (List.pairwise_cons.mp sortedL).1 _ h

/-- Before anything is consumed, the range from the first lower bound to
the first upper bound is non-empty. -/
theorem init_first_nonempty {S : List (FMovieSceneSectionData α)} {hl : FBound α}
    {lrest Us : List (FBound α)}
    (srcNe : ∀ sd ∈ S, sd.Bounds.isEmpty = false)
    (permL : (hl :: lrest).Perm (S.map fun sd => ⟨sd.EvalData, sd.Bounds.lowerBound⟩))
    (sortedL : (hl :: lrest).Pairwise fun a b => lowLE a.Bound b.Bound = true)
    (permU : Us.Perm (S.map fun sd => ⟨sd.EvalData, sd.Bounds.upperBound⟩)) :
    ∀ u, Us.head? = some u → TRange.isEmpty ⟨hl.Bound, u.Bound⟩ = false := by
  intro u hu
  have hum : u ∈ Us := head_some_mem hu
  obtain ⟨sd, hsd, hequ⟩ := List.mem_map.mp (permU.subset hum)
  have hub : sd.Bounds.upperBound = u.Bound := by rw [← hequ]
  have hmin := init_lower_min permL sortedL hsd
  cases hE : TRange.isEmpty ⟨hl.Bound, u.Bound⟩ with
  | false => rfl
  | true =>
    exfalso
    have h1 : TRange.isEmpty ⟨hl.Bound, sd.Bounds.upperBound⟩ = true := by
      rw [hub]
      exact hE
    have h2 := TRange.isEmpty_mono_lower hmin h1
    rw [show (⟨sd.Bounds.lowerBound, sd.Bounds.upperBound⟩ : TRange α) = sd.Bounds
      from rfl] at h2
    rw [srcNe sd hsd] at h2
    simp at h2

/-- Left of the very first lower bound no section is active. -/
theorem init_exact_empty {S : List (FMovieSceneSectionData α)} {hl : FBound α}
    {lrest : List (FBound α)}
    (permL : (hl :: lrest).Perm (S.map fun sd => ⟨sd.EvalData, sd.Bounds.lowerBound⟩))
    (sortedL : (hl :: lrest).Pairwise fun a b => lowLE a.Bound b.Bound = true)
    {p : α} (hp : hl.Bound.memLower p = false) :
    ExactCover S [] p := by
  refine Or.inr ?_
  rintro e ⟨sd, hsd, _, hmem⟩
  simp only [TRange.memR, Bool.and_eq_true] at hmem
  have h1 := memLower_mono (init_lower_min permL sortedL hsd) hmem.1
  rw [hp] at h1
  simp at h1

/-- Opening the first batch from the initial state yields a valid open
state. -/
theorem openInv_push_init {S : List (FMovieSceneSectionData α)}
    {Us : List (FBound α)} {hl : FBound α} {lrest : List (FBound α)}
    (hI : InitInv S (hl :: lrest) Us) :
    OpenInv S ((hl :: lrest).takeWhile fun x => decide (x.Bound = hl.Bound))
      ((hl :: lrest).dropWhile fun x => decide (x.Bound = hl.Bound))
      [] Us
      (openBatch hl.Bound (hl :: lrest) [] []).2.1
      (openBatch hl.Bound (hl :: lrest) [] []).2.2
      hl.Bound [] := by
  have hok0 : OvOk [] ([] : List Nat) :=
    ⟨List.nodup_nil, rfl, fun n hn => absurd hn (List.not_mem_nil n)⟩
  obtain ⟨hok1, hdw1, hflat1⟩ := openBatch_spec hl.Bound (hl :: lrest) [] [] hok0
    (fun lb hlb => by
      rw [List.head?_cons, Option.some.injEq] at hlb
      rw [← hlb])
  obtain ⟨hsplit, hrunb, hrunlen, hLsle, hLsnu⟩ := open_run_facts hI.sortedL
  have hrunne : ((hl :: lrest).takeWhile fun x => decide (x.Bound = hl.Bound)) ≠ [] :=
    List.length_pos.mp hrunlen
  refine
    { srcNe := hI.srcNe
      permL := by rw [hsplit]; exact hI.permL
      permU := hI.permU
      sortedL := by rw [hsplit]; exact hI.sortedL
      sortedU := hI.sortedU
      runU := fun a ha => absurd ha (List.not_mem_nil a)
      ovOk := hok1
      bal := ?_
      ovNe := openBatch_ovNe hflat1 hrunne
      pendLs := hLsle
      lsNoUnb := hLsnu
      pendCL := ?_
      pendCU := fun a ha => absurd ha (List.not_mem_nil a)
      pendUs := init_first_nonempty hI.srcNe hI.permL hI.sortedL hI.permU
      closedChain := trivial
      closedHead := fun c hc => by simp at hc
      closedExact := fun p hp => init_exact_empty hI.permL hI.sortedL hp }
  · have hflat0 : ovFlat [] ([] : List Nat) = [] := rfl
    rw [hflat0, List.append_nil] at hflat1
    simpa using hflat1
  · intro a ha
    rw [hrunb a ha]
    exact lowLE_refl _

/-- Opening the next batch after a close phase yields a valid open state. -/
theorem openInv_push_next {S : List (FMovieSceneSectionData α)}
    {CL : List (FBound α)} {hl : FBound α} {lrest CU1 Us1 : List (FBound α)}
    {ov1 : List FSectionEvaluationData} {rc1 : List Nat}
    {segs1 : List (FMovieSceneSegment α)}
    (srcNe : ∀ sd ∈ S, sd.Bounds.isEmpty = false)
    (permL : (CL ++ (hl :: lrest)).Perm
      (S.map fun sd => ⟨sd.EvalData, sd.Bounds.lowerBound⟩))
    (sortedL : (CL ++ (hl :: lrest)).Pairwise fun a b => lowLE a.Bound b.Bound = true)
    (hpc : PostClose S CL (hl :: lrest) CU1 Us1 ov1 rc1 segs1) :
    OpenInv S (CL ++ ((hl :: lrest).takeWhile fun x => decide (x.Bound = hl.Bound)))
      ((hl :: lrest).dropWhile fun x => decide (x.Bound = hl.Bound))
      CU1 Us1
      (openBatch hl.Bound (hl :: lrest) ov1 rc1).2.1
      (openBatch hl.Bound (hl :: lrest) ov1 rc1).2.2
      hl.Bound segs1 := by
  obtain ⟨hok1, hdw1, hflat1⟩ := openBatch_spec hl.Bound (hl :: lrest) ov1 rc1 hpc.ovOk
    (fun lb hlb => by
      rw [List.head?_cons, Option.some.injEq] at hlb
      rw [← hlb])
  have hLsort : (hl :: lrest).Pairwise (fun a b => lowLE a.Bound b.Bound = true) :=
    sortedL.sublist (List.sublist_append_right CL _)
  obtain ⟨hsplit, hrunb, hrunlen, hLsle, hLsnu⟩ := open_run_facts hLsort
  have hrunne : ((hl :: lrest).takeWhile fun x => decide (x.Bound = hl.Bound)) ≠ [] :=
    List.length_pos.mp hrunlen
  refine
    { srcNe := srcNe
      permL := ?_
      permU := hpc.permU
      sortedL := ?_
      sortedU := hpc.sortedU
      runU := hpc.runU
      ovOk := hok1
      bal := ?_
      ovNe := openBatch_ovNe hflat1 hrunne
      pendLs := hLsle
      lsNoUnb := hLsnu
      pendCL := ?_
      pendCU := fun a ha => hpc.postB7 a ha hl rfl
      pendUs := fun u hu => hpc.postB6 hl rfl u hu
      closedChain := hpc.chain
      closedHead := fun c hc => hpc.headB c hc hl rfl
      closedExact := ?_ }
  · rw [List.append_assoc, hsplit]
    exact permL
  · rw [List.append_assoc, hsplit]
    exact sortedL
  · rw [List.map_append]
    refine (hflat1.append_right _).trans ?_
    rw [List.append_assoc]
    refine (List.Perm.append_left _ hpc.bal).trans ?_
    exact List.perm_append_comm
  · intro a ha
    rcases List.mem_append.mp ha with h1 | h1
    · exact (List.pairwise_append.mp sortedL).2.2 a h1 hl (List.mem_cons_self _ _)
    · rw [hrunb a h1]
      exact lowLE_refl _
  · intro p hp
    refine hpc.exact p ?_
    intro b hb
    rw [List.head?_cons, Option.some.injEq] at hb
    rw [← hb]
    exact hp

/-- Reduction of the sweep loop when all lower bounds are consumed. -/
theorem sweepLoop_nil (fuel : Nat) (Us : List (FBound α))
    (ov : List FSectionEvaluationData) (rc : List Nat)
    (segsRev : List (FMovieSceneSegment α)) :
    sweepLoop fuel ([] : List (FBound α)) Us ov rc segsRev =
      ((closeCompletedSegments Us.length [] Us ov rc segsRev).2.1,
       (closeCompletedSegments Us.length [] Us ov rc segsRev).2.2.2) := by
  cases fuel <;> rfl

/-- Reduction of the sweep loop on a remaining lower bound. -/
theorem sweepLoop_cons_succ (f : Nat) (lb : FBound α) (lrest : List (FBound α))
    (Us : List (FBound α)) (ov : List FSectionEvaluationData) (rc : List Nat)
    (segsRev : List (FMovieSceneSegment α)) :
    sweepLoop (f + 1) (lb :: lrest) Us ov rc segsRev =
      sweepLoop f
        (openBatch lb.Bound (lb :: lrest)
          (closeCompletedSegments Us.length (lb :: lrest) Us ov rc segsRev).2.1
          (closeCompletedSegments Us.length (lb :: lrest) Us ov rc segsRev).2.2.1).1
        (closeCompletedSegments Us.length (lb :: lrest) Us ov rc segsRev).1
        (openBatch lb.Bound (lb :: lrest)
          (closeCompletedSegments Us.length (lb :: lrest) Us ov rc segsRev).2.1
          (closeCompletedSegments Us.length (lb :: lrest) Us ov rc segsRev).2.2.1).2.1
        (openBatch lb.Bound (lb :: lrest)
          (closeCompletedSegments Us.length (lb :: lrest) Us ov rc segsRev).2.1
          (closeCompletedSegments Us.length (lb :: lrest) Us ov rc segsRev).2.2.1).2.2
        (⟨⟨lb.Bound, TRangeBound.unbounded⟩,
          (openBatch lb.Bound (lb :: lrest)
            (closeCompletedSegments Us.length (lb :: lrest) Us ov rc segsRev).2.1
            (closeCompletedSegments Us.length (lb :: lrest) Us ov rc segsRev).2.2.1).2.1⟩ ::
          (closeCompletedSegments Us.length (lb :: lrest) Us ov rc segsRev).2.2.2) := rfl

theorem closeCompleted_nil_segs (fuel : Nat) (lowers uppers : List (FBound α))
    (ov : List FSectionEvaluationData) (rc : List Nat) :
    closeCompletedSegments fuel lowers uppers ov rc [] = (uppers, ov, rc, []) := rfl

theorem closeCompleted_cons (fuel : Nat) (lowers uppers : List (FBound α))
    (ov : List FSectionEvaluationData) (rc : List Nat)
    (last : FMovieSceneSegment α) (rest : List (FMovieSceneSegment α)) :
    closeCompletedSegments fuel lowers uppers ov rc (last :: rest) =
      closeLoop fuel lowers uppers ov rc last rest := rfl

/-- The sweep exit when no lower bounds remain: the final
`CloseCompletedSegments` call empties the active set and terminates every
segment. -/
theorem sweepLoop_post_nil {S : List (FMovieSceneSectionData α)}
    (fuel : Nat) (Us : List (FBound α)) (ov : List FSectionEvaluationData)
    (rc : List Nat) (segsRev : List (FMovieSceneSegment α))
    (hstate : (ov = [] ∧ rc = [] ∧ segsRev = [] ∧ InitInv S ([] : List (FBound α)) Us) ∨
      (∃ CL CU pl closed,
        segsRev = ⟨⟨pl, TRangeBound.unbounded⟩, ov⟩ :: closed ∧
        OpenInv S CL ([] : List (FBound α)) CU Us ov rc pl closed)) :
    SweepOut S (sweepLoop fuel ([] : List (FBound α)) Us ov rc segsRev) := by
  rw [sweepLoop_nil]
  rcases hstate with ⟨hov, hrc, hseg, hI⟩ | ⟨CL, CU, pl, closed, hseg, hinv⟩
  · subst hov
    subst hrc
    subst hseg
    rw [closeCompleted_nil_segs]
    have hS : S = [] := by
      have h1 := hI.permL.symm.eq_nil
      exact List.map_eq_nil_iff.mp h1
    subst hS
    refine ⟨rfl, trivial, ?_⟩
    intro p
    refine Or.inr ?_
    rintro e ⟨sd, hsd, _, _⟩
    simp at hsd
  · subst hseg
    rw [closeCompleted_cons]
    obtain ⟨CU1, hpc⟩ := closeLoop_post Us.length CU Us ov rc pl closed hinv (le_refl _)
    have hUs1 : (closeLoop Us.length ([] : List (FBound α)) Us ov rc
        ⟨⟨pl, TRangeBound.unbounded⟩, ov⟩ closed).1 = [] := hpc.lsNil rfl
    have hov1 : (closeLoop Us.length ([] : List (FBound α)) Us ov rc
        ⟨⟨pl, TRangeBound.unbounded⟩, ov⟩ closed).2.1 = [] :=
      flat_zero_end hpc.ovOk hinv.permL hpc.permU hpc.bal hUs1
    refine ⟨hov1, hpc.chain, ?_⟩
    intro p
    refine hpc.exact p ?_
    intro b hb
    simp at hb

/-- The sweep-loop invariant is preserved to the end: from the initial or
any open state, the sweep produces an empty active set, an ordered and
disjoint reversed segment list, and exact coverage of every point. -/
theorem sweepLoop_post {S : List (FMovieSceneSectionData α)} :
    ∀ (fuel : Nat) (Ls Us : List (FBound α)) (ov : List FSectionEvaluationData)
      (rc : List Nat) (segsRev : List (FMovieSceneSegment α)),
    ((ov = [] ∧ rc = [] ∧ segsRev = [] ∧ InitInv S Ls Us) ∨
      (∃ CL CU pl closed,
        segsRev = ⟨⟨pl, TRangeBound.unbounded⟩, ov⟩ :: closed ∧
        OpenInv S CL Ls CU Us ov rc pl closed)) →
    Ls.length ≤ fuel →
    SweepOut S (sweepLoop fuel Ls Us ov rc segsRev) := by
  intro fuel
  induction fuel with
  | zero =>
    intro Ls Us ov rc segsRev hstate hfuel
    have hLs : Ls = [] := List.eq_nil_of_length_eq_zero (by omega)
    subst hLs
    exact sweepLoop_post_nil 0 Us ov rc segsRev hstate
  | succ f ih =>
    intro Ls Us ov rc segsRev hstate hfuel
    cases Ls with
    | nil => exact sweepLoop_post_nil (f + 1) Us ov rc segsRev hstate
    | cons hl lrest =>
      rcases hstate with ⟨hov, hrc, hseg, hI⟩ | ⟨CL, CU, pl, closed, hseg, hinv⟩
      · subst hov
        subst hrc
        subst hseg
        rw [sweepLoop_cons_succ]
        simp only [closeCompleted_nil_segs]
        have hok0 : OvOk [] ([] : List Nat) :=
          ⟨List.nodup_nil, rfl, fun n hn => absurd hn (List.not_mem_nil n)⟩
        obtain ⟨hok1, hdw1, hflat1⟩ := openBatch_spec hl.Bound (hl :: lrest) [] [] hok0
          (fun lb hlb => by
            rw [List.head?_cons, Option.some.injEq] at hlb
            rw [← hlb])
        rw [hdw1]
        obtain ⟨hsplit, hrunb, hrunlen, hLsle, hLsnu⟩ := open_run_facts hI.sortedL
        refine ih _ _ _ _ _
          (Or.inr ⟨(hl :: lrest).takeWhile fun x => decide (x.Bound = hl.Bound),
            [], hl.Bound, [], rfl, openInv_push_init hI⟩) ?_
        have h0 := congrArg List.length hsplit
        rw [List.length_append] at h0
        simp only [List.length_cons] at h0 hfuel
        omega
      · subst hseg
        rw [sweepLoop_cons_succ]
        rw [closeCompleted_cons]
        obtain ⟨CU1, hpc⟩ :=
          closeLoop_post Us.length CU Us ov rc pl closed hinv (le_refl _)
        obtain ⟨hok1, hdw1, hflat1⟩ := openBatch_spec hl.Bound (hl :: lrest)
          (closeLoop Us.length (hl :: lrest) Us ov rc
            ⟨⟨pl, TRangeBound.unbounded⟩, ov⟩ closed).2.1
          (closeLoop Us.length (hl :: lrest) Us ov rc
            ⟨⟨pl, TRangeBound.unbounded⟩, ov⟩ closed).2.2.1
          hpc.ovOk
          (fun lb hlb => by
            rw [List.head?_cons, Option.some.injEq] at hlb
            rw [← hlb])
        rw [hdw1]
        obtain ⟨hsplit, hrunb, hrunlen, hLsle, hLsnu⟩ :=
          open_run_facts (hinv.sortedL.sublist (List.sublist_append_right CL _))
        refine ih _ _ _ _ _
          (Or.inr ⟨CL ++ ((hl :: lrest).takeWhile fun x => decide (x.Bound = hl.Bound)),
            CU1, hl.Bound,
            (closeLoop Us.length (hl :: lrest) Us ov rc
              ⟨⟨pl, TRangeBound.unbounded⟩, ov⟩ closed).2.2.2, rfl,
            openInv_push_next hinv.srcNe hinv.permL hinv.sortedL hpc⟩) ?_
        have h0 := congrArg List.length hsplit
        rw [List.length_append] at h0
        simp only [List.length_cons] at h0 hfuel
        omega

end SweepLoopPost

/-! ### The rule-free compile: top-level consequences of the sweep invariant -/

section CompileClaims

variable {α : Type} [LinearOrder α]

open TRangeBound

theorem lowerCmp_total (a b : FBound α) :
    lowerCmp a b = false → lowerCmp b a = true := by
  rw [lowerCmp_eq, lowerCmp_eq]
  intro h
  rcases lowLE_total a.Bound b.Bound with h1 | h1
  · rw [h1] at h
    simp at h
  · exact h1

theorem upperCmp_total (a b : FBound α) :
    upperCmp a b = false → upperCmp b a = true := by
  rw [upperCmp_eq, upperCmp_eq]
  intro h
  rcases upLE_total a.Bound b.Bound with h1 | h1
  · rw [h1] at h
    simp at h
  · exact h1

theorem lowerCmp_trans (a b c : FBound α) :
    lowerCmp a b = true → lowerCmp b c = true → lowerCmp a c = true := by
  rw [lowerCmp_eq, lowerCmp_eq, lowerCmp_eq]
  exact fun h1 h2 => lowLE_trans h1 h2

theorem upperCmp_trans (a b c : FBound α) :
    upperCmp a b = true → upperCmp b c = true → upperCmp a c = true := by
  rw [upperCmp_eq, upperCmp_eq, upperCmp_eq]
  exact fun h1 h2 => upLE_trans h1 h2

/-- The event lists built at MovieSceneSegmentCompiler.cpp:93-116 form a
valid initial sweep state over the non-empty input sections. -/
theorem initInv_of_data (data : List (FMovieSceneSectionData α)) :
    InitInv (data.filter fun s => !s.Bounds.isEmpty)
      (FMovieSceneSegmentCompiler.sortedLowerBounds data)
      (FMovieSceneSegmentCompiler.sortedUpperBounds data) := by
  refine
    { srcNe := ?_
      permL := ?_
      permU := ?_
      sortedL := ?_
      sortedU := ?_ }
  · intro sd hsd
    have h1 := (List.mem_filter.mp hsd).2
    simpa using h1
  · exact stableSortBy_perm lowerCmp (FMovieSceneSegmentCompiler.rawLowerBounds data)
  · exact stableSortBy_perm upperCmp (FMovieSceneSegmentCompiler.rawUpperBounds data)
  · have h := stableSortBy_sorted lowerCmp
      (fun a b hab => lowerCmp_total a b hab)
      (fun a b c h1 h2 => lowerCmp_trans a b c h1 h2)
      (FMovieSceneSegmentCompiler.rawLowerBounds data)
    exact h.imp (fun hab => by rwa [lowerCmp_eq] at hab)
  · have h := stableSortBy_sorted upperCmp
      (fun a b hab => upperCmp_total a b hab)
      (fun a b c h1 h2 => upperCmp_trans a b c h1 h2)
      (FMovieSceneSegmentCompiler.rawUpperBounds data)
    exact h.imp (fun hab => by rwa [upperCmp_eq] at hab)

/-- The sweep postcondition, at the top level of the rule-free compile. -/
theorem compileSweep_post (data : List (FMovieSceneSectionData α)) :
    SweepOut (data.filter fun s => !s.Bounds.isEmpty)
      (FMovieSceneSegmentCompiler.compileSweep data) :=
  sweepLoop_post (FMovieSceneSegmentCompiler.sortedLowerBounds data).length
    (FMovieSceneSegmentCompiler.sortedLowerBounds data)
    (FMovieSceneSegmentCompiler.sortedUpperBounds data) [] [] []
    (Or.inl ⟨rfl, rfl, rfl, initInv_of_data data⟩) (le_refl _)

theorem chain'_pairwise {β : Type} {R : β → β → Prop}
    (htrans : ∀ a b c, R a b → R b c → R a c) :
    ∀ l : List β, l.Chain' R → l.Pairwise R := by
  intro l
  induction l with
  | nil => intro h; exact List.Pairwise.nil
  | cons a l ih =>
    intro h
    rw [List.chain'_cons'] at h
    have hp := ih h.2
    rw [List.pairwise_cons]
    refine ⟨?_, hp⟩
    intro b hb
    cases l with
    | nil => simp at hb
    | cons c t =>
      have hac : R a c := h.1 c rfl
      rcases List.mem_cons.mp hb with rfl | hbt
      · exact hac
      · exact htrans a c b hac ((List.pairwise_cons.mp hp).1 b hbt)

/-- A range strictly before another intersects it emptily, in both
argument orders. -/
theorem rangeBefore_not_overlaps {s t : TRange α}
    (h : FMovieSceneTrackCompiler.RangeBefore s t) :
    TRange.overlaps s t = false ∧ TRange.overlaps t s = false := by
  obtain ⟨hlt, hem⟩ := h
  have hle : lowLE s.lowerBound t.lowerBound = true := lowLE_of_lowLT hlt
  have hnle : lowLE t.lowerBound s.lowerBound = false := lowLT_iff.mp hlt
  constructor
  · unfold TRange.overlaps TRange.intersection TRangeBound.maxLower TRangeBound.minUpper
    rw [if_pos hle]
    by_cases hu : upLE s.upperBound t.upperBound = true
    · rw [if_pos hu]
      simp [hem]
    · rw [if_neg hu]
      have hut : upLE t.upperBound s.upperBound = true := by
        rcases upLE_total s.upperBound t.upperBound with h1 | h1
        · exact absurd h1 hu
        · exact h1
      have h2 := TRange.isEmpty_anti_upper hut hem
      simp [h2]
  · unfold TRange.overlaps TRange.intersection TRangeBound.maxLower TRangeBound.minUpper
    rw [if_neg (by simp [hnle])]
    by_cases hu : upLE t.upperBound s.upperBound = true
    · rw [if_pos hu]
      have h2 := TRange.isEmpty_anti_upper hu hem
      simp [h2]
    · rw [if_neg hu]
      simp [hem]

/-- A point contained in a range forces the range non-empty. -/
theorem memR_nonempty {r : TRange α} {p : α} (hp : TRange.memR r p = true) :
    TRange.isEmpty r = false := by
  cases hE : TRange.isEmpty r with
  | false => rfl
  | true =>
    exfalso
    simp only [TRange.memR, Bool.and_eq_true] at hp
    refine TRange.isEmpty_no_mem ?_ ⟨hp.1, hp.2⟩
    rw [show (⟨r.lowerBound, r.upperBound⟩ : TRange α) = r from rfl]
    exact hE

/-- C7: for every input (each non-empty section contributing exactly one
lower-bound and one matching upper-bound event, which the event-list
construction guarantees), the sweep of the rule-free `Compile` terminates
with an empty active set — every opened `EvaluationData` is closed — so
the end-of-compile assertion at MovieSceneSegmentCompiler.cpp:151 that
`OverlappingSections` is empty never fails. -/
theorem compileSweep_active_set_empty (data : List (FMovieSceneSectionData α)) :
    (FMovieSceneSegmentCompiler.compileSweep data).1 = [] :=
  (compileSweep_post data).1

/-- C2: for every input list of sections compiled without rules, the
returned segment list is ordered by strictly increasing lower bound, and
every pair of distinct returned segments has non-overlapping (empty
intersection) ranges, in both orders. -/
theorem compile_sorted_strict_and_disjoint (data : List (FMovieSceneSectionData α)) :
    (FMovieSceneSegmentCompiler.compile data).Pairwise fun s t =>
      lowLT s.Range.lowerBound t.Range.lowerBound = true ∧
      TRange.overlaps s.Range t.Range = false ∧
      TRange.overlaps t.Range s.Range = false := by
  have hchain := (compileSweep_post data).2.1
  have hchain2 : ((FMovieSceneSegmentCompiler.compileSweep data).2.reverse).Chain'
      (fun s t => FMovieSceneTrackCompiler.RangeBefore s.Range t.Range) :=
    List.chain'_reverse.mpr hchain
  have hpair := chain'_pairwise
    (β := FMovieSceneSegment α)
    (R := fun s t => FMovieSceneTrackCompiler.RangeBefore s.Range t.Range)
    (fun a b c h1 h2 => rangeBefore_trans h1 h2) _ hchain2
  exact hpair.imp (fun h =>
    ⟨h.1, (rangeBefore_not_overlaps h).1, (rangeBefore_not_overlaps h).2⟩)

/-- C1: for every input list of sections compiled without rules and every
point `p` contained in the range of some input section, there is an output
segment whose range contains `p` and whose `Impls` are exactly the
`EvalData` of the input sections whose range contains `p` — the given
section included and no others. -/
theorem compile_covers_point_exactly (data : List (FMovieSceneSectionData α))
    (sd : FMovieSceneSectionData α) (p : α)
    (hsd : sd ∈ data) (hp : sd.Bounds.memR p = true) :
    ∃ seg ∈ FMovieSceneSegmentCompiler.compile data,
      seg.Range.memR p = true ∧
      ∀ e, (e ∈ seg.Impls ↔
        ∃ sd2 ∈ data, sd2.EvalData = e ∧ sd2.Bounds.memR p = true) := by
  have hout := (compileSweep_post data).2.2 p
  have hne : sd.Bounds.isEmpty = false := memR_nonempty hp
  have hact : ActiveAt (data.filter fun s => !s.Bounds.isEmpty) sd.EvalData p :=
    ⟨sd, List.mem_filter.mpr ⟨hsd, by simp [hne]⟩, rfl, hp⟩
  rcases hout with ⟨seg, hm, hr, hi⟩ | hnone
  · refine ⟨seg, List.mem_reverse.mpr hm, hr, ?_⟩
    intro e
    rw [hi e]
    constructor
    · rintro ⟨sd2, hsd2, hev, hm2⟩
      exact ⟨sd2, (List.mem_filter.mp hsd2).1, hev, hm2⟩
    · rintro ⟨sd2, hsd2, hev, hm2⟩
      exact ⟨sd2, List.mem_filter.mpr ⟨hsd2, by simp [memR_nonempty hm2]⟩, hev, hm2⟩
  · exact absurd hact (hnone sd.EvalData)

/-- Witness for `compile_covers_point_exactly`: the section `[0, 2)` with
evaluation data `0`, at the point `1`. -/
theorem compile_covers_point_exactly_witness :
    ((⟨⟨TRangeBound.inclusive 0, TRangeBound.exclusive 2⟩, evalData 0, 0⟩ :
        FMovieSceneSectionData Int) ∈
      ([⟨⟨TRangeBound.inclusive 0, TRangeBound.exclusive 2⟩, evalData 0, 0⟩] :
        List (FMovieSceneSectionData Int))) ∧
    (⟨⟨TRangeBound.inclusive 0, TRangeBound.exclusive 2⟩, evalData 0, 0⟩ :
        FMovieSceneSectionData Int).Bounds.memR 1 = true ∧
    (∃ seg ∈ FMovieSceneSegmentCompiler.compile
        ([⟨⟨TRangeBound.inclusive 0, TRangeBound.exclusive 2⟩, evalData 0, 0⟩] :
          List (FMovieSceneSectionData Int)),
      seg.Range.memR 1 = true ∧
      ∀ e, (e ∈ seg.Impls ↔
        ∃ sd2 ∈ ([⟨⟨TRangeBound.inclusive 0, TRangeBound.exclusive 2⟩, evalData 0, 0⟩] :
          List (FMovieSceneSectionData Int)),
          sd2.EvalData = e ∧ sd2.Bounds.memR 1 = true)) :=
  ⟨by decide, by decide,
    compile_covers_point_exactly
      ([⟨⟨TRangeBound.inclusive 0, TRangeBound.exclusive 2⟩, evalData 0, 0⟩] :
        List (FMovieSceneSectionData Int))
      (⟨⟨TRangeBound.inclusive 0, TRangeBound.exclusive 2⟩, evalData 0, 0⟩ :
        FMovieSceneSectionData Int)
      1 (by decide) (by decide)⟩

end CompileClaims

end MovieScene
